import Mathlib

/-!
Suffix-array construction and Burrows–Wheeler transform

A shallow embedding of `Compression/saca.c` (induced-sorting suffix-array
construction without a sentinel), `Algorithms/bwt.c` (forward and inverse
Burrows–Wheeler transform) and `Algorithms/crc32.c` (table-driven CRC-32),
followed by theorems about them.

Conventions of the embedding:

* A C array of `int` is a `List Int`.  Every array read and write is checked:
  an access outside the array makes the whole computation `none`, so a result
  `some _` means the C code ran without touching memory out of bounds.
* `int` values never leave the range `[-2, n]` in `saca.c`, so they are plain
  integers; the `uint32_t` variables of `inverse_bwt` are reduced modulo `2^32`
  where a wrap-around can happen.
* A symbol sequence is the list of its decoded symbols: `chr(i)` is the `i`-th
  element.  The symbol width `cs` only selects how `chr` decodes memory and is
  not a parameter of the model.
* A byte of memory is a value in `[0, 256)`.  `chr` of `saca.c` reads it through
  `unsigned char`, as it is.  `bwt.c` reads it through a plain `char`, which is
  signed in the build modelled here (the usual x86 one): where `inverse_bwt`
  uses `data[i]` as an index, a byte `b ≥ 128` is the index `b - 256`.
* The type bitmap `t` is a `List Bool` of length `n` (`true` = S-type).
* A `for` loop is one of the combinators `loopUp` / `loopDown`; a loop with a
  `break` is a recursive function on the number of remaining iterations; a
  loop that rewrites every slot of a table in order is a pass over the list.
* The `uint32_t` values of `crc32.c` are natural numbers: shifts, AND and XOR of
  32-bit values stay within 32 bits; the one subtraction that wraps around and
  the complement are written out modulo `2^32`.
* A scratch array that the code fills completely before reading it (`bucket`
  after `memset`, `SA` after it is cleared, `out`, `lut`, `pos`) starts as a
  list of the right length; its previous contents are not a parameter.
-/

namespace Smorgasbord

/-! ## Checked memory accesses -/

/-- Read of `a[i]`. -/
def rd (a : List Int) (i : Int) : Option Int :=
  if 0 ≤ i then a[i.toNat]? else none

/-- Write `a[i] = v`. -/
def wr (a : List Int) (i : Int) (v : Int) : Option (List Int) :=
  if 0 ≤ i ∧ i.toNat < a.length then some (a.set i.toNat v) else none

/-- Macro `tget(i)`: the type bit of position `i`. -/
def tget (t : List Bool) (i : Int) : Option Bool :=
  if 0 ≤ i then t[i.toNat]? else none

/-- Macro `tset(i, b)`. -/
def tset (t : List Bool) (i : Int) (b : Bool) : Option (List Bool) :=
  if 0 ≤ i ∧ i.toNat < t.length then some (t.set i.toNat b) else none

/-- Macro `chr(i)`: the symbol at position `i`. -/
def chr (s : List Int) (i : Int) : Option Int := rd s i

/-- Macro `isLMS(i)`: `i>0 && tget(i) && !tget(i-1)`, evaluated left to right. -/
def isLMS (t : List Bool) (i : Int) : Option Bool :=
  if 0 < i then
    (tget t i).bind fun a =>
      if a then (tget t (i - 1)).bind fun b => some (!b) else some false
  else some false

/-! ## Loops -/

/-- Loop `for (i = lo; i < lo + cnt; ++i) st = body i st`. -/
def loopUp {σ : Type} (body : Nat → σ → Option σ) : Nat → Nat → σ → Option σ
  | 0, _, st => some st
  | cnt + 1, i, st => (body i st).bind (loopUp body cnt (i + 1))

/-- Loop `for (i = lo + cnt - 1; i >= lo; --i) st = body i st`. -/
def loopDown {σ : Type} (body : Nat → σ → Option σ) (lo : Nat) : Nat → σ → Option σ
  | 0, st => some st
  | cnt + 1, st => (body (lo + cnt) st).bind (loopDown body lo cnt)

/-! ## `get_buckets` -/

/-- Body of `for(i=0; i<n; ++i) ++bucket[chr(i)];`. -/
def countStep (s : List Int) (i : Nat) (bucket : List Int) : Option (List Int) :=
  (chr s i).bind fun c => (rd bucket c).bind fun v => wr bucket c (v + 1)

/-- The tail loop `for(i=0; i<k; ++i) { sum+=bucket[i]; bucket[i]=sum-1; }`,
as a pass over the `k` counters with the running `sum`. -/
def tailLoop : Int → List Int → List Int
  | _, [] => []
  | sum, v :: bucket => (sum + v - 1) :: tailLoop (sum + v) bucket

/-- The head loop `for(i=0; i<k; ++i) { sum+=bucket[i]; bucket[i]=sum-bucket[i]; }`,
as a pass over the `k` counters with the running `sum`. -/
def headLoop : Int → List Int → List Int
  | _, [] => []
  | sum, v :: bucket => (sum + v - v) :: headLoop (sum + v) bucket

/-- Function `get_buckets(s, bucket, n, k, cs, tail)`: the new contents of the `k`
slots of `bucket`. -/
def get_buckets (s : List Int) (n k : Nat) (tail : Bool) : Option (List Int) :=
  (loopUp (countStep s) n 0 (List.replicate k 0)).bind fun b =>
    some (if tail then tailLoop 0 b else headLoop 0 b)

/-! ## `induce_sa` -/

/-- Statement `SA[bucket[chr(j)]++]=j;` (for `d = 1`) or `SA[bucket[chr(j)]--]=j;`
(for `d = -1`), on the state `(SA, bucket)`. -/
def place (s : List Int) (d : Int) (j : Int) (st : List Int × List Int) :
    Option (List Int × List Int) :=
  (chr s j).bind fun c => (rd st.2 c).bind fun h =>
    (wr st.1 h j).bind fun sa => (wr st.2 c (h + d)).bind fun b => some (sa, b)

/-- Body of the left-to-right scan:
`j = SA[i]-1; if(j>=0 && !tget(j)) SA[bucket[chr(j)]++]=j;`. -/
def scanL (t : List Bool) (s : List Int) (i : Nat) (st : List Int × List Int) :
    Option (List Int × List Int) :=
  (rd st.1 i).bind fun v =>
    if 0 ≤ v - 1 then
      (tget t (v - 1)).bind fun b => if b then some st else place s 1 (v - 1) st
    else some st

/-- Body of the right-to-left scan:
`j = SA[i]-1; if(j>=0 && tget(j)) SA[bucket[chr(j)]--]=j;`. -/
def scanS (t : List Bool) (s : List Int) (i : Nat) (st : List Int × List Int) :
    Option (List Int × List Int) :=
  (rd st.1 i).bind fun v =>
    if 0 ≤ v - 1 then
      (tget t (v - 1)).bind fun b => if b then place s (-1) (v - 1) st else some st
    else some st

/-- Function `induce_sa(t, SA, s, bucket, n, k, cs)`: the new contents of `SA`. -/
def induce_sa (t : List Bool) (SA s : List Int) (n k : Nat) : Option (List Int) :=
  (get_buckets s n k false).bind fun b =>
  (place s 1 ((n : Int) - 1) (SA, b)).bind fun st =>
  (loopUp (scanL t s) n 0 st).bind fun st =>
  (get_buckets s n k true).bind fun b =>
  (loopDown (scanS t s) 0 n (st.1, b)).bind fun st => some st.1

/-! ## `construct_suffix_array` -/

/-- Body of the classification loop:
`tset(i, (chr(i)<chr(i+1) || (chr(i)==chr(i+1) && tget(i+1)==1))?1:0);`. -/
def classifyStep (s : List Int) (i : Nat) (t : List Bool) : Option (List Bool) :=
  (chr s i).bind fun a => (chr s ((i : Int) + 1)).bind fun b =>
    if a < b then tset t i true
    else if a = b then (tget t ((i : Int) + 1)).bind fun x => tset t i x
    else tset t i false

/-- Lines 101-112, the type bitmap: `tset(n-1, 0)`, then the loop over `i = n-2 .. 0`. -/
def classify (s : List Int) (n : Nat) : Option (List Bool) :=
  (tset (List.replicate n false) ((n : Int) - 1) false).bind fun t =>
    loopDown (classifyStep s) 0 (n - 1) t

/-- Loop `for(i=lo; i<lo+cnt; ++i) SA[i]=-1;`. -/
def clear (SA : List Int) (lo cnt : Nat) : Option (List Int) :=
  loopUp (fun i sa => wr sa i (-1)) cnt lo SA

/-- Body of `for(i=1; i<n;++i) if(isLMS(i)) SA[bucket[chr(i)]--]=i;`. -/
def seedStep (t : List Bool) (s : List Int) (i : Nat) (st : List Int × List Int) :
    Option (List Int × List Int) :=
  (isLMS t i).bind fun b => if b then place s (-1) i st else some st

/-- Lines 114-132, the first induced sort: `SA` after the LMS positions are put at
their bucket tails and `induce_sa` has run. -/
def sort_lms (t : List Bool) (s : List Int) (n k : Nat) : Option (List Int) :=
  (get_buckets s n k true).bind fun bucket =>
  (clear (List.replicate n 0) 0 n).bind fun SA =>
  (loopUp (seedStep t s) (n - 1) 1 (SA, bucket)).bind fun st =>
  induce_sa t st.1 s n k

/-- Body of `for(i=0; i<n; ++i) if(isLMS(SA[i])) SA[n1++]=SA[i];`, state `(SA, n1)`. -/
def extractStep (t : List Bool) (i : Nat) (st : List Int × Nat) : Option (List Int × Nat) :=
  (rd st.1 i).bind fun v => (isLMS t v).bind fun b =>
    if b then (wr st.1 st.2 v).bind fun sa => some (sa, st.2 + 1) else some st

/-- Lines 134-142: the sorted LMS positions moved to the front of `SA`, the rest
set to `-1`; the result is `(SA, n1)`. -/
def extract_lms (t : List Bool) (SA : List Int) (n : Nat) : Option (List Int × Nat) :=
  (loopUp (extractStep t) n 0 (SA, 0)).bind fun st =>
  (clear st.1 st.2 (n - st.2)).bind fun sa => some (sa, st.2)

/-- The inner comparison loop `for(j=0; j<n; ++j)` of the naming stage, started at
`j` with `cnt` iterations left; the result is the final value of `diff`. -/
def lmsDiff (t : List Bool) (s : List Int) (n : Nat) (idx prev : Int) : Nat → Nat → Option Bool
  | 0, _ => some false
  | cnt + 1, j =>
    if prev = -1 ∨ idx + j = n ∨ prev + j = n then some true else
    (chr s (idx + j)).bind fun a => (chr s (prev + j)).bind fun b =>
    if a ≠ b then some true else
    (tget t (idx + j)).bind fun x => (tget t (prev + j)).bind fun y =>
    if x ≠ y then some true else
    if 0 < j then
      (isLMS t (idx + j)).bind fun l1 =>
      if l1 then some false else
      (isLMS t (prev + j)).bind fun l2 =>
      if l2 then some false else
      if idx + j = (n : Int) - 1 ∨ prev + j = (n : Int) - 1 then some false
      else lmsDiff t s n idx prev cnt (j + 1)
    else lmsDiff t s n idx prev cnt (j + 1)

/-- Body of the naming loop `for(i=0; i<n1; ++i)`, state `(SA, name, prev)`. -/
def nameStep (t : List Bool) (s : List Int) (n n1 : Nat) (i : Nat)
    (st : List Int × Int × Int) : Option (List Int × Int × Int) :=
  (rd st.1 i).bind fun idx =>
  (lmsDiff t s n idx st.2.2 n 0).bind fun diff =>
  (wr st.1 ((n1 : Int) + Int.tdiv idx 2) ((if diff then st.2.1 + 1 else st.2.1) - 1)).bind
    fun sa => some (sa, if diff then st.2.1 + 1 else st.2.1, if diff then idx else st.2.2)

/-- Body of `for(i=n-1, j=n-1; i>=n1; --i) if(SA[i]>=0) SA[j--]=SA[i];`, state `(SA, j)`. -/
def compactStep (i : Nat) (st : List Int × Int) : Option (List Int × Int) :=
  (rd st.1 i).bind fun v =>
    if 0 ≤ v then (wr st.1 st.2 v).bind fun sa => some (sa, st.2 - 1) else some st

/-- Lines 144-194: the LMS substrings named and the names compacted into
`s1 = SA[n-n1 .. n)`; the result is `(SA, name)`. -/
def name_lms (t : List Bool) (s SA : List Int) (n n1 : Nat) : Option (List Int × Int) :=
  (loopUp (nameStep t s n n1) n1 0 (SA, 0, -1)).bind fun st =>
  (loopDown compactStep n1 (n - n1) (st.1, (n : Int) - 1)).bind fun st2 =>
    some (st2.1, st.2.1)

/-- Body of `for(i=0; i<n1; ++i) SA[s1[i]]=i;` with `s1 = SA+n-n1`. -/
def invStep (n n1 : Nat) (i : Nat) (SA : List Int) : Option (List Int) :=
  (rd SA ((n : Int) - n1 + i)).bind fun v => wr SA v i

/-- Body of `for(i=1, j=0; i<n; ++i) if(isLMS(i)) s1[j++]=i;`, state `(SA, j)`. -/
def lmsListStep (t : List Bool) (n n1 : Nat) (i : Nat) (st : List Int × Int) :
    Option (List Int × Int) :=
  (isLMS t i).bind fun b =>
    if b then (wr st.1 ((n : Int) - n1 + st.2) i).bind fun sa => some (sa, st.2 + 1)
    else some st

/-- Body of `for(i=0; i<n1; ++i) SA[i]=s1[SA[i]];`. -/
def recoverStep (n n1 : Nat) (i : Nat) (SA : List Int) : Option (List Int) :=
  (rd SA i).bind fun v => (rd SA ((n : Int) - n1 + v)).bind fun w => wr SA i w

/-- Body of `for(i=n1-1; i>=0; --i) { j=SA[i]; SA[i]=-1; SA[bucket[chr(j)]--] = j; }`. -/
def reseedStep (s : List Int) (i : Nat) (st : List Int × List Int) :
    Option (List Int × List Int) :=
  (rd st.1 i).bind fun j => (wr st.1 i (-1)).bind fun sa => place s (-1) j (sa, st.2)

/-- Lines 207-224, stage 3: from `SA` holding the suffix array of `s1` in its
first `n1` slots to the final suffix array. -/
def induce_final (t : List Bool) (s SA : List Int) (n k n1 : Nat) : Option (List Int) :=
  (get_buckets s n k true).bind fun bucket =>
  (loopUp (lmsListStep t n n1) (n - 1) 1 (SA, 0)).bind fun st =>
  (loopUp (recoverStep n n1) n1 0 st.1).bind fun SA =>
  (clear SA n1 (n - n1)).bind fun SA =>
  (loopDown (reseedStep s) 0 n1 (SA, bucket)).bind fun st =>
  induce_sa t st.1 s n k

/-- Function `construct_suffix_array(s, SA, n, k, cs)` with a bound on the recursion
depth: the `n` entries written to `SA`.

The recursive call reads its input `s1` from `SA[n-n1 .. n)` and writes
`SA[0 .. n1)`; the model hands it a copy of `s1`, which is the same thing as long
as the two regions are disjoint, and gives up (`none`) otherwise. -/
def construct_suffix_array_aux : Nat → List Int → Nat → Nat → Option (List Int)
  | 0, _, _, _ => none
  | fuel + 1, s, n, k =>
    (classify s n).bind fun t =>
    (sort_lms t s n k).bind fun SA =>
    (extract_lms t SA n).bind fun e =>
    (name_lms t s e.1 n e.2).bind fun r =>
    (if r.2 < e.2 then
        if n < 2 * e.2 then none else
        (construct_suffix_array_aux fuel (r.1.drop (n - e.2)) e.2 r.2.toNat).bind fun sa1 =>
          some (sa1 ++ r.1.drop e.2)
      else loopUp (invStep n e.2) e.2 0 r.1).bind fun SA =>
    induce_final t s SA n k e.2

/-- Function `construct_suffix_array(s, SA, n, k, cs)`: the `n` entries written to
`SA`.  The reduced problem is less than half as long, so depth `n` is never reached. -/
def construct_suffix_array (s : List Int) (n k : Nat) : Option (List Int) :=
  construct_suffix_array_aux n s n k

/-- The value of `n1` after line 139 of `construct_suffix_array`, at the level of
the recursion that is called with `s`, `n` and `k`: the number of entries moved
to the front of `SA`, which is the length of the reduced problem. -/
def reduced_length (s : List Int) (n k : Nat) : Option Nat :=
  (classify s n).bind fun t => (sort_lms t s n k).bind fun SA =>
    (extract_lms t SA n).bind fun e => some e.2

/-- The arguments `(s1, n1, name)` of the recursive call at line 200, when the
level called with `s`, `n` and `k` makes one (`name < n1`). -/
def reduced_problem (s : List Int) (n k : Nat) : Option (List Int × Nat × Nat) :=
  (classify s n).bind fun t => (sort_lms t s n k).bind fun SA =>
    (extract_lms t SA n).bind fun e => (name_lms t s e.1 n e.2).bind fun r =>
      if r.2 < e.2 then some (r.1.drop (n - e.2), e.2, r.2.toNat) else none

/-- The arguments of the call at depth `d` of the recursion started by
`construct_suffix_array(s, SA, n, k, cs)`; depth `0` is that call itself. -/
def recursion_level (s : List Int) (n k : Nat) : Nat → Option (List Int × Nat × Nat)
  | 0 => some (s, n, k)
  | d + 1 => (recursion_level s n k d).bind fun a => reduced_problem a.1 a.2.1 a.2.2

/-! ## `bwt` and `inverse_bwt` -/

/-- Body of the permutation loop of `bwt`, state `(out, j, zeroIdx)`:
`if(SA[i]) out[j++] = data[SA[i]-1]; else zeroIdx = i+1;`. -/
def bwtStep (data SA : List Int) (i : Nat) (st : List Int × Int × Int) :
    Option (List Int × Int × Int) :=
  (rd SA i).bind fun v =>
    if v ≠ 0 then
      (rd data (v - 1)).bind fun c => (wr st.1 st.2.1 c).bind fun out =>
        some (out, st.2.1 + 1, st.2.2)
    else some (st.1, st.2.1, (i : Int) + 1)

/-- Lines 28-43 of `bwt`, after the suffix array is built: from the data and the
array `SA` to the `n` bytes of `out` and the returned zero index. -/
def bwt_permute (data SA : List Int) (n : Nat) : Option (List Int × Int) :=
  (rd data ((n : Int) - 1)).bind fun c =>
  (wr (List.replicate n 0) 0 c).bind fun out =>
  (loopUp (bwtStep data SA) n 0 (out, 1, -1)).bind fun st => some (st.1, st.2.2)

/-- Function `bwt(data, out, n, wb)`: the bytes written to `out` and the returned
value.  The work buffer `wb` is the array `SA`. -/
def bwt (data : List Int) (n : Nat) : Option (List Int × Int) :=
  (construct_suffix_array data n 256).bind fun SA => bwt_permute data SA n

/-- The value of the byte `b` read through a plain `char`, which is signed: the
bytes from 128 on are negative. -/
def char_value (b : Int) : Int := if b < 128 then b else b - 256

/-- Body of `for(i=0; i<n; ++i) ++pos[data[i]];`.  The index `data[i]` is a plain
`char`: for a byte from 128 on it is negative, outside `pos`. -/
def posCountStep (data : List Int) (i : Nat) (pos : List Int) : Option (List Int) :=
  (rd data i).bind fun c => (rd pos (char_value c)).bind fun v =>
    wr pos (char_value c) ((v + 1) % 2 ^ 32)

/-- The loop `for(i=0, offset=0; i<256; ++i) { t = pos[i]; pos[i] = offset; offset += t; }`,
as a pass over the 256 counters with the running `offset`. -/
def offsetLoop : Int → List Int → List Int
  | _, [] => []
  | offset, t :: pos => offset :: offsetLoop ((offset + t) % 2 ^ 32) pos

/-- Body of the two loops filling `lut`: `lut[pos[data[i]]++] = i + d`,
state `(lut, pos)`.  The index `data[i]` of `pos` is a plain `char`, as in the
counting loop. -/
def lutStep (data : List Int) (d : Int) (i : Nat) (st : List Int × List Int) :
    Option (List Int × List Int) :=
  (rd data i).bind fun c => (rd st.2 (char_value c)).bind fun p =>
    (wr st.1 p (((i : Int) + d) % 2 ^ 32)).bind fun lut =>
      (wr st.2 (char_value c) ((p + 1) % 2 ^ 32)).bind fun pos => some (lut, pos)

/-- The binary search of `inverse_bwt`: the loop `while(imax>=imin)`, with a bound on
the number of iterations; the result is the final `imax`. -/
def bsearch (pos : List Int) (t : Int) : Nat → Int → Int → Option Int
  | 0, _, _ => none
  | fuel + 1, imin, imax =>
    if imax ≥ imin then
      (rd pos ((imax + imin) / 2)).bind fun p =>
        if p < t then bsearch pos t fuel ((imax + imin) / 2 + 1) imax
        else bsearch pos t fuel imin ((imax + imin) / 2 - 1)
    else some imax

/-- Body of the reconstruction loop, state `(out, t)`:
the binary search, then `out[i] = (char)(imax+1); t = lut[t-1];`. -/
def decodeStep (pos lut : List Int) (i : Nat) (st : List Int × Int) :
    Option (List Int × Int) :=
  (bsearch pos st.2 257 0 255).bind fun imax =>
    (wr st.1 i ((imax + 1) % 256)).bind fun out =>
      (rd lut ((st.2 - 1) % 2 ^ 32)).bind fun t => some (out, t)

/-- Function `inverse_bwt(data, out, n, zeroIdx, wb)`: the `n` bytes written to `out`.
The work buffer `wb` is the array `lut` of `n` slots.  The loop counter `i` and
`t` are `uint32_t`, so `zeroIdx` is taken modulo `2^32`.  The bytes of `data`
index `pos` as plain `char` values, so a byte from 128 on makes the run leave
`pos`; the byte stored by `out[i] = (char)(imax+1)` is `imax+1` modulo 256. -/
def inverse_bwt (data : List Int) (n : Nat) (zeroIdx : Int) : Option (List Int) :=
  (loopUp (posCountStep data) n 0 (List.replicate 256 0)).bind fun pos =>
  (loopUp (lutStep data 0) (zeroIdx % 2 ^ 32).toNat 0
    (List.replicate n 0, offsetLoop 0 pos)).bind fun st =>
  (loopUp (lutStep data 1) (n - (zeroIdx % 2 ^ 32).toNat) (zeroIdx % 2 ^ 32).toNat st).bind
    fun st =>
  (loopUp (decodeStep st.2 st.1) n 0 (List.replicate n 0, zeroIdx % 2 ^ 32)).bind fun st =>
    some st.1

/-! ## Vocabulary of the specification -/

/-- The precondition of the builder: `n` symbols, all in `[0, k)`. -/
def ValidInput (s : List Int) (n k : Nat) : Prop :=
  s.length = n ∧ ∀ x ∈ s, 0 ≤ x ∧ x < (k : Int)

instance (s : List Int) (n k : Nat) : Decidable (ValidInput s n k) := by
  unfold ValidInput; infer_instance

/-- The contents of slot `x` of an array. -/
def cell (a : List Int) (x : Nat) : Int := a.getD x 0

/-- The symbol at position `j`. -/
def sym (s : List Int) (j : Nat) : Int := s.getD j 0

/-- The type of position `j`: `true` for S-type, `false` for L-type. -/
def typ (t : List Bool) (j : Nat) : Bool := t.getD j false

/-- Position `j` is an LMS position. -/
def LMS (t : List Bool) (j : Nat) : Prop := 0 < j ∧ typ t j = true ∧ typ t (j - 1) = false

instance (t : List Bool) (j : Nat) : Decidable (LMS t j) := by unfold LMS; infer_instance

/-- The number of positions `j < n` with property `p`. -/
def countPos (n : Nat) (p : Nat → Prop) [DecidablePred p] : Nat :=
  ((Finset.range n).filter p).card

/-- Head of the bucket of `c`: the number of symbols smaller than `c`. -/
def bHead (s : List Int) (c : Int) : Nat := countPos s.length fun j => sym s j < c

/-- End of the bucket of `c`: the number of symbols not larger than `c`. -/
def bEnd (s : List Int) (c : Int) : Nat := countPos s.length fun j => sym s j ≤ c

/-- Start of the S-type part of the bucket of `c`: its head plus the number of
L-type positions with symbol `c`. -/
def bMid (s : List Int) (t : List Bool) (c : Int) : Nat :=
  bHead s c + countPos s.length fun j => sym s j = c ∧ typ t j = false

/-- The bitmap `t` classifies the positions of `s`: the last one is L-type, and
position `i` is S-type when its symbol is smaller than the next one, or equal
and the next position is S-type. -/
def Classified (s : List Int) (t : List Bool) : Prop :=
  t.length = s.length ∧ typ t (s.length - 1) = false ∧
  ∀ i, i + 1 < s.length →
    typ t i = (decide (sym s i < sym s (i + 1)) ||
      (decide (sym s i = sym s (i + 1)) && typ t (i + 1)))

/-- The bucket pointer of symbol `c` in the table `B`. -/
def bp (B : List Int) (c : Int) : Int := cell B c.toNat

/-- Invariant of the left-to-right scan of `induce_sa` before slot `i` is read.
L-type positions fill their buckets from the head up to the bucket pointer, LMS
positions wait in the S-type part of their buckets, a placed L-type position
`j` has its successor `j+1` in a slot to its left that was already read, and
the predecessor of every slot already read is placed if it is L-type. -/
structure LInv (s : List Int) (t : List Bool) (k i : Nat) (SA B : List Int) : Prop where
  lenSA : SA.length = s.length
  lenB : B.length = k
  bnd : ∀ c : Int, 0 ≤ c → c < k → (bHead s c : Int) ≤ bp B c ∧ bp B c ≤ bMid s t c
  cls : ∀ x, x < s.length → cell SA x = -1 ∨ ∃ j : Nat, j < s.length ∧ cell SA x = j ∧
    ((typ t j = false ∧ (bHead s (sym s j) : Int) ≤ x ∧ (x : Int) < bp B (sym s j)) ∨
     (LMS t j ∧ bMid s t (sym s j) ≤ x ∧ x < bEnd s (sym s j)))
  filled : ∀ c : Int, 0 ≤ c → c < k → ∀ x : Nat, (bHead s c : Int) ≤ x → (x : Int) < bp B c →
    cell SA x ≠ -1
  empty : ∀ c : Int, 0 ≤ c → c < k → ∀ x : Nat, bp B c ≤ x → x < bMid s t c → cell SA x = -1
  inj : ∀ x y, x < s.length → y < s.length → cell SA x = cell SA y → cell SA x ≠ -1 → x = y
  pred : ∀ x j : Nat, x < s.length → cell SA x = j → typ t j = false → j + 1 < s.length →
    ∃ y, y < i ∧ y < x ∧ cell SA y = (j : Int) + 1
  succ : ∀ y j : Nat, y < i → y < s.length → cell SA y = (j : Int) + 1 → typ t j = false →
    ∃ x, x < s.length ∧ cell SA x = j
  lms : ∀ p, LMS t p → ∃ x, x < s.length ∧ cell SA x = p
  last : ∃ x, x < s.length ∧ cell SA x = (s.length : Int) - 1

/-- The state of `SA` when `induce_sa` is called: every LMS position sits once
in the S-type part of its bucket, every other slot is `-1`. -/
structure Seeded (s : List Int) (t : List Bool) (SA : List Int) : Prop where
  lenSA : SA.length = s.length
  cls : ∀ x, x < s.length → cell SA x = -1 ∨ ∃ j : Nat, j < s.length ∧ cell SA x = j ∧
    LMS t j ∧ bMid s t (sym s j) ≤ x ∧ x < bEnd s (sym s j)
  inj : ∀ x y, x < s.length → y < s.length → cell SA x = cell SA y → cell SA x ≠ -1 → x = y
  lms : ∀ p, LMS t p → ∃ x, x < s.length ∧ cell SA x = p

/-- Invariant of the right-to-left scan of `induce_sa` after the slots `i ..` have
been read.  The L-type parts of the buckets are final; S-type positions fill
their buckets from the tail down to the bucket pointer; below the pointer a slot
holds `-1` or a left-over LMS position. -/
structure SInv (s : List Int) (t : List Bool) (k i : Nat) (SA B : List Int) : Prop where
  lenSA : SA.length = s.length
  lenB : B.length = k
  bnd : ∀ c : Int, 0 ≤ c → c < k → (bMid s t c : Int) - 1 ≤ bp B c ∧ bp B c ≤ (bEnd s c : Int) - 1
  cls : ∀ x, x < s.length → cell SA x = -1 ∨ ∃ j : Nat, j < s.length ∧ cell SA x = j ∧
    ((typ t j = false ∧ bHead s (sym s j) ≤ x ∧ x < bMid s t (sym s j)) ∨
     (typ t j = true ∧ bMid s t (sym s j) ≤ x ∧ x < bEnd s (sym s j) ∧
       ((x : Int) ≤ bp B (sym s j) → LMS t j)))
  allL : ∀ j, j < s.length → typ t j = false → ∃ x, x < s.length ∧ cell SA x = j
  filled : ∀ c : Int, 0 ≤ c → c < k → ∀ x : Nat, bp B c < x → x < bEnd s c → cell SA x ≠ -1
  injL : ∀ x y j : Nat, x < s.length → y < s.length → cell SA x = j → cell SA y = j →
    typ t j = false → x = y
  injS : ∀ x y j : Nat, x < s.length → y < s.length → cell SA x = j → cell SA y = j →
    typ t j = true → bp B (sym s j) < x → bp B (sym s j) < y → x = y
  pred : ∀ x j : Nat, x < s.length → cell SA x = j → typ t j = true → bp B (sym s j) < x →
    ∃ y, i ≤ y ∧ x < y ∧ y < s.length ∧ cell SA y = (j : Int) + 1 ∧
      (typ t (j + 1) = false ∨ bp B (sym s (j + 1)) < y)
  succ : ∀ y j : Nat, i ≤ y → y < s.length → cell SA y = (j : Int) + 1 →
    (typ t (j + 1) = false ∨ bp B (sym s (j + 1)) < y) → typ t j = true →
    ∃ x, x < s.length ∧ cell SA x = j ∧ bp B (sym s j) < x
  ordL : ∀ x y j : Nat, x < s.length → y < s.length → cell SA x = j → cell SA y = (j : Int) + 1 →
    typ t j = false → typ t (j + 1) = false → y < x

/-- The state of `SA` when `induce_sa` returns: every position occurs, each in
the bucket of its symbol, and next to its successor in the order of the types. -/
structure Induced (s : List Int) (t : List Bool) (SA : List Int) : Prop where
  lenSA : SA.length = s.length
  mem : ∀ j, j < s.length → ∃ x, x < s.length ∧ cell SA x = j
  val : ∀ x, x < s.length → ∃ j : Nat, j < s.length ∧ cell SA x = j ∧
    bHead s (sym s j) ≤ x ∧ x < bEnd s (sym s j)
  inj : ∀ x y, x < s.length → y < s.length → cell SA x = cell SA y → x = y
  ordL : ∀ x y j : Nat, x < s.length → y < s.length → cell SA x = j → cell SA y = (j : Int) + 1 →
    typ t j = false → y < x
  ordS : ∀ x y j : Nat, x < s.length → y < s.length → cell SA x = j → cell SA y = (j : Int) + 1 →
    typ t j = true → x < y

/-- The number of LMS positions below `m`. -/
def lmsRank (t : List Bool) (m : Nat) : Nat := countPos m fun j => LMS t j

/-- The state of `SA` when its first `n1` slots list the LMS positions, each
once, in an order that is non-decreasing in the first symbol, and the other
slots are `-1`. -/
structure LmsFront (s : List Int) (t : List Bool) (SA : List Int) (n1 : Nat) : Prop where
  lenSA : SA.length = s.length
  val : ∀ x, x < n1 → ∃ p : Nat, cell SA x = p ∧ LMS t p
  mem : ∀ p, LMS t p → ∃ x, x < n1 ∧ cell SA x = p
  inj : ∀ x y, x < n1 → y < n1 → cell SA x = cell SA y → x = y
  sorted : ∀ x y p q : Nat, x < y → y < n1 → cell SA x = p → cell SA y = q → sym s p ≤ sym s q
  rest : ∀ x, n1 ≤ x → x < s.length → cell SA x = -1

/-- Invariant of the loop that puts the LMS positions below `i` at their bucket tails. -/
structure SeedInv (s : List Int) (t : List Bool) (k i : Nat) (SA B : List Int) : Prop where
  lenSA : SA.length = s.length
  lenB : B.length = k
  bnd : ∀ c : Int, 0 ≤ c → c < k → (bMid s t c : Int) - 1 ≤ bp B c ∧ bp B c ≤ (bEnd s c : Int) - 1
  cls : ∀ x, x < s.length → cell SA x = -1 ∨ ∃ j : Nat, j < i ∧ j < s.length ∧ cell SA x = j ∧
    LMS t j ∧ bp B (sym s j) < x ∧ x < bEnd s (sym s j)
  filled : ∀ c : Int, 0 ≤ c → c < k → ∀ x : Nat, bp B c < x → x < bEnd s c → cell SA x ≠ -1
  inj : ∀ x y, x < s.length → y < s.length → cell SA x = cell SA y → cell SA x ≠ -1 → x = y
  lms : ∀ p, p < i → LMS t p → ∃ x, x < s.length ∧ cell SA x = p

/-- Invariant of the loop that moves the LMS positions to the front of `SA`,
before slot `i` of the sorted array `SA0` is read. -/
structure ExtInv (s : List Int) (t : List Bool) (SA0 : List Int) (i : Nat)
    (SA : List Int) (n1 : Nat) : Prop where
  lenSA : SA.length = s.length
  le : n1 ≤ i
  tail : ∀ x, i ≤ x → x < s.length → cell SA x = cell SA0 x
  val : ∀ x, x < n1 → ∃ y, y < i ∧ cell SA x = cell SA0 y ∧ ∃ p : Nat, cell SA0 y = p ∧ LMS t p
  mem : ∀ y (p : Nat), y < i → cell SA0 y = p → LMS t p → ∃ x, x < n1 ∧ cell SA x = p
  inj : ∀ x y, x < n1 → y < n1 → cell SA x = cell SA y → x = y
  sorted : ∀ x y p q : Nat, x < y → y < n1 → cell SA x = p → cell SA y = q → sym s p ≤ sym s q

/-- Invariant of the naming loop before the `i`-th sorted LMS position is named.
`SA0` is the array before the loop (an LMS front of `n1` slots); the name of the
LMS position `p` is kept in slot `n1 + p/2`. -/
structure NameInv (s : List Int) (t : List Bool) (SA0 : List Int) (n1 i : Nat)
    (SA : List Int) (name prev : Int) : Prop where
  lenSA : SA.length = s.length
  front : ∀ x, x < n1 → cell SA x = cell SA0 x
  nameBnd : 0 ≤ name ∧ name ≤ i
  start : i = 0 → prev = -1
  prevOK : 0 < i → ∃ x0, x0 < i ∧ prev = cell SA0 x0 ∧
    cell SA (n1 + (cell SA0 x0).toNat / 2) = name - 1
  named : ∀ x, x < i → 0 ≤ cell SA (n1 + (cell SA0 x).toNat / 2) ∧
    cell SA (n1 + (cell SA0 x).toNat / 2) < name
  monoSym : ∀ x y, x < i → y < i →
    cell SA (n1 + (cell SA0 x).toNat / 2) ≤ cell SA (n1 + (cell SA0 y).toNat / 2) →
    sym s (cell SA0 x).toNat ≤ sym s (cell SA0 y).toNat
  surj : ∀ v : Int, 0 ≤ v → v < name → ∃ x, x < i ∧ cell SA (n1 + (cell SA0 x).toNat / 2) = v
  others : ∀ z, n1 ≤ z → z < s.length → (∀ x, x < i → z ≠ n1 + (cell SA0 x).toNat / 2) →
    cell SA z = -1

/-- The state of `SA` after the naming loop: the LMS position `p` has its name
`nm p` in slot `n1 + p/2`, the other slots from `n1` on are `-1`.  Names are in
`[0, name)`, every name is used, and a smaller or equal name goes with a smaller
or equal first symbol. -/
structure NamedSparse (s : List Int) (t : List Bool) (SA : List Int) (n1 : Nat) (name : Int)
    (nm : Nat → Int) : Prop where
  lenSA : SA.length = s.length
  nameLe : 0 ≤ name ∧ name ≤ n1
  slot : ∀ p, LMS t p → cell SA (n1 + p / 2) = nm p
  rng : ∀ p, LMS t p → 0 ≤ nm p ∧ nm p < name
  monoSym : ∀ p q, LMS t p → LMS t q → nm p ≤ nm q → sym s p ≤ sym s q
  surj : ∀ v : Int, 0 ≤ v → v < name → ∃ p, LMS t p ∧ nm p = v
  others : ∀ z, n1 ≤ z → z < s.length → (∀ p, LMS t p → z ≠ n1 + p / 2) → cell SA z = -1

/-- Invariant of the compaction loop after the slots `i ..` have been read: the
names of the LMS positions from `2 * (i - n1)` on are in place at the end of
the array, in the order of the positions. -/
structure CompInv (s : List Int) (t : List Bool) (SA0 : List Int) (n1 : Nat) (nm : Nat → Int)
    (i : Nat) (SA : List Int) (j : Int) : Prop where
  lenSA : SA.length = s.length
  jval : j = (s.length : Int) - 1 - n1 + lmsRank t (2 * (i - n1))
  low : ∀ x, x < i → cell SA x = cell SA0 x
  done : ∀ p, LMS t p → 2 * (i - n1) ≤ p → cell SA (s.length - n1 + lmsRank t p) = nm p

/-- The state of `SA` after the names are compacted: `s1 = SA[n-n1 .. n)` holds at
index `m` the name of the `m`-th LMS position. -/
structure Named (s : List Int) (t : List Bool) (SA : List Int) (n1 : Nat) (name : Int)
    (nm : Nat → Int) : Prop where
  lenSA : SA.length = s.length
  nameLe : 0 ≤ name ∧ name ≤ n1
  slot : ∀ p, LMS t p → cell SA (s.length - n1 + lmsRank t p) = nm p
  rng : ∀ p, LMS t p → 0 ≤ nm p ∧ nm p < name
  monoSym : ∀ p q, LMS t p → LMS t q → nm p ≤ nm q → sym s p ≤ sym s q
  surj : ∀ v : Int, 0 ≤ v → v < name → ∃ p, LMS t p ∧ nm p = v

/-- The state of `SA` after stage 2: its first `n1` slots hold the ranks of the LMS
positions, each once, in an order that is non-decreasing in the first symbol of
the LMS position. -/
structure Reduced (s : List Int) (t : List Bool) (SA : List Int) (n1 : Nat) : Prop where
  lenSA : SA.length = s.length
  val : ∀ x, x < n1 → ∃ p, LMS t p ∧ cell SA x = lmsRank t p
  mem : ∀ p, LMS t p → ∃ x, x < n1 ∧ cell SA x = lmsRank t p
  inj : ∀ x y, x < n1 → y < n1 → cell SA x = cell SA y → x = y
  sorted : ∀ x y p q, x < y → y < n1 → LMS t p → LMS t q → cell SA x = lmsRank t p →
    cell SA y = lmsRank t q → sym s p ≤ sym s q

/-- Invariant of the loop that puts the sorted LMS positions back at their bucket
tails, after the slots `i ..` of the front have been moved.  `SA0` is the array
before the loop. -/
structure ReseedInv (s : List Int) (t : List Bool) (SA0 : List Int) (k n1 i : Nat)
    (SA B : List Int) : Prop where
  lenSA : SA.length = s.length
  lenB : B.length = k
  bnd : ∀ c : Int, 0 ≤ c → c < k → (bMid s t c : Int) - 1 ≤ bp B c ∧ bp B c ≤ (bEnd s c : Int) - 1
  front : ∀ x, x < i → cell SA x = cell SA0 x
  cls : ∀ x, i ≤ x → x < s.length → cell SA x = -1 ∨ ∃ (y : Nat) (p : Nat), i ≤ y ∧ y < n1 ∧
    cell SA0 y = p ∧ cell SA x = p ∧ bp B (sym s p) < x ∧ x < bEnd s (sym s p)
  filled : ∀ c : Int, 0 ≤ c → c < k → ∀ x : Nat, bp B c < x → x < bEnd s c →
    i ≤ x ∧ cell SA x ≠ -1
  inj : ∀ x y, i ≤ x → x < s.length → i ≤ y → y < s.length → cell SA x = cell SA y →
    cell SA x ≠ -1 → x = y
  mem : ∀ y, i ≤ y → y < n1 → ∃ x, i ≤ x ∧ x < s.length ∧ cell SA x = cell SA0 y

/-- The array `SA` holds every position `0 .. n-1` exactly once. -/
def IsPermutation (SA : List Int) (n : Nat) : Prop :=
  SA.length = n ∧ ∀ j, j < n → SA.count (j : Int) = 1

/-- No symbol is larger than the one before it. -/
def NonIncreasing (data : List Int) : Prop :=
  ∀ i, i < data.length - 1 → sym data (i + 1) ≤ sym data i

instance (data : List Int) : Decidable (NonIncreasing data) := by
  unfold NonIncreasing; infer_instance

/-- A byte sequence: every element is in `[0, 256)`. -/
def IsBytes (data : List Int) : Prop := ∀ x ∈ data, 0 ≤ x ∧ x < 256

instance (data : List Int) : Decidable (IsBytes data) := by unfold IsBytes; infer_instance

/-- Invariant of the permutation loop of `bwt` before slot `i` of `SA` is read; `i0`
is the slot of `SA` that holds `0`, and `l` the bytes written after the first. -/
structure BwtInv (data SA : List Int) (n i0 i : Nat) (out : List Int) (j z : Int) : Prop where
  list : out = (sym data (n - 1) ::
      ((SA.take i).filter (fun v => decide (v ≠ 0))).map (fun v => sym data (v - 1).toNat)) ++
    List.replicate (n - 1 - ((SA.take i).filter (fun v => decide (v ≠ 0))).length) 0
  jval : j = 1 + (((SA.take i).filter (fun v => decide (v ≠ 0))).length : Int)
  before : i ≤ i0 → z = -1 ∧ ((SA.take i).filter (fun v => decide (v ≠ 0))).length = i
  after : i0 < i → z = (i0 : Int) + 1 ∧
    ((SA.take i).filter (fun v => decide (v ≠ 0))).length + 1 = i

/-! ## Stages of `inverse_bwt` -/

/-- Lines 49-77 of `inverse_bwt`: the counting loop, the loop over the 256 bucket
heads and the two loops that fill `lut`; the result is `(lut, pos)`. -/
def inverse_bwt_tables (data : List Int) (n : Nat) (zeroIdx : Int) :
    Option (List Int × List Int) :=
  (loopUp (posCountStep data) n 0 (List.replicate 256 0)).bind fun pos =>
  (loopUp (lutStep data 0) (zeroIdx % 2 ^ 32).toNat 0
    (List.replicate n 0, offsetLoop 0 pos)).bind fun st =>
  loopUp (lutStep data 1) (n - (zeroIdx % 2 ^ 32).toNat) (zeroIdx % 2 ^ 32).toNat st

/-- The body of the reconstruction loop up to the write of the output byte:
the binary search and `out[i] = (char)(imax+1);`, state `(out, t)`, result `out`. -/
def decodeEmit (pos : List Int) (i : Nat) (st : List Int × Int) : Option (List Int) :=
  (bsearch pos st.2 257 0 255).bind fun imax => wr st.1 i ((imax + 1) % 256)

/-! ## `crc32.c` -/

/-- The constant `CRC32_POLYNOMIAL`. -/
def CRC32_POLYNOMIAL : Nat := 0xEDB88320

/-- One pass of the inner loop of `initialize_crc32_lookup_table`, on `uint32_t`:
`v = (v>>1) ^ (CRC32_POLYNOMIAL & ~((v&1)-1));`.  The subtraction wraps around
and `~` is the complement in 32 bits. -/
def crc32_lut_round (v : Nat) : Nat :=
  (v >>> 1) ^^^ (CRC32_POLYNOMIAL &&& (2 ^ 32 - 1 - ((v &&& 1) + 2 ^ 32 - 1) % 2 ^ 32))

/-- Function `initialize_crc32_lookup_table()`: the 256 entries it leaves in
`crc32_lut`; entry `i` is `v = i` after the eight passes of the inner loop. -/
def initialize_crc32_lookup_table : List Nat :=
  (List.range 256).map fun i => crc32_lut_round^[8] i

/-- Body of the loop of `calculate_crc32_for_data`:
`checksum = crc32_lut[((uint8_t)checksum)^data[i]] ^ (checksum>>8);`. -/
def crc32_update (lut : List Nat) (checksum b : Nat) : Option Nat :=
  lut[(checksum % 256) ^^^ b]?.map fun e => e ^^^ (checksum >>> 8)

/-- Function `calculate_crc32_for_data(data, nBytes)`, with the contents `lut` of
`crc32_lut`; `data` is the list of the `nBytes` bytes. -/
def calculate_crc32_for_data (lut : List Nat) (data : List Nat) : Option Nat :=
  (data.foldlM (crc32_update lut) 0xFFFFFFFF).map fun c => c ^^^ 0xFFFFFFFF

/-- Follows the words of the specification, not the code: one bit of the reflected
CRC-32, least-significant bit first: the register is shifted right by one, and
the polynomial `0xEDB88320` is XORed in when the bit shifted out is `1`. -/
def crc32_reference_bit (c : Nat) : Nat :=
  if c % 2 = 1 then (c / 2) ^^^ 0xEDB88320 else c / 2

/-- Follows the words of the specification: a byte is XORed into the low end of
the register, then its eight bits are processed. -/
def crc32_reference_byte (c b : Nat) : Nat := crc32_reference_bit^[8] (c ^^^ b)

/-- Follows the words of the specification: the bit-by-bit reflected CRC-32 with
initial value `0xFFFFFFFF` and final XOR `0xFFFFFFFF`. -/
def crc32_reference (data : List Nat) : Nat :=
  data.foldl crc32_reference_byte 0xFFFFFFFF ^^^ 0xFFFFFFFF

/-! ## Vocabulary of the specification, continued -/

instance (SA : List Int) (n : Nat) : Decidable (IsPermutation SA n) := by
  unfold IsPermutation; infer_instance

/-- The array `SA` is the suffix array of `s`: it holds every position of `s`
once, in increasing order of the suffixes, a proper prefix being smaller. -/
def IsSuffixArray (s SA : List Int) : Prop :=
  IsPermutation SA s.length ∧
    ∀ j, j < s.length → ∀ i, i < j → s.drop (cell SA i).toNat < s.drop (cell SA j).toNat

instance (s SA : List Int) : Decidable (IsSuffixArray s SA) := by
  unfold IsSuffixArray; infer_instance

/-- The slot of index `m` when the elements of `d` are sorted by a stable counting
sort: the head of the bucket of its symbol plus the number of earlier
occurrences of that symbol. -/
def stableRank (d : List Int) (m : Nat) : Nat :=
  bHead d (sym d m) + countPos m fun j => sym d j = sym d m

/-- Invariant of the two loops of `inverse_bwt` that fill `lut`, before index `i` of
the data is read; `z` is the zero index.  The bucket pointers have advanced by
the occurrences seen so far, and the slot of each index `m` seen so far holds
`m`, or `m + 1` from the zero index on. -/
structure LutInv (d : List Int) (z i : Nat) (lut pos : List Int) : Prop where
  lenLut : lut.length = d.length
  lenPos : pos.length = 256
  ptr : ∀ c : Nat, c < 256 → cell pos c = bHead d c + countPos i fun j => sym d j = c
  done : ∀ m, m < i → cell lut (stableRank d m) = if m < z then (m : Int) else m + 1

/-- The slot of `SA` that holds position `p`. -/
def slotOf (SA : List Int) (p : Nat) : Nat := SA.indexOf (p : Int)

/-- The row of the suffix at `q` among the `n + 1` sorted suffixes of a sequence of
length `n`: row 0 is the empty suffix at `q = n`, row `x + 1` the suffix in slot
`x` of the suffix array. -/
def rowOf (SA : List Int) (n q : Nat) : Nat := if q = n then 0 else slotOf SA q + 1

/-- The index in the output of `bwt` of the byte that precedes the suffix at `q`,
for `1 ≤ q ≤ n`: its row, less one from the row of the whole sequence on, which
has no byte in the output. -/
def outIndex (SA : List Int) (n q : Nat) : Nat :=
  if q = n then 0 else if slotOf SA q < slotOf SA 0 then slotOf SA q + 1 else slotOf SA q

/-- Invariant of the reconstruction loop of `inverse_bwt` on the transform of `S`,
before iteration `i`: the first `i` bytes are decoded, and `t` is the row of the
suffix at `i`. -/
structure DecodeInv (S SA : List Int) (i : Nat) (out : List Int) (t : Int) : Prop where
  lenOut : out.length = S.length
  tval : t = rowOf SA S.length i
  done : ∀ x, x < i → cell out x = sym S x

/-- The LMS substring that starts at position `p`: the symbols and types from `p`
through the next LMS position, or through the end of the sequence when there
is none. -/
def lmsSubstring (s : List Int) (t : List Bool) (p : Nat) : List (Int × Bool) :=
  match ((List.range s.length).filter fun q => decide (p < q ∧ LMS t q)).head? with
  | some q => ((List.range (q + 1)).drop p).map fun j => (sym s j, typ t j)
  | none => ((List.range s.length).drop p).map fun j => (sym s j, typ t j)

/-! ## Memory lemmas -/

theorem getD_set_eq {α : Type} (a : List α) (x : Nat) (v d : α) (h : x < a.length) :
    (a.set x v).getD x d = v := by
  simp [List.getD_eq_getElem?_getD, List.getElem?_set, h]

theorem getD_set_ne {α : Type} (a : List α) (x y : Nat) (v d : α) (h : x ≠ y) :
    (a.set x v).getD y d = a.getD y d := by
  simp [List.getD_eq_getElem?_getD, List.getElem?_set, h]

theorem getD_set {α : Type} (a : List α) (x y : Nat) (v d : α) :
    (a.set x v).getD y d = if x = y ∧ x < a.length then v else a.getD y d := by
  by_cases h : x = y
  · subst h
    by_cases h2 : x < a.length
    · simp [getD_set_eq, h2]
    · have h3 : a[x]? = none := List.getElem?_eq_none (by omega)
      simp [h2, List.getD_eq_getElem?_getD, List.getElem?_set, h3]
  · simp [h, getD_set_ne]

theorem rd_nat (a : List Int) (x : Nat) (d : Int) (h : x < a.length) :
    rd a (x : Int) = some (a.getD x d) := by
  simp [rd, List.getD_eq_getElem?_getD, List.getElem?_eq_getElem h]

theorem rd_int (a : List Int) (i : Int) (d : Int) (h0 : 0 ≤ i) (h : i < a.length) :
    rd a i = some (a.getD i.toNat d) := by
  have : i.toNat < a.length := by omega
  simp [rd, h0, List.getD_eq_getElem?_getD, List.getElem?_eq_getElem this]

theorem rd_eq_some {a : List Int} {i v : Int} (h : rd a i = some v) :
    0 ≤ i ∧ i < a.length ∧ ∀ d, a.getD i.toNat d = v := by
  unfold rd at h
  split_ifs at h with h0
  have hl : i.toNat < a.length := by
    by_contra hc
    rw [List.getElem?_eq_none (by omega)] at h
    cases h
  refine ⟨h0, by omega, fun d => ?_⟩
  simp [List.getD_eq_getElem?_getD, h]

theorem wr_nat (a : List Int) (x : Nat) (v : Int) (h : x < a.length) :
    wr a (x : Int) v = some (a.set x v) := by
  simp [wr, h]

theorem wr_int (a : List Int) (i v : Int) (h0 : 0 ≤ i) (h : i < a.length) :
    wr a i v = some (a.set i.toNat v) := by
  have : i.toNat < a.length := by omega
  simp [wr, h0, this]

theorem wr_eq_some {a b : List Int} {i v : Int} (h : wr a i v = some b) :
    0 ≤ i ∧ i < a.length ∧ b = a.set i.toNat v := by
  unfold wr at h
  split_ifs at h with h0
  cases h
  exact ⟨h0.1, by omega, rfl⟩

theorem tget_nat (t : List Bool) (x : Nat) (h : x < t.length) :
    tget t (x : Int) = some (t.getD x false) := by
  simp [tget, List.getD_eq_getElem?_getD, List.getElem?_eq_getElem h]

theorem tget_int (t : List Bool) (i : Int) (h0 : 0 ≤ i) (h : i < t.length) :
    tget t i = some (t.getD i.toNat false) := by
  have : i.toNat < t.length := by omega
  simp [tget, h0, List.getD_eq_getElem?_getD, List.getElem?_eq_getElem this]

theorem tset_nat (t : List Bool) (x : Nat) (b : Bool) (h : x < t.length) :
    tset t (x : Int) b = some (t.set x b) := by
  simp [tset, h]

theorem cell_set (a : List Int) (x y : Nat) (v : Int) :
    cell (a.set x v) y = if x = y ∧ x < a.length then v else cell a y := getD_set a x y v 0

theorem rd_cell (a : List Int) (x : Nat) (h : x < a.length) : rd a (x : Int) = some (cell a x) :=
  rd_nat a x 0 h

theorem rd_cell_int (a : List Int) (i : Int) (h0 : 0 ≤ i) (h : i < a.length) :
    rd a i = some (cell a i.toNat) := rd_int a i 0 h0 h

theorem rd_some_cell {a : List Int} {i v : Int} (h : rd a i = some v) :
    0 ≤ i ∧ i < a.length ∧ cell a i.toNat = v :=
  ⟨(rd_eq_some h).1, (rd_eq_some h).2.1, (rd_eq_some h).2.2 0⟩

theorem cell_replicate (n : Nat) (v : Int) (x : Nat) (h : x < n) :
    cell (List.replicate n v) x = v := by
  simp [cell, List.getD_eq_getElem?_getD, h]

theorem typ_set (t : List Bool) (x y : Nat) (v : Bool) :
    typ (t.set x v) y = if x = y ∧ x < t.length then v else typ t y := getD_set t x y v false

theorem tget_typ (t : List Bool) (x : Nat) (h : x < t.length) :
    tget t (x : Int) = some (typ t x) := tget_nat t x h

theorem tget_typ_int (t : List Bool) (i : Int) (h0 : 0 ≤ i) (h : i < t.length) :
    tget t i = some (typ t i.toNat) := tget_int t i h0 h

/-! ## Loop rules -/

theorem loopUp_inv {σ : Type} (body : Nat → σ → Option σ) (P : Nat → σ → Prop) :
    ∀ (cnt lo : Nat) (st : σ), P lo st →
      (∀ i st, lo ≤ i → i < lo + cnt → P i st → ∃ st', body i st = some st' ∧ P (i + 1) st') →
      ∃ st', loopUp body cnt lo st = some st' ∧ P (lo + cnt) st'
  | 0, lo, st, h0, _ => ⟨st, rfl, by simpa using h0⟩
  | cnt + 1, lo, st, h0, hstep => by
    obtain ⟨st1, h1, hP1⟩ := hstep lo st (Nat.le_refl _) (by omega) h0
    obtain ⟨st2, h2, hP2⟩ := loopUp_inv body P cnt (lo + 1) st1 hP1
      (fun i st hi hi2 hP => hstep i st (by omega) (by omega) hP)
    refine ⟨st2, ?_, ?_⟩
    · simp [loopUp, h1, h2]
    · have : lo + (cnt + 1) = lo + 1 + cnt := by omega
      rw [this]; exact hP2

theorem loopDown_inv {σ : Type} (body : Nat → σ → Option σ) (P : Nat → σ → Prop) (lo : Nat) :
    ∀ (cnt : Nat) (st : σ), P (lo + cnt) st →
      (∀ i st, lo ≤ i → i < lo + cnt → P (i + 1) st → ∃ st', body i st = some st' ∧ P i st') →
      ∃ st', loopDown body lo cnt st = some st' ∧ P lo st'
  | 0, st, h0, _ => ⟨st, rfl, by simpa using h0⟩
  | cnt + 1, st, h0, hstep => by
    obtain ⟨st1, h1, hP1⟩ := hstep (lo + cnt) st (by omega) (by omega) h0
    obtain ⟨st2, h2, hP2⟩ := loopDown_inv body P lo cnt st1 hP1
      (fun i st hi hi2 hP => hstep i st hi (by omega) hP)
    exact ⟨st2, by simp [loopDown, h1, h2], hP2⟩

/-! ## Counting -/

theorem card_filter_split (A : Finset Nat) (p q r : Nat → Prop)
    [DecidablePred p] [DecidablePred q] [DecidablePred r]
    (h : ∀ j ∈ A, (p j ↔ (q j ∨ r j)) ∧ ¬ (q j ∧ r j)) :
    (A.filter p).card = (A.filter q).card + (A.filter r).card := by
  simp only [Finset.card_filter]
  rw [← Finset.sum_add_distrib]
  apply Finset.sum_congr rfl
  intro j hj
  have := h j hj
  by_cases hq : q j <;> by_cases hr : r j <;> by_cases hp : p j <;> simp [hq, hr, hp] <;> tauto

theorem countPos_succ (i : Nat) (p : Nat → Prop) [DecidablePred p] :
    countPos (i + 1) p = countPos i p + if p i then 1 else 0 := by
  unfold countPos
  rw [Finset.range_succ, Finset.filter_insert]
  split_ifs with h
  · rw [Finset.card_insert_of_not_mem (by simp)]
  · rfl

theorem countPos_zero (p : Nat → Prop) [DecidablePred p] : countPos 0 p = 0 := by
  simp [countPos]

theorem countPos_le (n : Nat) (p : Nat → Prop) [DecidablePred p] : countPos n p ≤ n := by
  unfold countPos
  calc ((Finset.range n).filter p).card ≤ (Finset.range n).card := Finset.card_filter_le _ _
    _ = n := Finset.card_range n

theorem countPos_mono (n : Nat) (p q : Nat → Prop) [DecidablePred p] [DecidablePred q]
    (h : ∀ j, j < n → p j → q j) : countPos n p ≤ countPos n q := by
  unfold countPos
  apply Finset.card_le_card
  intro j hj
  simp only [Finset.mem_filter, Finset.mem_range] at hj ⊢
  exact ⟨hj.1, h j hj.1 hj.2⟩

theorem countPos_split (n : Nat) (p q r : Nat → Prop)
    [DecidablePred p] [DecidablePred q] [DecidablePred r]
    (h : ∀ j, j < n → (p j ↔ (q j ∨ r j)) ∧ ¬ (q j ∧ r j)) :
    countPos n p = countPos n q + countPos n r :=
  card_filter_split _ p q r fun j hj => h j (Finset.mem_range.mp hj)

theorem countPos_pos (n : Nat) (p : Nat → Prop) [DecidablePred p] (j : Nat) (hj : j < n)
    (hp : p j) : 0 < countPos n p := by
  unfold countPos
  apply Finset.card_pos.mpr
  exact ⟨j, by simp [hj, hp]⟩

/-- Slots `[a, b)` holding distinct positions with property `Q`, none of them `j0`
(which has `Q`): there are fewer slots than positions with `Q`. -/
theorem pigeon_slots (f : Nat → Int) (n : Nat) (a b : Int) (Q : Nat → Prop) [DecidablePred Q]
    (j0 : Nat) (hj0 : j0 < n) (hQ0 : Q j0) (ha : 0 ≤ a)
    (hval : ∀ x : Nat, a ≤ x → (x : Int) < b → ∃ j : Nat, j < n ∧ f x = j ∧ Q j ∧ j ≠ j0)
    (hinj : ∀ x y : Nat, a ≤ x → (x : Int) < b → a ≤ y → (y : Int) < b → f x = f y → x = y) :
    b - a < countPos n Q := by
  by_cases hab : b ≤ a
  · have := countPos_pos n Q j0 hj0 hQ0
    omega
  have hcard : (Finset.Ico a.toNat b.toNat).card ≤
      (((Finset.range n).filter Q).erase j0).card := by
    apply Finset.card_le_card_of_injOn (fun x => (f x).toNat)
    · intro x hx
      simp only [Finset.mem_Ico] at hx
      obtain ⟨j, hj, hfx, hQ, hne⟩ := hval x (by omega) (by omega)
      simp [hfx, hj, hQ, hne]
    · intro x hx y hy hxy
      simp only [Finset.coe_Ico, Set.mem_Ico] at hx hy
      obtain ⟨j, hj, hfx, hQ, hne⟩ := hval x (by omega) (by omega)
      obtain ⟨j', hj', hfy, hQ', hne'⟩ := hval y (by omega) (by omega)
      apply hinj x y (by omega) (by omega) (by omega) (by omega)
      simp only [hfx, hfy, Int.toNat_natCast] at hxy
      rw [hfx, hfy, hxy]
  rw [Finset.card_erase_of_mem (by simp [hj0, hQ0])] at hcard
  simp only [Nat.card_Ico] at hcard
  have := countPos_pos n Q j0 hj0 hQ0
  unfold countPos at *
  omega

/-- Every position with property `Q` sits in a slot of `[a, b)`: there are at
least as many slots as positions with `Q`. -/
theorem pigeon_positions (f : Nat → Int) (n : Nat) (a b : Int) (Q : Nat → Prop)
    [DecidablePred Q] (ha : 0 ≤ a) (hab : a ≤ b)
    (h : ∀ j, j < n → Q j → ∃ x : Nat, a ≤ x ∧ (x : Int) < b ∧ f x = j) :
    (countPos n Q : Int) ≤ b - a := by
  have hcard : ((Finset.range n).filter Q).card ≤ (Finset.Ico a.toNat b.toNat).card := by
    apply Finset.card_le_card_of_surjOn (fun x => (f x).toNat)
    intro j hj
    simp only [Finset.coe_filter, Finset.mem_range, Set.mem_setOf_eq] at hj
    obtain ⟨x, hx1, hx2, hfx⟩ := h j hj.1 hj.2
    refine ⟨x, ?_, ?_⟩
    · simp only [Finset.coe_Ico, Set.mem_Ico]; omega
    · simp [hfx]
  simp only [Nat.card_Ico] at hcard
  unfold countPos
  omega

/-- A table of `n` slots in which every position `j < n` occurs holds a position
in every slot, and no position twice. -/
theorem pigeon_perm (f : Nat → Int) (n : Nat)
    (h : ∀ j, j < n → ∃ x, x < n ∧ f x = j) :
    (∀ x, x < n → ∃ j : Nat, j < n ∧ f x = j) ∧
    (∀ x y, x < n → y < n → f x = f y → x = y) := by
  have hsub : (Finset.range n).image (fun j : Nat => (j : Int)) ⊆ (Finset.range n).image f := by
    intro v hv
    simp only [Finset.mem_image, Finset.mem_range] at hv ⊢
    obtain ⟨j, hj, rfl⟩ := hv
    exact h j hj
  have hc1 : ((Finset.range n).image (fun j : Nat => (j : Int))).card = n := by
    rw [Finset.card_image_of_injective _ (fun a b hab => by simpa using hab), Finset.card_range]
  have hc2 : ((Finset.range n).image f).card ≤ n := by
    calc _ ≤ (Finset.range n).card := Finset.card_image_le
      _ = n := Finset.card_range n
  have heq := Finset.eq_of_subset_of_card_le hsub (by omega)
  constructor
  · intro x hx
    have : f x ∈ (Finset.range n).image f := Finset.mem_image_of_mem f (Finset.mem_range.mpr hx)
    rw [← heq] at this
    simp only [Finset.mem_image, Finset.mem_range] at this
    obtain ⟨j, hj, hjx⟩ := this
    exact ⟨j, hj, hjx.symm⟩
  · have hinj : Set.InjOn f (Finset.range n) := by
      rw [← Finset.card_image_iff, ← heq, hc1, Finset.card_range]
    intro x y hx hy hxy
    exact hinj (by simpa using hx) (by simpa using hy) hxy

/-! ## Bucket geometry -/

theorem sym_range {s : List Int} {n k : Nat} (hv : ValidInput s n k) (j : Nat) (hj : j < n) :
    0 ≤ sym s j ∧ sym s j < k := by
  have hl : j < s.length := by rw [hv.1]; exact hj
  have : sym s j ∈ s := by
    unfold sym
    rw [List.getD_eq_getElem?_getD, List.getElem?_eq_getElem hl]
    exact List.getElem_mem hl
  exact hv.2 _ this

theorem chr_nat {s : List Int} (j : Nat) (hj : j < s.length) : chr s j = some (sym s j) :=
  rd_nat s j 0 hj

theorem bEnd_le (s : List Int) (c : Int) : bEnd s c ≤ s.length := countPos_le _ _

theorem bHead_le_bMid (s : List Int) (t : List Bool) (c : Int) : bHead s c ≤ bMid s t c :=
  Nat.le_add_right _ _

theorem bMid_le_bEnd (s : List Int) (t : List Bool) (c : Int) : bMid s t c ≤ bEnd s c := by
  unfold bMid bEnd bHead
  have h1 := countPos_split s.length (fun j => sym s j ≤ c) (fun j => sym s j < c)
    (fun j => sym s j = c) (fun j _ => by constructor <;> omega)
  have h2 := countPos_mono s.length (fun j => sym s j = c ∧ typ t j = false)
    (fun j => sym s j = c) (fun j _ h => h.1)
  omega

theorem bEnd_le_bHead (s : List Int) (c c' : Int) (h : c < c') : bEnd s c ≤ bHead s c' :=
  countPos_mono _ _ _ fun j _ hj => by
    show sym s j < c'
    have : sym s j ≤ c := hj
    omega

/-- The S-type part of a bucket is as long as the number of S-type positions with that symbol. -/
theorem bMid_add (s : List Int) (t : List Bool) (c : Int) :
    bMid s t c + countPos s.length (fun j => sym s j = c ∧ typ t j = true) = bEnd s c := by
  unfold bMid bEnd bHead
  have h1 := countPos_split s.length (fun j => sym s j ≤ c) (fun j => sym s j < c)
    (fun j => sym s j = c) (fun j _ => by constructor <;> omega)
  have h2 := countPos_split s.length (fun j => sym s j = c)
    (fun j => sym s j = c ∧ typ t j = false) (fun j => sym s j = c ∧ typ t j = true)
    (fun j _ => by rcases Bool.eq_false_or_eq_true (typ t j) with h | h <;> simp [h])
  omega

/-! ## `get_buckets` -/

theorem tailLoop_length : ∀ (b : List Int) (sum : Int), (tailLoop sum b).length = b.length
  | [], _ => rfl
  | v :: b, sum => by simp [tailLoop, tailLoop_length b]

theorem headLoop_length : ∀ (b : List Int) (sum : Int), (headLoop sum b).length = b.length
  | [], _ => rfl
  | v :: b, sum => by simp [headLoop, headLoop_length b]

theorem tailLoop_getD : ∀ (b : List Int) (sum : Int) (c : Nat), c < b.length →
    cell (tailLoop sum b) c = sum + (b.take (c + 1)).sum - 1
  | [], _, _, h => by simp at h
  | v :: b, sum, 0, _ => by simp [tailLoop, cell]
  | v :: b, sum, c + 1, h => by
    have := tailLoop_getD b (sum + v) c (by simpa using h)
    unfold cell at this ⊢
    simp only [tailLoop, List.getD_cons_succ, this, List.take_succ_cons, List.sum_cons]
    omega

theorem headLoop_getD : ∀ (b : List Int) (sum : Int) (c : Nat), c < b.length →
    cell (headLoop sum b) c = sum + (b.take c).sum
  | [], _, _, h => by simp at h
  | v :: b, sum, 0, _ => by simp [headLoop, cell]
  | v :: b, sum, c + 1, h => by
    have := headLoop_getD b (sum + v) c (by simpa using h)
    unfold cell at this ⊢
    simp only [headLoop, List.getD_cons_succ, this, List.take_succ_cons, List.sum_cons]
    omega

/-- The counting loop of `get_buckets`. -/
theorem count_loop {s : List Int} {n k : Nat} (hv : ValidInput s n k) :
    ∃ b, loopUp (countStep s) n 0 (List.replicate k 0) = some b ∧ b.length = k ∧
      ∀ c : Nat, c < k → cell b c = countPos n fun j => sym s j = c := by
  have := loopUp_inv (countStep s)
    (fun i b => b.length = k ∧ ∀ c : Nat, c < k → cell b c = countPos i fun j => sym s j = c)
    n 0 (List.replicate k 0)
    ⟨by simp, fun c hc => by simp [countPos_zero, cell_replicate _ _ _ hc]⟩
    (by
      intro i b _ hi ⟨hlen, hb⟩
      have hi' : i < s.length := by rw [hv.1]; omega
      obtain ⟨h0, hk⟩ := sym_range hv i (by omega)
      have hc : (sym s i).toNat < b.length := by omega
      refine ⟨b.set (sym s i).toNat (cell b (sym s i).toNat + 1), ?_, by simpa using hlen, ?_⟩
      · simp [countStep, chr_nat i hi', rd_cell_int b (sym s i) h0 (by omega),
          wr_int b (sym s i) _ h0 (by omega)]
      · intro c hc'
        rw [cell_set, countPos_succ]
        by_cases hcc : (sym s i).toNat = c
        · have : sym s i = c := by omega
          have hcl : c < b.length := by omega
          simp [hcc, hcl, this, hb c hc']
        · have : ¬ sym s i = c := by omega
          simp [hcc, this, hb c hc'])
  simpa using this

theorem sum_take_counts {s : List Int} {n k : Nat} (hv : ValidInput s n k) (b : List Int)
    (hlen : b.length = k) (hb : ∀ c : Nat, c < k → cell b c = countPos n fun j => sym s j = c) :
    ∀ c : Nat, c ≤ k → (b.take c).sum = bHead s c
  | 0, _ => by
    have : countPos s.length (fun j => sym s j < (0 : Int)) = 0 := by
      unfold countPos
      rw [Finset.card_eq_zero, Finset.filter_eq_empty_iff]
      intro j hj
      have := (sym_range hv j (by rw [← hv.1]; exact Finset.mem_range.mp hj)).1
      omega
    simp [bHead, this]
  | c + 1, hc => by
    have ih := sum_take_counts hv b hlen hb c (by omega)
    have hcl : c < b.length := by omega
    have h1 : (b.take (c + 1)).sum = (b.take c).sum + cell b c := by
      unfold cell
      rw [List.take_succ, List.sum_append, List.getD_eq_getElem?_getD,
        List.getElem?_eq_getElem hcl]
      simp
    rw [h1, ih, hb c (by omega)]
    unfold bHead
    have := countPos_split s.length (fun j => sym s j < ((c + 1 : Nat) : Int))
      (fun j => sym s j < (c : Int)) (fun j => sym s j = (c : Int))
      (fun j _ => by constructor <;> omega)
    rw [hv.1] at this ⊢
    omega

theorem bHead_succ (s : List Int) (c : Int) : bHead s (c + 1) = bEnd s c := by
  unfold bHead bEnd countPos
  congr 1
  apply Finset.filter_congr
  intro j _
  omega

/-- What `get_buckets` computes: bucket heads or bucket tails. -/
theorem get_buckets_spec {s : List Int} {n k : Nat} (hv : ValidInput s n k) (tail : Bool) :
    ∃ b, get_buckets s n k tail = some b ∧ b.length = k ∧
      ∀ c : Int, 0 ≤ c → c < k →
        cell b c.toNat = if tail then (bEnd s c : Int) - 1 else bHead s c := by
  obtain ⟨b, hb, hlen, hcnt⟩ := count_loop hv
  refine ⟨if tail then tailLoop 0 b else headLoop 0 b, by simp [get_buckets, hb], ?_, ?_⟩
  · cases tail <;> simp [tailLoop_length, headLoop_length, hlen]
  · intro c h0 hk
    have hc : c.toNat < b.length := by omega
    have hcc : ((c.toNat : Nat) : Int) = c := Int.toNat_of_nonneg h0
    cases tail
    · simp only [Bool.false_eq_true, if_false]
      rw [headLoop_getD b 0 _ hc, sum_take_counts hv b hlen hcnt _ (by omega), hcc]
      simp
    · simp only [if_true]
      rw [tailLoop_getD b 0 _ hc, sum_take_counts hv b hlen hcnt _ (by omega)]
      have := bHead_succ s c
      push_cast
      rw [hcc, this]
      simp

/-! ## Classification -/

theorem chr_int {s : List Int} (i : Int) (h0 : 0 ≤ i) (h : i < s.length) :
    chr s i = some (sym s i.toNat) := rd_int s i 0 h0 h

theorem typ_of_le {t : List Bool} {j : Nat} (h : t.length ≤ j) : typ t j = false := by
  unfold typ
  rw [List.getD_eq_getElem?_getD, List.getElem?_eq_none h]
  rfl

theorem classify_spec {s : List Int} {n k : Nat} (hv : ValidInput s n k) (hn : 0 < n) :
    ∃ t, classify s n = some t ∧ Classified s t := by
  have hlen := hv.1
  have h0 : tset (List.replicate n false) ((n : Int) - 1) false =
      some ((List.replicate n false).set (n - 1) false) := by
    have : ((n : Int) - 1) = ((n - 1 : Nat) : Int) := by omega
    rw [this, tset_nat _ _ _ (by simp; omega)]
  have := loopDown_inv (classifyStep s)
    (fun i t => t.length = n ∧ typ t (n - 1) = false ∧ ∀ j, i ≤ j → j + 1 < n →
      typ t j = (decide (sym s j < sym s (j + 1)) ||
        (decide (sym s j = sym s (j + 1)) && typ t (j + 1))))
    0 (n - 1) ((List.replicate n false).set (n - 1) false)
    ⟨by simp, by rw [typ_set]; simp; omega, fun j h1 h2 => by omega⟩
    (by
      intro i t _ hi ⟨hl, hlast, hrule⟩
      have hc1 : chr s i = some (sym s i) := chr_nat i (by omega)
      have hc2 : chr s ((i : Int) + 1) = some (sym s (i + 1)) := by
        have := chr_int (s := s) ((i : Int) + 1) (by omega) (by omega)
        rwa [show ((i : Int) + 1).toNat = i + 1 by omega] at this
      have hg : tget t ((i : Int) + 1) = some (typ t (i + 1)) := by
        have := tget_typ_int t ((i : Int) + 1) (by omega) (by omega)
        rwa [show ((i : Int) + 1).toNat = i + 1 by omega] at this
      have hset : ∀ b, tset t (i : Int) b = some (t.set i b) := fun b =>
        tset_nat t i b (by omega)
      have key : ∀ b, b = (decide (sym s i < sym s (i + 1)) ||
          (decide (sym s i = sym s (i + 1)) && typ t (i + 1))) →
          (t.set i b).length = n ∧ typ (t.set i b) (n - 1) = false ∧ ∀ j, i ≤ j → j + 1 < n →
            typ (t.set i b) j = (decide (sym s j < sym s (j + 1)) ||
              (decide (sym s j = sym s (j + 1)) && typ (t.set i b) (j + 1))) := by
        intro b hb
        refine ⟨by simpa using hl, ?_, ?_⟩
        · rw [typ_set]; rw [if_neg (by omega)]; exact hlast
        · intro j hj1 hj2
          rw [typ_set, typ_set, if_neg (by omega : ¬ (i = j + 1 ∧ i < t.length))]
          by_cases hij : i = j
          · subst hij
            rw [if_pos ⟨rfl, by omega⟩]; exact hb
          · rw [if_neg (by omega)]
            exact hrule j (by omega) hj2
      simp only [classifyStep, hc1, hc2, Option.some_bind]
      by_cases hlt : sym s i < sym s (i + 1)
      · rw [if_pos hlt, hset]
        exact ⟨_, rfl, key true (by simp [hlt])⟩
      · rw [if_neg hlt]
        by_cases heq : sym s i = sym s (i + 1)
        · rw [if_pos heq, hg, Option.some_bind, hset]
          exact ⟨_, rfl, key _ (by simp [heq])⟩
        · rw [if_neg heq, hset]
          exact ⟨_, rfl, key false (by simp [hlt, heq])⟩)
  obtain ⟨t, ht, hl, hlast, hrule⟩ := this
  refine ⟨t, by unfold classify; rw [h0]; exact ht, ?_, ?_, ?_⟩
  · omega
  · rw [hlen]; exact hlast
  · intro i hi; exact hrule i (by omega) (by omega)

/-- An L-type position is followed by a symbol that is not larger, and by an
L-type position if the symbol is the same. -/
theorem typeL {s : List Int} {t : List Bool} (hc : Classified s t) {j : Nat}
    (h : typ t j = false) (hj : j + 1 < s.length) :
    sym s (j + 1) ≤ sym s j ∧ (sym s (j + 1) = sym s j → typ t (j + 1) = false) := by
  have := hc.2.2 j hj
  rw [h] at this
  simp only [Bool.false_eq, Bool.or_eq_false_iff, decide_eq_false_iff_not,
    Bool.and_eq_false_imp, decide_eq_true_eq] at this
  exact ⟨by omega, fun he => this.2 he.symm⟩

/-- An S-type position is not the last one, it is followed by a symbol that is
not smaller, and by an S-type position if the symbol is the same. -/
theorem typeS {s : List Int} {t : List Bool} (hc : Classified s t) {j : Nat}
    (h : typ t j = true) :
    j + 1 < s.length ∧ sym s j ≤ sym s (j + 1) ∧ (sym s j = sym s (j + 1) → typ t (j + 1) = true) := by
  have hj : j + 1 < s.length := by
    by_contra hcon
    by_cases hjn : j + 1 = s.length
    · have := hc.2.1
      rw [show s.length - 1 = j by omega] at this
      rw [this] at h; cases h
    · have := typ_of_le (t := t) (j := j) (by rw [hc.1]; omega)
      rw [this] at h; cases h
  have := hc.2.2 j hj
  rw [h] at this
  simp only [Bool.true_eq, Bool.or_eq_true, decide_eq_true_eq, Bool.and_eq_true] at this
  refine ⟨hj, ?_, ?_⟩
  · rcases this with h1 | h1
    · omega
    · omega
  · intro he
    rcases this with h1 | h1
    · omega
    · exact h1.2

theorem isLMS_nat {t : List Bool} (i : Nat) (hi : i < t.length) :
    isLMS t (i : Int) = some (decide (LMS t i)) := by
  unfold isLMS LMS
  by_cases h0 : 0 < i
  · have h1 : tget t ((i : Int) - 1) = some (typ t (i - 1)) := by
      have := tget_typ_int t ((i : Int) - 1) (by omega) (by omega)
      rwa [show ((i : Int) - 1).toNat = i - 1 by omega] at this
    rw [if_pos (by omega), tget_typ t i hi, Option.some_bind]
    by_cases h2 : typ t i = true
    · simp [h2, h1, h0]
    · simp [h2]
  · rw [if_neg (by omega)]
    simp [h0]

theorem isLMS_int {t : List Bool} (v : Int) (hv : v < t.length) :
    isLMS t v = some (decide (0 < v ∧ LMS t v.toNat)) := by
  by_cases h0 : 0 < v
  · have := isLMS_nat (t := t) v.toNat (by omega)
    rw [Int.toNat_of_nonneg (by omega)] at this
    simp [this, h0]
  · simp [isLMS, h0]

theorem LMS_lt {s : List Int} {t : List Bool} (hc : Classified s t) {j : Nat} (h : LMS t j) :
    j + 1 < s.length := (typeS hc h.2.1).1

/-! ## Buckets and `place` -/

theorem same_bucket (s : List Int) {c c' : Int} {x : Nat} (h1 : bHead s c ≤ x)
    (h2 : x < bEnd s c) (h3 : bHead s c' ≤ x) (h4 : x < bEnd s c') : c = c' := by
  by_contra hne
  rcases lt_or_gt_of_ne hne with h | h
  · have := bEnd_le_bHead s c c' h
    omega
  · have := bEnd_le_bHead s c' c h
    omega

theorem bp_set (B : List Int) (c c' v : Int) (h0 : 0 ≤ c) (h1 : c < B.length) (h0' : 0 ≤ c') :
    bp (B.set c.toNat v) c' = if c = c' then v else bp B c' := by
  unfold bp
  rw [cell_set]
  by_cases h : c = c'
  · subst h
    rw [if_pos ⟨rfl, by omega⟩, if_pos rfl]
  · rw [if_neg (by omega), if_neg h]

theorem place_spec {s : List Int} {n k : Nat} (hv : ValidInput s n k) (d : Int) (j : Nat)
    (hj : j < n) (SA B : List Int) (hB : B.length = k) (h0 : 0 ≤ bp B (sym s j))
    (h1 : bp B (sym s j) < SA.length) :
    place s d (j : Int) (SA, B) =
      some (SA.set (bp B (sym s j)).toNat j, B.set (sym s j).toNat (bp B (sym s j) + d)) := by
  obtain ⟨hs0, hsk⟩ := sym_range hv j hj
  unfold place
  simp only [chr_nat j (by rw [hv.1]; exact hj), Option.some_bind]
  rw [rd_cell_int B (sym s j) hs0 (by omega)]
  simp only [Option.some_bind]
  rw [show cell B (sym s j).toNat = bp B (sym s j) from rfl, wr_int SA _ _ h0 h1]
  simp only [Option.some_bind]
  rw [wr_int B _ _ hs0 (by omega)]
  simp

/-! ## The left-to-right scan -/

section LScan
variable {s : List Int} {t : List Bool} {k i : Nat} {SA B : List Int}

theorem LInv.filledL (h : LInv s t k i SA B) (hv : ValidInput s s.length k) {c : Int}
    (h0 : 0 ≤ c) (hk : c < k) {x : Nat} (hx1 : (bHead s c : Int) ≤ x) (hx2 : (x : Int) < bp B c) :
    ∃ j : Nat, j < s.length ∧ cell SA x = j ∧ typ t j = false ∧ sym s j = c := by
  have hb := h.bnd c h0 hk
  have h1 := bMid_le_bEnd s t c
  have h2 := bEnd_le s c
  have hxn : x < s.length := by omega
  rcases h.cls x hxn with hneg | ⟨j, hj, hcell, hcase⟩
  · exact absurd hneg (h.filled c h0 hk x hx1 hx2)
  · obtain ⟨hs0, hsk⟩ := sym_range hv j hj
    have hb' := h.bnd _ hs0 hsk
    have h1' := bMid_le_bEnd s t (sym s j)
    have h3' := bHead_le_bMid s t (sym s j)
    rcases hcase with ⟨hL, ha, hb2⟩ | ⟨hM, ha, hb2⟩
    · have : sym s j = c := same_bucket s (x := x) (by omega) (by omega) (by omega) (by omega)
      exact ⟨j, hj, hcell, hL, this⟩
    · have : sym s j = c := same_bucket s (x := x) (by omega) (by omega) (by omega) (by omega)
      subst this
      omega

theorem LInv.skipL (h : LInv s t k i SA B)
    (hno : ∀ j : Nat, cell SA i = (j : Int) + 1 → typ t j = true) :
    LInv s t k (i + 1) SA B :=
  { h with
    pred := fun x j hx hc hL hj => by
      obtain ⟨y, hy1, hy2, hy3⟩ := h.pred x j hx hc hL hj
      exact ⟨y, by omega, hy2, hy3⟩
    succ := fun y j hy hyn hc hL => by
      by_cases hyi : y = i
      · subst hyi
        have := hno j hc
        rw [hL] at this; cases this
      · exact h.succ y j (by omega) hyn hc hL }

theorem LInv.stepL (h : LInv s t k i SA B) (hv : ValidInput s s.length k) (hc : Classified s t)
    (hi : i < s.length) (j : Nat) (hcell : cell SA i = (j : Int) + 1) (hL : typ t j = false) :
    0 ≤ bp B (sym s j) ∧ bp B (sym s j) < SA.length ∧
    LInv s t k (i + 1) (SA.set (bp B (sym s j)).toNat j)
      (B.set (sym s j).toNat (bp B (sym s j) + 1)) := by
  have hjn : j + 1 < s.length := by
    rcases h.cls i hi with hneg | ⟨j', hj', hcell', _⟩
    · omega
    · omega
  obtain ⟨hc0, hck⟩ := sym_range hv j (by omega)
  have hbnd := h.bnd _ hc0 hck
  have hnotin : ∀ x, x < s.length → cell SA x ≠ j := by
    intro x hx hxj
    obtain ⟨y, hy1, _, hy3⟩ := h.pred x j hx hxj hL hjn
    have := h.inj y i (by omega) hi (by rw [hy3, hcell]) (by rw [hy3]; omega)
    omega
  have hroom : bp B (sym s j) < bMid s t (sym s j) := by
    have := pigeon_slots (cell SA) s.length (bHead s (sym s j)) (bp B (sym s j))
      (fun j' => sym s j' = sym s j ∧ typ t j' = false) j (by omega) ⟨rfl, hL⟩ (by omega)
      (fun x hx1 hx2 => by
        obtain ⟨j', hj', hx, hL', hs'⟩ := h.filledL hv hc0 hck hx1 hx2
        refine ⟨j', hj', hx, ⟨hs', hL'⟩, ?_⟩
        intro he
        have hb := bMid_le_bEnd s t (sym s j)
        have hb2 := bEnd_le s (sym s j)
        exact hnotin x (by omega) (by rw [hx, he]))
      (fun x y hx1 hx2 hy1 hy2 hxy => by
        have hb := bMid_le_bEnd s t (sym s j)
        have hb2 := bEnd_le s (sym s j)
        exact h.inj x y (by omega) (by omega) hxy (h.filled _ hc0 hck x hx1 hx2))
    unfold bMid
    omega
  have hme := bMid_le_bEnd s t (sym s j)
  have hen := bEnd_le s (sym s j)
  have hlen := h.lenSA
  obtain ⟨p, hp⟩ : ∃ p : Nat, bp B (sym s j) = p := ⟨(bp B (sym s j)).toNat, by omega⟩
  have hpn : p < s.length := by omega
  have hpe : cell SA p = -1 := h.empty _ hc0 hck p (by omega) (by omega)
  have hip : i < p := by
    have ht := typeL hc hL hjn
    obtain ⟨hs0, hsk⟩ := sym_range hv (j + 1) hjn
    have hb1 := h.bnd _ hs0 hsk
    have hb2 := bMid_le_bEnd s t (sym s (j + 1))
    rcases h.cls i hi with hneg | ⟨j', hj', hcell', hcase⟩
    · omega
    · have hjj : j' = j + 1 := by omega
      subst hjj
      by_cases heq : sym s (j + 1) = sym s j
      · rcases hcase with ⟨_, _, hb⟩ | ⟨hM, _, _⟩
        · rw [heq] at hb; omega
        · have := ht.2 heq
          rw [hM.2.1] at this; cases this
      · have := bEnd_le_bHead s (sym s (j + 1)) (sym s j) (by omega)
        rcases hcase with ⟨_, _, hb⟩ | ⟨_, _, hb⟩
        · omega
        · omega
  refine ⟨by omega, by omega, ?_⟩
  rw [hp, Int.toNat_natCast]
  have hcellS : ∀ x, cell (SA.set p j) x = if p = x then (j : Int) else cell SA x := by
    intro x
    rw [cell_set]
    by_cases hpx : p = x
    · rw [if_pos ⟨hpx, by omega⟩, if_pos hpx]
    · rw [if_neg (fun hh => hpx hh.1), if_neg hpx]
  have hbpS : ∀ c' : Int, 0 ≤ c' →
      bp (B.set (sym s j).toNat ((p : Int) + 1)) c' =
        if sym s j = c' then (p : Int) + 1 else bp B c' := fun c' h0' =>
    bp_set B _ c' _ hc0 (by rw [h.lenB]; exact hck) h0'
  have hbpmono : ∀ c' : Int, 0 ≤ c' → bp B c' ≤ bp (B.set (sym s j).toNat ((p : Int) + 1)) c' := by
    intro c' h0'
    rw [hbpS c' h0']
    by_cases hcc : sym s j = c'
    · rw [if_pos hcc, ← hcc]; omega
    · rw [if_neg hcc]
  constructor
  · simpa using hlen
  · simpa using h.lenB
  · intro c' h0' hk'
    rw [hbpS c' h0']
    by_cases hcc : sym s j = c'
    · rw [if_pos hcc, ← hcc]; omega
    · rw [if_neg hcc]; exact h.bnd c' h0' hk'
  · intro x hx
    rw [hcellS]
    by_cases hpx : p = x
    · subst hpx
      right
      refine ⟨j, by omega, by rw [if_pos rfl], Or.inl ⟨hL, by omega, ?_⟩⟩
      rw [hbpS _ hc0, if_pos rfl]; omega
    · rw [if_neg hpx]
      rcases h.cls x hx with hneg | ⟨j', hj', hcell', hcase⟩
      · exact Or.inl hneg
      · right
        refine ⟨j', hj', hcell', ?_⟩
        rcases hcase with ⟨hL', ha, hb⟩ | hM
        · have := hbpmono (sym s j') (sym_range hv j' hj').1
          exact Or.inl ⟨hL', ha, by omega⟩
        · exact Or.inr hM
  · intro c' h0' hk' x hx1 hx2
    rw [hcellS]
    by_cases hpx : p = x
    · rw [if_pos hpx]; omega
    · rw [if_neg hpx]
      apply h.filled c' h0' hk' x hx1
      rw [hbpS c' h0'] at hx2
      by_cases hcc : sym s j = c'
      · rw [if_pos hcc] at hx2; rw [← hcc]; omega
      · rw [if_neg hcc] at hx2; exact hx2
  · intro c' h0' hk' x hx1 hx2
    rw [hcellS]
    rw [hbpS c' h0'] at hx1
    by_cases hcc : sym s j = c'
    · rw [if_pos hcc] at hx1
      rw [if_neg (by omega)]
      exact h.empty c' h0' hk' x (by rw [← hcc]; omega) hx2
    · rw [if_neg hcc] at hx1
      have hpx : p ≠ x := by
        intro hpx
        subst hpx
        have hb' := h.bnd c' h0' hk'
        have hme' := bMid_le_bEnd s t c'
        exact hcc (same_bucket s (x := p) (by omega) (by omega) (by omega) (by omega))
      rw [if_neg hpx]
      exact h.empty c' h0' hk' x hx1 hx2
  · intro x y hx hy hxy hne
    rw [hcellS] at hxy hne
    rw [hcellS] at hxy
    by_cases hpx : p = x
    · by_cases hpy : p = y
      · omega
      · rw [if_pos hpx, if_neg hpy] at hxy
        exact absurd hxy.symm (hnotin y hy)
    · by_cases hpy : p = y
      · rw [if_neg hpx, if_pos hpy] at hxy
        exact absurd hxy (hnotin x hx)
      · rw [if_neg hpx, if_neg hpy] at hxy
        rw [if_neg hpx] at hne
        exact h.inj x y hx hy hxy hne
  · intro x j' hx hxc hL' hj'
    rw [hcellS] at hxc
    by_cases hpx : p = x
    · rw [if_pos hpx] at hxc
      have : j' = j := by omega
      subst this
      refine ⟨i, by omega, by omega, ?_⟩
      rw [hcellS, if_neg (by omega)]; exact hcell
    · rw [if_neg hpx] at hxc
      obtain ⟨y, hy1, hy2, hy3⟩ := h.pred x j' hx hxc hL' hj'
      refine ⟨y, by omega, hy2, ?_⟩
      rw [hcellS, if_neg (by omega)]; exact hy3
  · intro y j' hy hyn hyc hL'
    rw [hcellS, if_neg (by omega)] at hyc
    by_cases hyi : y = i
    · subst hyi
      have : j' = j := by omega
      subst this
      exact ⟨p, hpn, by rw [hcellS, if_pos rfl]⟩
    · obtain ⟨x, hx, hxc⟩ := h.succ y j' (by omega) hyn hyc hL'
      refine ⟨x, hx, ?_⟩
      rw [hcellS, if_neg (by intro hpx; subst hpx; omega)]; exact hxc
  · intro q hq
    obtain ⟨x, hx, hxc⟩ := h.lms q hq
    refine ⟨x, hx, ?_⟩
    rw [hcellS, if_neg (by intro hpx; subst hpx; omega)]; exact hxc
  · obtain ⟨x, hx, hxc⟩ := h.last
    refine ⟨x, hx, ?_⟩
    rw [hcellS, if_neg (by intro hpx; subst hpx; omega)]; exact hxc

end LScan

section LScan2
variable {s : List Int} {t : List Bool} {k : Nat}

/-- A slot in the L-type part of a bucket is empty in a seeded array. -/
theorem Seeded.emptyL {SA : List Int} (h : Seeded s t SA) {c : Int} {x : Nat}
    (h1 : bHead s c ≤ x) (h2 : x < bMid s t c) : cell SA x = -1 := by
  have hme := bMid_le_bEnd s t c
  have hen := bEnd_le s c
  rcases h.cls x (by omega) with hneg | ⟨j, hj, hcell, hM, ha, hb⟩
  · exact hneg
  · have hhm := bHead_le_bMid s t (sym s j)
    have : sym s j = c := same_bucket s (x := x) (by omega) (by omega) (by omega) (by omega)
    subst this
    omega

/-- The statement before the left-to-right scan, which puts the last position
at the head of its bucket, establishes the invariant of the scan. -/
theorem LInv.initL {SA B : List Int} (hv : ValidInput s s.length k) (hc : Classified s t)
    (hn : 0 < s.length) (hs : Seeded s t SA) (hB : B.length = k)
    (hb : ∀ c : Int, 0 ≤ c → c < k → bp B c = bHead s c) :
    ∃ st, place s 1 ((s.length : Int) - 1) (SA, B) = some st ∧ LInv s t k 0 st.1 st.2 := by
  obtain ⟨j, hjn⟩ : ∃ j, j + 1 = s.length := ⟨s.length - 1, by omega⟩
  have hL : typ t j = false := by
    have := hc.2.1
    rwa [show s.length - 1 = j by omega] at this
  obtain ⟨hc0, hck⟩ := sym_range hv j (by omega)
  have hroom : bHead s (sym s j) < bMid s t (sym s j) := by
    have := countPos_pos s.length (fun j' => sym s j' = sym s j ∧ typ t j' = false) j (by omega)
      ⟨rfl, hL⟩
    unfold bMid; omega
  have hme := bMid_le_bEnd s t (sym s j)
  have hen := bEnd_le s (sym s j)
  have hlen := hs.lenSA
  have hbj := hb _ hc0 hck
  have hpl := place_spec hv 1 j (by omega) SA B hB (by omega) (by omega)
  rw [show ((s.length : Int) - 1) = (j : Int) by omega]
  refine ⟨_, hpl, ?_⟩
  simp only
  rw [hbj, Int.toNat_natCast]
  generalize hp : bHead s (sym s j) = p at *
  have hpe : cell SA p = -1 := hs.emptyL (c := sym s j) (by omega) hroom
  have hcellS : ∀ x, cell (SA.set p j) x = if p = x then (j : Int) else cell SA x := by
    intro x
    rw [cell_set]
    by_cases hpx : p = x
    · rw [if_pos ⟨hpx, by omega⟩, if_pos hpx]
    · rw [if_neg (fun hh => hpx hh.1), if_neg hpx]
  have hbpS : ∀ c' : Int, 0 ≤ c' → c' < k →
      bp (B.set (sym s j).toNat ((p : Int) + 1)) c' =
        if sym s j = c' then (p : Int) + 1 else bHead s c' := fun c' h0' hk' => by
    rw [bp_set B _ c' _ hc0 (by rw [hB]; exact hck) h0', hb c' h0' hk']
  have hSty : ∀ x j' : Nat, x < s.length → cell SA x = j' → typ t j' = true := by
    intro x j' hx hxc
    rcases hs.cls x hx with hneg | ⟨j'', _, hcell, hM, _⟩
    · omega
    · rw [show j' = j'' by omega]; exact hM.2.1
  constructor
  · simpa using hlen
  · simpa using hB
  · intro c' h0' hk'
    rw [hbpS c' h0' hk']
    have := bHead_le_bMid s t c'
    by_cases hcc : sym s j = c'
    · rw [if_pos hcc, ← hcc, hp]; omega
    · rw [if_neg hcc]; omega
  · intro x hx
    rw [hcellS]
    by_cases hpx : p = x
    · subst hpx
      right
      refine ⟨j, by omega, by rw [if_pos rfl], Or.inl ⟨hL, by omega, ?_⟩⟩
      rw [hbpS _ hc0 hck, if_pos rfl]; omega
    · rw [if_neg hpx]
      rcases hs.cls x hx with hneg | ⟨j', hj', hcell', hM⟩
      · exact Or.inl hneg
      · exact Or.inr ⟨j', hj', hcell', Or.inr hM⟩
  · intro c' h0' hk' x hx1 hx2
    rw [hcellS]
    rw [hbpS c' h0' hk'] at hx2
    by_cases hcc : sym s j = c'
    · rw [if_pos hcc] at hx2
      rw [← hcc, hp] at hx1
      rw [if_pos (by omega)]; omega
    · rw [if_neg hcc] at hx2; omega
  · intro c' h0' hk' x hx1 hx2
    rw [hcellS]
    rw [hbpS c' h0' hk'] at hx1
    by_cases hcc : sym s j = c'
    · rw [if_pos hcc] at hx1
      rw [if_neg (by omega)]
      exact hs.emptyL (c := c') (by rw [← hcc, hp]; omega) hx2
    · rw [if_neg hcc] at hx1
      have hx : cell SA x = -1 := hs.emptyL (c := c') (by omega) hx2
      by_cases hpx : p = x
      · rw [if_pos hpx]
        exfalso
        subst hpx
        have hme' := bMid_le_bEnd s t c'
        exact hcc (same_bucket s (x := p) (by omega) (by omega) (by omega) (by omega))
      · rw [if_neg hpx]; exact hx
  · intro x y hx hy hxy hne
    rw [hcellS] at hxy hne
    rw [hcellS] at hxy
    by_cases hpx : p = x
    · by_cases hpy : p = y
      · omega
      · rw [if_pos hpx, if_neg hpy] at hxy
        have := hSty y j hy hxy.symm
        rw [hL] at this; cases this
    · by_cases hpy : p = y
      · rw [if_neg hpx, if_pos hpy] at hxy
        have := hSty x j hx hxy
        rw [hL] at this; cases this
      · rw [if_neg hpx, if_neg hpy] at hxy
        rw [if_neg hpx] at hne
        exact hs.inj x y hx hy hxy hne
  · intro x j' hx hxc hL' hj'
    rw [hcellS] at hxc
    by_cases hpx : p = x
    · rw [if_pos hpx] at hxc; omega
    · rw [if_neg hpx] at hxc
      have := hSty x j' hx hxc
      rw [hL'] at this; cases this
  · intro y j' hy; omega
  · intro q hq
    obtain ⟨x, hx, hxc⟩ := hs.lms q hq
    refine ⟨x, hx, ?_⟩
    rw [hcellS, if_neg (by intro hpx; subst hpx; omega)]; exact hxc
  · exact ⟨p, by omega, by rw [hcellS, if_pos rfl]; omega⟩

/-- One iteration of the left-to-right scan keeps the invariant. -/
theorem scanL_spec {i : Nat} (hv : ValidInput s s.length k) (hc : Classified s t)
    (hi : i < s.length) (st : List Int × List Int) (h : LInv s t k i st.1 st.2) :
    ∃ st', scanL t s i st = some st' ∧ LInv s t k (i + 1) st'.1 st'.2 := by
  obtain ⟨SA, B⟩ := st
  simp only at h
  unfold scanL
  simp only
  rw [rd_cell SA i (by rw [h.lenSA]; exact hi), Option.some_bind]
  by_cases hv1 : 0 ≤ cell SA i - 1
  · rw [if_pos hv1]
    have hvn : cell SA i < s.length := by
      rcases h.cls i hi with hneg | ⟨j', hj', hcell', _⟩ <;> omega
    rw [tget_typ_int t _ hv1 (by rw [hc.1]; omega), Option.some_bind]
    obtain ⟨j, hj⟩ : ∃ j : Nat, cell SA i - 1 = j := ⟨(cell SA i - 1).toNat, by omega⟩
    rw [hj, Int.toNat_natCast]
    by_cases hty : typ t j = true
    · rw [if_pos hty]
      exact ⟨_, rfl, h.skipL fun j' hj' => by rw [show j' = j by omega]; exact hty⟩
    · rw [if_neg hty]
      have hL : typ t j = false := by simpa using hty
      obtain ⟨h0, h1, hinv⟩ := h.stepL hv hc hi j (by omega) hL
      rw [place_spec hv 1 j (by omega) SA B h.lenB h0 h1]
      exact ⟨_, rfl, hinv⟩
  · rw [if_neg hv1]
    exact ⟨_, rfl, h.skipL fun j' hj' => by omega⟩

/-- After the left-to-right scan every L-type position is placed. -/
theorem LInv.allL {SA B : List Int} (h : LInv s t k s.length SA B) (hc : Classified s t) :
    ∀ d j, j + d + 1 = s.length → typ t j = false → ∃ x, x < s.length ∧ cell SA x = j
  | 0, j, hj, _ => by
    obtain ⟨x, hx, hxc⟩ := h.last
    exact ⟨x, hx, by rw [hxc]; omega⟩
  | d + 1, j, hj, hL => by
    have hsucc : ∃ y, y < s.length ∧ cell SA y = (j : Int) + 1 := by
      by_cases hL' : typ t (j + 1) = false
      · obtain ⟨y, hy, hyc⟩ := h.allL hc d (j + 1) (by omega) hL'
        exact ⟨y, hy, by rw [hyc]; push_cast; rfl⟩
      · have hM : LMS t (j + 1) := ⟨by omega, by simpa using hL', by simpa using hL⟩
        obtain ⟨y, hy, hyc⟩ := h.lms (j + 1) hM
        exact ⟨y, hy, by rw [hyc]; push_cast; rfl⟩
    obtain ⟨y, hy, hyc⟩ := hsucc
    exact h.succ y j hy hy hyc hL

/-- After the left-to-right scan the bucket pointers are at the end of the
L-type parts. -/
theorem LInv.bp_final {SA B : List Int} (h : LInv s t k s.length SA B)
    (hc : Classified s t) (c : Int) (h0 : 0 ≤ c) (hk : c < k) :
    bp B c = bMid s t c := by
  have hb := h.bnd c h0 hk
  have := pigeon_positions (cell SA) s.length (bHead s c) (bp B c)
    (fun j => sym s j = c ∧ typ t j = false) (by omega) hb.1
    (fun j hj ⟨hs, hL⟩ => by
      obtain ⟨x, hx, hxc⟩ := h.allL hc (s.length - 1 - j) j (by omega) hL
      refine ⟨x, ?_, ?_, hxc⟩
      · rcases h.cls x hx with hneg | ⟨j', hj', hcell', hcase⟩
        · omega
        · have hjj : j' = j := by omega
          subst hjj
          rcases hcase with ⟨_, ha, _⟩ | ⟨hM, _, _⟩
          · rw [← hs]; exact ha
          · rw [hM.2.1] at hL; cases hL
      · rcases h.cls x hx with hneg | ⟨j', hj', hcell', hcase⟩
        · omega
        · have hjj : j' = j := by omega
          subst hjj
          rcases hcase with ⟨_, _, hb⟩ | ⟨hM, _, _⟩
          · rw [← hs]; exact hb
          · rw [hM.2.1] at hL; cases hL)
  unfold bMid at *
  omega

end LScan2

/-! ## The right-to-left scan -/

section SScan
variable {s : List Int} {t : List Bool} {k i : Nat} {SA B : List Int}

theorem SInv.filledS (h : SInv s t k i SA B) {c : Int}
    (h0 : 0 ≤ c) (hk : c < k) {x : Nat} (hx1 : bp B c < x) (hx2 : x < bEnd s c) :
    ∃ j : Nat, j < s.length ∧ cell SA x = j ∧ typ t j = true ∧ sym s j = c := by
  have hb := h.bnd c h0 hk
  have h1 := bHead_le_bMid s t c
  have h2 := bEnd_le s c
  rcases h.cls x (by omega) with hneg | ⟨j, hj, hcell, hcase⟩
  · exact absurd hneg (h.filled c h0 hk x hx1 hx2)
  · have h1' := bMid_le_bEnd s t (sym s j)
    have h3' := bHead_le_bMid s t (sym s j)
    rcases hcase with ⟨hL, ha, hb2⟩ | ⟨hS, ha, hb2, _⟩
    · have : sym s j = c := same_bucket s (x := x) (by omega) (by omega) (by omega) (by omega)
      subst this
      omega
    · have : sym s j = c := same_bucket s (x := x) (by omega) (by omega) (by omega) (by omega)
      exact ⟨j, hj, hcell, hS, this⟩

theorem SInv.skipS (h : SInv s t k (i + 1) SA B)
    (hno : ∀ j : Nat, cell SA i = (j : Int) + 1 → typ t j = false) :
    SInv s t k i SA B :=
  { h with
    pred := fun x j hx hc hS hb => by
      obtain ⟨y, hy1, hy2, hy3⟩ := h.pred x j hx hc hS hb
      exact ⟨y, by omega, hy2, hy3⟩
    succ := fun y j hy hyn hc hval hS => by
      by_cases hyi : y = i
      · subst hyi
        have := hno j hc
        rw [hS] at this; cases this
      · exact h.succ y j (by omega) hyn hc hval hS }

theorem SInv.stepS (h : SInv s t k (i + 1) SA B) (hv : ValidInput s s.length k)
    (hc : Classified s t) (hi : i < s.length) (j : Nat) (hcell : cell SA i = (j : Int) + 1)
    (hS : typ t j = true) :
    0 ≤ bp B (sym s j) ∧ bp B (sym s j) < SA.length ∧
    SInv s t k i (SA.set (bp B (sym s j)).toNat j)
      (B.set (sym s j).toNat (bp B (sym s j) + -1)) := by
  obtain ⟨hjn, hsle, hseq⟩ := typeS hc hS
  obtain ⟨hc0, hck⟩ := sym_range hv j (by omega)
  obtain ⟨hs0, hsk⟩ := sym_range hv (j + 1) hjn
  have hbnd := h.bnd _ hc0 hck
  have hbnd1 := h.bnd _ hs0 hsk
  -- slot `i` holds `j + 1` and counts
  have hibk : bHead s (sym s (j + 1)) ≤ i ∧
      (typ t (j + 1) = false ∨ bp B (sym s (j + 1)) < i) := by
    rcases h.cls i hi with hneg | ⟨j', hj', hcell', hcase⟩
    · omega
    · have hjj : j' = j + 1 := by omega
      subst hjj
      have := bHead_le_bMid s t (sym s (j + 1))
      rcases hcase with ⟨hL', ha, _⟩ | ⟨_, ha, _, hst⟩
      · exact ⟨ha, Or.inl hL'⟩
      · refine ⟨by omega, Or.inr ?_⟩
        by_contra hcon
        have hM := hst (by omega)
        have := hM.2.2
        simp only [Nat.add_sub_cancel] at this
        rw [hS] at this; cases this
  have hnotin : ∀ x, x < s.length → cell SA x = j → ¬ bp B (sym s j) < x := by
    intro x hx hxj hfr
    obtain ⟨y, hy1, hy2, hy3, hy4, hy5⟩ := h.pred x j hx hxj hS hfr
    have hyi : y = i := by
      by_cases hL' : typ t (j + 1) = false
      · exact h.injL y i (j + 1) hy3 hi (by rw [hy4]; push_cast; rfl)
          (by rw [hcell]; push_cast; rfl) hL'
      · have hS' : typ t (j + 1) = true := by simpa using hL'
        rcases hy5 with h5 | h5
        · exact absurd h5 hL'
        · rcases hibk.2 with h6 | h6
          · exact absurd h6 hL'
          · exact h.injS y i (j + 1) hy3 hi (by rw [hy4]; push_cast; rfl)
              (by rw [hcell]; push_cast; rfl) hS' h5 h6
    omega
  have hme := bMid_le_bEnd s t (sym s j)
  have hhm := bHead_le_bMid s t (sym s j)
  have hen := bEnd_le s (sym s j)
  have hroom : (bMid s t (sym s j) : Int) ≤ bp B (sym s j) := by
    have := pigeon_slots (cell SA) s.length (bp B (sym s j) + 1) (bEnd s (sym s j))
      (fun j' => sym s j' = sym s j ∧ typ t j' = true) j (by omega) ⟨rfl, hS⟩ (by omega)
      (fun x hx1 hx2 => by
        obtain ⟨j', hj', hx, hS', hs'⟩ := h.filledS hc0 hck (x := x) (by omega) (by omega)
        refine ⟨j', hj', hx, ⟨hs', hS'⟩, ?_⟩
        intro he
        exact hnotin x (by omega) (by rw [hx, he]) (by omega))
      (fun x y hx1 hx2 hy1 hy2 hxy => by
        obtain ⟨j', hj', hx, hS', hs'⟩ := h.filledS hc0 hck (x := x) (by omega) (by omega)
        exact h.injS x y j' (by omega) (by omega) hx (by rw [← hxy, hx]) hS'
          (by rw [hs']; omega) (by rw [hs']; omega))
    have hadd := bMid_add s t (sym s j)
    omega
  have hlen := h.lenSA
  obtain ⟨p, hp⟩ : ∃ p : Nat, bp B (sym s j) = p := ⟨(bp B (sym s j)).toNat, by omega⟩
  have hpn : p < s.length := by omega
  have hpi : p < i := by
    by_cases heq : sym s j = sym s (j + 1)
    · have hS' := hseq heq
      rcases hibk.2 with h6 | h6
      · rw [hS'] at h6; cases h6
      · rw [← heq] at h6; omega
    · have := bEnd_le_bHead s (sym s j) (sym s (j + 1)) (by omega)
      omega
  -- the old contents of slot `p`
  have hpold : ∀ j' : Nat, cell SA p = j' → typ t j' = true ∧ sym s j' = sym s j := by
    intro j' hj'
    rcases h.cls p hpn with hneg | ⟨j'', hj'', hcell', hcase⟩
    · omega
    · have hjj : j'' = j' := by omega
      subst hjj
      have h1' := bMid_le_bEnd s t (sym s j'')
      have h3' := bHead_le_bMid s t (sym s j'')
      rcases hcase with ⟨_, ha, hb2⟩ | ⟨hS', ha, hb2, _⟩
      · have : sym s j'' = sym s j :=
          same_bucket s (x := p) (by omega) (by omega) (by omega) (by omega)
        rw [this] at hb2; omega
      · exact ⟨hS', same_bucket s (x := p) (by omega) (by omega) (by omega) (by omega)⟩
  refine ⟨by omega, by omega, ?_⟩
  rw [hp, Int.toNat_natCast]
  have hcellS : ∀ x, cell (SA.set p j) x = if p = x then (j : Int) else cell SA x := by
    intro x
    rw [cell_set]
    by_cases hpx : p = x
    · rw [if_pos ⟨hpx, by omega⟩, if_pos hpx]
    · rw [if_neg (fun hh => hpx hh.1), if_neg hpx]
  have hbpS : ∀ c' : Int, 0 ≤ c' →
      bp (B.set (sym s j).toNat ((p : Int) + -1)) c' =
        if sym s j = c' then (p : Int) + -1 else bp B c' := fun c' h0' =>
    bp_set B _ c' _ hc0 (by rw [h.lenB]; exact hck) h0'
  have hbpmono : ∀ c' : Int, 0 ≤ c' → bp (B.set (sym s j).toNat ((p : Int) + -1)) c' ≤ bp B c' := by
    intro c' h0'
    rw [hbpS c' h0']
    by_cases hcc : sym s j = c'
    · rw [if_pos hcc, ← hcc]; omega
    · rw [if_neg hcc]
  -- a slot other than `p` above the new pointer is above the old pointer
  have hfresh : ∀ (x j' : Nat), j' < s.length → p ≠ x →
      bp (B.set (sym s j).toNat ((p : Int) + -1)) (sym s j') < x → bp B (sym s j') < x := by
    intro x j' hj' hpx hb
    rw [hbpS _ (sym_range hv j' hj').1] at hb
    by_cases hcc : sym s j = sym s j'
    · rw [if_pos hcc] at hb; rw [← hcc]; omega
    · rw [if_neg hcc] at hb; exact hb
  constructor
  · simpa using hlen
  · simpa using h.lenB
  · intro c' h0' hk'
    rw [hbpS c' h0']
    by_cases hcc : sym s j = c'
    · rw [if_pos hcc, ← hcc]; omega
    · rw [if_neg hcc]; exact h.bnd c' h0' hk'
  · intro x hx
    rw [hcellS]
    by_cases hpx : p = x
    · subst hpx
      right
      refine ⟨j, by omega, by rw [if_pos rfl], Or.inr ⟨hS, by omega, by omega, ?_⟩⟩
      intro hcon
      rw [hbpS _ hc0, if_pos rfl] at hcon; omega
    · rw [if_neg hpx]
      rcases h.cls x hx with hneg | ⟨j', hj', hcell', hcase⟩
      · exact Or.inl hneg
      · right
        refine ⟨j', hj', hcell', ?_⟩
        rcases hcase with hL' | ⟨hS', ha, hb, hst⟩
        · exact Or.inl hL'
        · have := hbpmono (sym s j') (sym_range hv j' hj').1
          exact Or.inr ⟨hS', ha, hb, fun hle => hst (by omega)⟩
  · intro j' hj' hL'
    obtain ⟨x, hx, hxc⟩ := h.allL j' hj' hL'
    refine ⟨x, hx, ?_⟩
    rw [hcellS, if_neg ?_]; exact hxc
    intro hpx; subst hpx
    have := (hpold j' hxc).1
    rw [hL'] at this; cases this
  · intro c' h0' hk' x hx1 hx2
    rw [hcellS]
    by_cases hpx : p = x
    · rw [if_pos hpx]; omega
    · rw [if_neg hpx]
      apply h.filled c' h0' hk' x _ hx2
      rw [hbpS c' h0'] at hx1
      by_cases hcc : sym s j = c'
      · rw [if_pos hcc] at hx1; rw [← hcc]; omega
      · rw [if_neg hcc] at hx1; exact hx1
  · intro x y j' hx hy hxc hyc hL'
    rw [hcellS] at hxc hyc
    have hpx : p ≠ x := by
      intro hpx; rw [if_pos hpx] at hxc
      rw [show j' = j by omega, hS] at hL'; cases hL'
    have hpy : p ≠ y := by
      intro hpy; rw [if_pos hpy] at hyc
      rw [show j' = j by omega, hS] at hL'; cases hL'
    rw [if_neg hpx] at hxc; rw [if_neg hpy] at hyc
    exact h.injL x y j' hx hy hxc hyc hL'
  · intro x y j' hx hy hxc hyc hS' hbx hby
    rw [hcellS] at hxc hyc
    have hj' : j' < s.length := by
      by_cases hpx : p = x
      · rw [if_pos hpx] at hxc; omega
      · rw [if_neg hpx] at hxc
        rcases h.cls x hx with hneg | ⟨j'', hj'', hcell', _⟩ <;> omega
    by_cases hpx : p = x
    · by_cases hpy : p = y
      · omega
      · rw [if_pos hpx] at hxc; rw [if_neg hpy] at hyc
        have hjj : j' = j := by omega
        subst hjj
        exact absurd (hfresh y j' hj' hpy hby) (hnotin y hy hyc)
    · by_cases hpy : p = y
      · rw [if_pos hpy] at hyc; rw [if_neg hpx] at hxc
        have hjj : j' = j := by omega
        subst hjj
        exact absurd (hfresh x j' hj' hpx hbx) (hnotin x hx hxc)
      · rw [if_neg hpx] at hxc; rw [if_neg hpy] at hyc
        exact h.injS x y j' hx hy hxc hyc hS' (hfresh x j' hj' hpx hbx) (hfresh y j' hj' hpy hby)
  · intro x j' hx hxc hS' hbx
    rw [hcellS] at hxc
    by_cases hpx : p = x
    · rw [if_pos hpx] at hxc
      have hjj : j' = j := by omega
      subst hjj
      refine ⟨i, Nat.le_refl _, by omega, hi, ?_, ?_⟩
      · rw [hcellS, if_neg (by omega)]; exact hcell
      · rcases hibk.2 with h6 | h6
        · exact Or.inl h6
        · have := hbpmono _ hs0
          exact Or.inr (by omega)
    · rw [if_neg hpx] at hxc
      have hj' : j' < s.length := by
        rcases h.cls x hx with hneg | ⟨j'', hj'', hcell', _⟩ <;> omega
      obtain ⟨y, hy1, hy2, hy3, hy4, hy5⟩ := h.pred x j' hx hxc hS' (hfresh x j' hj' hpx hbx)
      refine ⟨y, by omega, hy2, hy3, ?_, ?_⟩
      · rw [hcellS, if_neg (by omega)]; exact hy4
      · rcases hy5 with h5 | h5
        · exact Or.inl h5
        · have := hbpmono _ (sym_range hv (j' + 1) (typeS hc hS').1).1
          exact Or.inr (by omega)
  · intro y j' hy hyn hyc hval hS'
    rw [hcellS, if_neg (by omega)] at hyc
    by_cases hyi : y = i
    · subst hyi
      have hjj : j' = j := by omega
      subst hjj
      refine ⟨p, hpn, by rw [hcellS, if_pos rfl], ?_⟩
      rw [hbpS _ hc0, if_pos rfl]; omega
    · have hval' : typ t (j' + 1) = false ∨ bp B (sym s (j' + 1)) < y := by
        rcases hval with h5 | h5
        · exact Or.inl h5
        · exact Or.inr (hfresh y (j' + 1) (typeS hc hS').1 (by omega) h5)
      obtain ⟨x, hx, hxc, hxb⟩ := h.succ y j' (by omega) hyn hyc hval' hS'
      have hpx : p ≠ x := by
        intro hpx; subst hpx
        have := (hpold j' hxc).2
        rw [this] at hxb; omega
      refine ⟨x, hx, by rw [hcellS, if_neg hpx]; exact hxc, ?_⟩
      have := hbpmono _ (sym_range hv j' (by have := (typeS hc hS').1; omega)).1
      omega
  · intro x y j' hx hy hxc hyc hL' hL''
    rw [hcellS] at hxc hyc
    have hpx : p ≠ x := by
      intro hpx; rw [if_pos hpx] at hxc
      rw [show j' = j by omega, hS] at hL'; cases hL'
    have hpy : p ≠ y := by
      intro hpy; rw [if_pos hpy] at hyc
      rw [show j' + 1 = j by omega, hS] at hL''; cases hL''
    rw [if_neg hpx] at hxc; rw [if_neg hpy] at hyc
    exact h.ordL x y j' hx hy hxc hyc hL' hL''

end SScan

section SScan2
variable {s : List Int} {t : List Bool} {k : Nat}

/-- The state after the left-to-right scan, with the bucket tails as pointers,
satisfies the invariant of the right-to-left scan. -/
theorem SInv.initS {SA BL B : List Int} (h : LInv s t k s.length SA BL)
    (hv : ValidInput s s.length k) (hc : Classified s t) (hB : B.length = k)
    (hb : ∀ c : Int, 0 ≤ c → c < k → bp B c = (bEnd s c : Int) - 1) :
    SInv s t k s.length SA B := by
  have hcls : ∀ x, x < s.length → cell SA x = -1 ∨ ∃ j : Nat, j < s.length ∧ cell SA x = j ∧
      ((typ t j = false ∧ bHead s (sym s j) ≤ x ∧ x < bMid s t (sym s j)) ∨
       (typ t j = true ∧ bMid s t (sym s j) ≤ x ∧ x < bEnd s (sym s j) ∧ LMS t j)) := by
    intro x hx
    rcases h.cls x hx with hneg | ⟨j, hj, hcell, hcase⟩
    · exact Or.inl hneg
    · right
      refine ⟨j, hj, hcell, ?_⟩
      obtain ⟨hs0, hsk⟩ := sym_range hv j hj
      rcases hcase with ⟨hL, ha, hb2⟩ | ⟨hM, ha, hb2⟩
      · rw [h.bp_final hc _ hs0 hsk] at hb2
        exact Or.inl ⟨hL, by omega, by omega⟩
      · exact Or.inr ⟨hM.2.1, ha, hb2, hM⟩
  have hnofresh : ∀ x j : Nat, x < s.length → cell SA x = j → ¬ bp B (sym s j) < x := by
    intro x j hx hxc hbx
    rcases hcls x hx with hneg | ⟨j', hj', hcell, hcase⟩
    · omega
    · have hjj : j' = j := by omega
      subst hjj
      obtain ⟨hs0, hsk⟩ := sym_range hv j' hj'
      rw [hb _ hs0 hsk] at hbx
      have := bMid_le_bEnd s t (sym s j')
      rcases hcase with ⟨_, _, hb2⟩ | ⟨_, _, hb2, _⟩ <;> omega
  constructor
  · exact h.lenSA
  · exact hB
  · intro c h0 hk
    rw [hb c h0 hk]
    have := bMid_le_bEnd s t c
    omega
  · intro x hx
    rcases hcls x hx with hneg | ⟨j, hj, hcell, hcase⟩
    · exact Or.inl hneg
    · right
      refine ⟨j, hj, hcell, ?_⟩
      rcases hcase with hL | ⟨hS, ha, hb2, hM⟩
      · exact Or.inl hL
      · exact Or.inr ⟨hS, ha, hb2, fun _ => hM⟩
  · intro j hj hL
    exact h.allL hc (s.length - 1 - j) j (by omega) hL
  · intro c h0 hk x hx1 hx2
    rw [hb c h0 hk] at hx1; omega
  · intro x y j hx hy hxc hyc _
    exact h.inj x y hx hy (by rw [hxc, hyc]) (by rw [hxc]; omega)
  · intro x y j hx _ hxc _ _ hbx _
    exact absurd hbx (hnofresh x j hx hxc)
  · intro x j hx hxc _ hbx
    exact absurd hbx (hnofresh x j hx hxc)
  · intro y j hy hyn; omega
  · intro x y j hx hy hxc hyc hL _
    have hj1 : j + 1 < s.length := by
      rcases h.cls y hy with hneg | ⟨j', hj', hcell, _⟩ <;> omega
    obtain ⟨y', _, hy2, hy3⟩ := h.pred x j hx hxc hL hj1
    have := h.inj y' y (by omega) hy (by rw [hy3, hyc]) (by rw [hy3]; omega)
    omega

/-- One iteration of the right-to-left scan keeps the invariant. -/
theorem scanS_spec {i : Nat} (hv : ValidInput s s.length k) (hc : Classified s t)
    (hi : i < s.length) (st : List Int × List Int) (h : SInv s t k (i + 1) st.1 st.2) :
    ∃ st', scanS t s i st = some st' ∧ SInv s t k i st'.1 st'.2 := by
  obtain ⟨SA, B⟩ := st
  simp only at h
  unfold scanS
  simp only
  rw [rd_cell SA i (by rw [h.lenSA]; exact hi), Option.some_bind]
  by_cases hv1 : 0 ≤ cell SA i - 1
  · rw [if_pos hv1]
    have hvn : cell SA i < s.length := by
      rcases h.cls i hi with hneg | ⟨j', hj', hcell', _⟩ <;> omega
    rw [tget_typ_int t _ hv1 (by rw [hc.1]; omega), Option.some_bind]
    obtain ⟨j, hj⟩ : ∃ j : Nat, cell SA i - 1 = j := ⟨(cell SA i - 1).toNat, by omega⟩
    rw [hj, Int.toNat_natCast]
    by_cases hty : typ t j = true
    · rw [if_pos hty]
      obtain ⟨h0, h1, hinv⟩ := h.stepS hv hc hi j (by omega) hty
      rw [place_spec hv (-1) j (by omega) SA B h.lenB h0 h1]
      exact ⟨_, rfl, hinv⟩
    · rw [if_neg hty]
      exact ⟨_, rfl, h.skipS fun j' hj' => by rw [show j' = j by omega]; simpa using hty⟩
  · rw [if_neg hv1]
    exact ⟨_, rfl, h.skipS fun j' hj' => by omega⟩

/-- After the right-to-left scan every S-type position is placed above the
pointer of its bucket. -/
theorem SInv.allS {SA B : List Int} (h : SInv s t k 0 SA B) (hc : Classified s t) :
    ∀ d j, j + d + 1 = s.length → typ t j = true →
      ∃ x, x < s.length ∧ cell SA x = j ∧ bp B (sym s j) < x
  | 0, j, hj, hS => by have := (typeS hc hS).1; omega
  | d + 1, j, hj, hS => by
    have hsucc : ∃ y, y < s.length ∧ cell SA y = (j : Int) + 1 ∧
        (typ t (j + 1) = false ∨ bp B (sym s (j + 1)) < y) := by
      by_cases hL' : typ t (j + 1) = false
      · obtain ⟨y, hy, hyc⟩ := h.allL (j + 1) (by omega) hL'
        exact ⟨y, hy, by rw [hyc]; push_cast; rfl, Or.inl hL'⟩
      · obtain ⟨y, hy, hyc, hyb⟩ := h.allS hc d (j + 1) (by omega) (by simpa using hL')
        exact ⟨y, hy, by rw [hyc]; push_cast; rfl, Or.inr hyb⟩
    obtain ⟨y, hy, hyc, hval⟩ := hsucc
    exact h.succ y j (Nat.zero_le _) hy hyc hval hS

/-- The state after both scans. -/
theorem SInv.induced {SA B : List Int} (h : SInv s t k 0 SA B) (hc : Classified s t) :
    Induced s t SA := by
  have hmem : ∀ j, j < s.length → ∃ x, x < s.length ∧ cell SA x = j := by
    intro j hj
    by_cases hL : typ t j = false
    · exact h.allL j hj hL
    · obtain ⟨x, hx, hxc, _⟩ := h.allS hc (s.length - 1 - j) j (by omega) (by simpa using hL)
      exact ⟨x, hx, hxc⟩
  obtain ⟨hval, hinj⟩ := pigeon_perm (cell SA) s.length hmem
  have hval' : ∀ x, x < s.length → ∃ j : Nat, j < s.length ∧ cell SA x = j ∧
      bHead s (sym s j) ≤ x ∧ x < bEnd s (sym s j) := by
    intro x hx
    rcases h.cls x hx with hneg | ⟨j, hj, hcell, hcase⟩
    · obtain ⟨j, _, hj⟩ := hval x hx; omega
    · refine ⟨j, hj, hcell, ?_⟩
      have := bMid_le_bEnd s t (sym s j)
      have := bHead_le_bMid s t (sym s j)
      rcases hcase with ⟨_, ha, hb⟩ | ⟨_, ha, hb, _⟩ <;> omega
  refine ⟨h.lenSA, hmem, hval', hinj, ?_, ?_⟩
  · intro x y j hx hy hxc hyc hL
    have hj1 : j + 1 < s.length := by
      obtain ⟨j', hj', hcell⟩ := hval y hy; omega
    by_cases hL' : typ t (j + 1) = false
    · exact h.ordL x y j hx hy hxc hyc hL hL'
    · have ht := typeL hc hL hj1
      have hlt : sym s (j + 1) < sym s j := by
        rcases lt_or_eq_of_le ht.1 with h1 | h1
        · exact h1
        · exact absurd (ht.2 h1) hL'
      have := bEnd_le_bHead s _ _ hlt
      obtain ⟨j1, _, hc1, ha1, _⟩ := hval' x hx
      obtain ⟨j2, _, hc2, _, hb2⟩ := hval' y hy
      rw [show j1 = j by omega] at ha1
      rw [show j2 = j + 1 by omega] at hb2
      omega
  · intro x y j hx hy hxc hyc hS
    have hj : j < s.length := by
      obtain ⟨j', hj', hcell⟩ := hval x hx; omega
    obtain ⟨x', hx', hxc', hxb⟩ := h.allS hc (s.length - 1 - j) j (by omega) hS
    have hxx : x' = x := hinj x' x hx' hx (by rw [hxc', hxc])
    subst hxx
    obtain ⟨y', _, hy2, hy3, hy4, _⟩ := h.pred x' j hx hxc hS hxb
    have := hinj y' y hy3 hy (by rw [hy4, hyc])
    omega

end SScan2

/-- Function `induce_sa` turns a seeded array into one that holds every
position, each in the bucket of its symbol. -/
theorem induce_sa_spec {s : List Int} {t : List Bool} {n k : Nat} {SA : List Int}
    (hv : ValidInput s n k) (hn : 0 < n) (hc : Classified s t) (hs : Seeded s t SA) :
    ∃ SA', induce_sa t SA s n k = some SA' ∧ Induced s t SA' := by
  obtain rfl : s.length = n := hv.1
  obtain ⟨bh, hbh, hbhl, hbhv⟩ := get_buckets_spec hv false
  obtain ⟨bt, hbt, hbtl, hbtv⟩ := get_buckets_spec hv true
  obtain ⟨st0, hst0, hinv0⟩ := LInv.initL hv hc hn hs hbhl
    (fun c h0 hk => by simpa [bp] using hbhv c h0 hk)
  obtain ⟨st1, hst1, hinv1⟩ := loopUp_inv (scanL t s) (fun i st => LInv s t k i st.1 st.2)
    s.length 0 st0 hinv0 (fun i st _ hi h => scanL_spec hv hc (by omega) st h)
  rw [Nat.zero_add] at hinv1
  have hinvS := SInv.initS (B := bt) hinv1 hv hc hbtl
    (fun c h0 hk => by simpa [bp] using hbtv c h0 hk)
  obtain ⟨st2, hst2, hinv2⟩ := loopDown_inv (scanS t s) (fun i st => SInv s t k i st.1 st.2)
    0 s.length (st1.1, bt) (by simpa using hinvS)
    (fun i st _ hi h => scanS_spec hv hc (by omega) st h)
  refine ⟨st2.1, ?_, hinv2.induced hc⟩
  simp [induce_sa, hbh, hst0, hst1, hbt, hst2]

/-! ## Stage 1: the first induced sort -/

theorem clear_spec (SA : List Int) (lo cnt : Nat) (h : lo + cnt ≤ SA.length) :
    ∃ SA', clear SA lo cnt = some SA' ∧ SA'.length = SA.length ∧
      ∀ x, cell SA' x = if lo ≤ x ∧ x < lo + cnt then -1 else cell SA x := by
  have := loopUp_inv (fun i sa => wr sa i (-1))
    (fun i sa => sa.length = SA.length ∧
      ∀ x, cell sa x = if lo ≤ x ∧ x < i then -1 else cell SA x)
    cnt lo SA ⟨rfl, fun x => by rw [if_neg (by omega)]⟩
    (by
      intro i sa h1 h2 ⟨hl, hc⟩
      refine ⟨sa.set i (-1), wr_nat sa i (-1) (by omega), by simpa using hl, ?_⟩
      intro x
      rw [cell_set, hc x]
      by_cases hix : i = x
      · rw [if_pos ⟨hix, by omega⟩, if_pos (by omega)]
      · rw [if_neg (fun hh => hix hh.1)]
        by_cases hx : lo ≤ x ∧ x < i
        · rw [if_pos hx, if_pos (by omega)]
        · rw [if_neg hx, if_neg (by omega)])
  exact this

section Seed
variable {s : List Int} {t : List Bool} {k : Nat}

theorem SeedInv.filledSeed {i : Nat} {SA B : List Int} (h : SeedInv s t k i SA B)
    (hv : ValidInput s s.length k) {c : Int}
    (h0 : 0 ≤ c) (hk : c < k) {x : Nat} (hx1 : bp B c < x) (hx2 : x < bEnd s c) :
    ∃ j : Nat, j < i ∧ j < s.length ∧ cell SA x = j ∧ LMS t j ∧ sym s j = c := by
  have hb := h.bnd c h0 hk
  have h1 := bHead_le_bMid s t c
  have h2 := bEnd_le s c
  rcases h.cls x (by omega) with hneg | ⟨j, hji, hj, hcell, hM, ha, hb2⟩
  · exact absurd hneg (h.filled c h0 hk x hx1 hx2)
  · obtain ⟨hs0, hsk⟩ := sym_range hv j hj
    have hb' := h.bnd _ hs0 hsk
    have h3' := bHead_le_bMid s t (sym s j)
    have : sym s j = c := same_bucket s (x := x) (by omega) (by omega) (by omega) (by omega)
    exact ⟨j, hji, hj, hcell, hM, this⟩

/-- A slot at or below the pointer of its bucket is still empty. -/
theorem SeedInv.emptyAt {i : Nat} {SA B : List Int} (h : SeedInv s t k i SA B)
    (hv : ValidInput s s.length k) {c : Int} (h0 : 0 ≤ c) (hk : c < k) {x : Nat}
    (hx1 : bHead s c ≤ x) (hx2 : (x : Int) ≤ bp B c) : cell SA x = -1 := by
  have hb := h.bnd c h0 hk
  have h2 := bEnd_le s c
  rcases h.cls x (by omega) with hneg | ⟨j, hji, hj, hcell, hM, ha, hb2⟩
  · exact hneg
  · obtain ⟨hs0, hsk⟩ := sym_range hv j hj
    have hb' := h.bnd _ hs0 hsk
    have h3' := bHead_le_bMid s t (sym s j)
    have : sym s j = c := same_bucket s (x := x) (by omega) (by omega) (by omega) (by omega)
    subst this
    omega

theorem SeedInv.stepSeed {i : Nat} {SA B : List Int} (h : SeedInv s t k i SA B)
    (hv : ValidInput s s.length k) (hc : Classified s t) (hM : LMS t i) :
    0 ≤ bp B (sym s i) ∧ bp B (sym s i) < SA.length ∧
    SeedInv s t k (i + 1) (SA.set (bp B (sym s i)).toNat i)
      (B.set (sym s i).toNat (bp B (sym s i) + -1)) := by
  have hin := LMS_lt hc hM
  obtain ⟨hc0, hck⟩ := sym_range hv i (by omega)
  have hbnd := h.bnd _ hc0 hck
  have hme := bMid_le_bEnd s t (sym s i)
  have hhm := bHead_le_bMid s t (sym s i)
  have hen := bEnd_le s (sym s i)
  have hroom : (bMid s t (sym s i) : Int) ≤ bp B (sym s i) := by
    have := pigeon_slots (cell SA) s.length (bp B (sym s i) + 1) (bEnd s (sym s i))
      (fun j' => sym s j' = sym s i ∧ typ t j' = true) i (by omega) ⟨rfl, hM.2.1⟩ (by omega)
      (fun x hx1 hx2 => by
        obtain ⟨j', hj'i, hj', hx, hM', hs'⟩ := h.filledSeed hv hc0 hck (x := x) (by omega) (by omega)
        exact ⟨j', hj', hx, ⟨hs', hM'.2.1⟩, by omega⟩)
      (fun x y hx1 hx2 hy1 hy2 hxy => by
        exact h.inj x y (by omega) (by omega) hxy (h.filled _ hc0 hck x (by omega) (by omega)))
    have hadd := bMid_add s t (sym s i)
    omega
  have hlen := h.lenSA
  obtain ⟨p, hp⟩ : ∃ p : Nat, bp B (sym s i) = p := ⟨(bp B (sym s i)).toNat, by omega⟩
  have hpn : p < s.length := by omega
  have hpe : cell SA p = -1 := h.emptyAt hv hc0 hck (by omega) (by omega)
  refine ⟨by omega, by omega, ?_⟩
  rw [hp, Int.toNat_natCast]
  have hcellS : ∀ x, cell (SA.set p i) x = if p = x then (i : Int) else cell SA x := by
    intro x
    rw [cell_set]
    by_cases hpx : p = x
    · rw [if_pos ⟨hpx, by omega⟩, if_pos hpx]
    · rw [if_neg (fun hh => hpx hh.1), if_neg hpx]
  have hbpS : ∀ c' : Int, 0 ≤ c' →
      bp (B.set (sym s i).toNat ((p : Int) + -1)) c' =
        if sym s i = c' then (p : Int) + -1 else bp B c' := fun c' h0' =>
    bp_set B _ c' _ hc0 (by rw [h.lenB]; exact hck) h0'
  have hbpmono : ∀ c' : Int, 0 ≤ c' → bp (B.set (sym s i).toNat ((p : Int) + -1)) c' ≤ bp B c' := by
    intro c' h0'
    rw [hbpS c' h0']
    by_cases hcc : sym s i = c'
    · rw [if_pos hcc, ← hcc]; omega
    · rw [if_neg hcc]
  constructor
  · simpa using hlen
  · simpa using h.lenB
  · intro c' h0' hk'
    rw [hbpS c' h0']
    by_cases hcc : sym s i = c'
    · rw [if_pos hcc, ← hcc]; omega
    · rw [if_neg hcc]; exact h.bnd c' h0' hk'
  · intro x hx
    rw [hcellS]
    by_cases hpx : p = x
    · subst hpx
      right
      refine ⟨i, by omega, by omega, by rw [if_pos rfl], hM, ?_, by omega⟩
      rw [hbpS _ hc0, if_pos rfl]; omega
    · rw [if_neg hpx]
      rcases h.cls x hx with hneg | ⟨j', hj'i, hj', hcell', hM', ha, hb⟩
      · exact Or.inl hneg
      · have := hbpmono (sym s j') (sym_range hv j' hj').1
        exact Or.inr ⟨j', by omega, hj', hcell', hM', by omega, hb⟩
  · intro c' h0' hk' x hx1 hx2
    rw [hcellS]
    by_cases hpx : p = x
    · rw [if_pos hpx]; omega
    · rw [if_neg hpx]
      apply h.filled c' h0' hk' x _ hx2
      rw [hbpS c' h0'] at hx1
      by_cases hcc : sym s i = c'
      · rw [if_pos hcc] at hx1; rw [← hcc]; omega
      · rw [if_neg hcc] at hx1; exact hx1
  · intro x y hx hy hxy hne
    rw [hcellS] at hxy hne
    rw [hcellS] at hxy
    have hlt : ∀ z, z < s.length → cell SA z ≠ (i : Int) := by
      intro z hz hzc
      rcases h.cls z hz with hneg | ⟨j', hj'i, _, hcell', _⟩ <;> omega
    by_cases hpx : p = x
    · by_cases hpy : p = y
      · omega
      · rw [if_pos hpx, if_neg hpy] at hxy
        exact absurd hxy.symm (hlt y hy)
    · by_cases hpy : p = y
      · rw [if_neg hpx, if_pos hpy] at hxy
        exact absurd hxy (hlt x hx)
      · rw [if_neg hpx, if_neg hpy] at hxy
        rw [if_neg hpx] at hne
        exact h.inj x y hx hy hxy hne
  · intro q hq hMq
    by_cases hqi : q = i
    · subst hqi
      exact ⟨p, hpn, by rw [hcellS, if_pos rfl]⟩
    · obtain ⟨x, hx, hxc⟩ := h.lms q (by omega) hMq
      refine ⟨x, hx, ?_⟩
      rw [hcellS, if_neg (by intro hpx; subst hpx; omega)]; exact hxc

theorem seedStep_spec {i : Nat} (hv : ValidInput s s.length k) (hc : Classified s t)
    (hi : i < s.length) (st : List Int × List Int) (h : SeedInv s t k i st.1 st.2) :
    ∃ st', seedStep t s i st = some st' ∧ SeedInv s t k (i + 1) st'.1 st'.2 := by
  obtain ⟨SA, B⟩ := st
  simp only at h
  unfold seedStep
  rw [isLMS_nat i (by rw [hc.1]; exact hi), Option.some_bind]
  by_cases hM : LMS t i
  · simp only [hM, decide_True, if_true]
    obtain ⟨h0, h1, hinv⟩ := h.stepSeed hv hc hM
    rw [place_spec hv (-1) i hi SA B h.lenB h0 h1]
    exact ⟨_, rfl, hinv⟩
  · simp only [hM, decide_False, Bool.false_eq_true, if_false]
    refine ⟨_, rfl, { h with cls := ?_, lms := ?_ }⟩
    · intro x hx
      rcases h.cls x hx with hneg | ⟨j', hj'i, hj', hcell', hrest⟩
      · exact Or.inl hneg
      · exact Or.inr ⟨j', by omega, hj', hcell', hrest⟩
    · intro q hq hMq
      by_cases hqi : q = i
      · subst hqi; exact absurd hMq hM
      · exact h.lms q (by omega) hMq

/-- Lines 114-132: after the first induced sort `SA` holds every position once,
each in the bucket of its symbol. -/
theorem sort_lms_spec {n : Nat} (hv : ValidInput s n k) (hn : 0 < n) (hc : Classified s t) :
    ∃ SA, sort_lms t s n k = some SA ∧ Induced s t SA := by
  obtain rfl : s.length = n := hv.1
  obtain ⟨bt, hbt, hbtl, hbtv⟩ := get_buckets_spec hv true
  obtain ⟨SA0, hSA0, hlen0, hcell0⟩ := clear_spec (List.replicate s.length 0) 0 s.length
    (by simp)
  have hinit : SeedInv s t k 1 SA0 bt := by
    have hall : ∀ x, x < s.length → cell SA0 x = -1 := fun x hx => by
      rw [hcell0 x, if_pos (by omega)]
    constructor
    · simpa using hlen0
    · exact hbtl
    · intro c h0 hk
      have := hbtv c h0 hk
      simp only [if_true] at this
      have hme := bMid_le_bEnd s t c
      rw [show bp bt c = cell bt c.toNat from rfl, this]; omega
    · intro x hx; exact Or.inl (hall x hx)
    · intro c h0 hk x hx1 hx2
      have := hbtv c h0 hk
      simp only [if_true] at this
      rw [show bp bt c = cell bt c.toNat from rfl, this] at hx1; omega
    · intro x y hx _ _ hne; exact absurd (hall x hx) hne
    · intro p hp hM; have := hM.1; omega
  obtain ⟨st1, hst1, hinv1⟩ := loopUp_inv (seedStep t s)
    (fun i st => SeedInv s t k i st.1 st.2) (s.length - 1) 1 (SA0, bt) hinit
    (fun i st _ hi h => seedStep_spec hv hc (by omega) st h)
  rw [show 1 + (s.length - 1) = s.length by omega] at hinv1
  have hseed : Seeded s t st1.1 := by
    refine ⟨hinv1.lenSA, ?_, hinv1.inj, ?_⟩
    · intro x hx
      rcases hinv1.cls x hx with hneg | ⟨j', _, hj', hcell', hM, ha, hb⟩
      · exact Or.inl hneg
      · have := hinv1.bnd _ (sym_range hv j' hj').1 (sym_range hv j' hj').2
        exact Or.inr ⟨j', hj', hcell', hM, by omega, hb⟩
    · intro p hM
      exact hinv1.lms p (by have := LMS_lt hc hM; omega) hM
  obtain ⟨SA, hSA, hind⟩ := induce_sa_spec hv hn hc hseed
  exact ⟨SA, by simp [sort_lms, hbt, hSA0, hst1, hSA], hind⟩

end Seed

/-! ## Counting LMS positions -/

section Rank
variable {s : List Int} {t : List Bool}

theorem lmsRank_succ (t : List Bool) (m : Nat) :
    lmsRank t (m + 1) = lmsRank t m + if LMS t m then 1 else 0 := countPos_succ m _

theorem lmsRank_zero (t : List Bool) : lmsRank t 0 = 0 := countPos_zero _

theorem lmsRank_one (t : List Bool) : lmsRank t 1 = 0 := by
  rw [lmsRank_succ, lmsRank_zero, if_neg (fun h => by have := h.1; omega)]

theorem lmsRank_mono (t : List Bool) : ∀ (d a : Nat), lmsRank t a ≤ lmsRank t (a + d)
  | 0, a => Nat.le_refl _
  | d + 1, a => by
    have := lmsRank_mono t d a
    rw [show a + (d + 1) = a + d + 1 by omega, lmsRank_succ]
    omega

theorem lmsRank_le (t : List Bool) {a b : Nat} (h : a ≤ b) : lmsRank t a ≤ lmsRank t b := by
  have := lmsRank_mono t (b - a) a
  rwa [show a + (b - a) = b by omega] at this

theorem LMS_not_adjacent {m : Nat} (h : LMS t (m + 1)) : ¬ LMS t m := by
  intro h'
  have h1 := h.2.2
  simp only [Nat.add_sub_cancel] at h1
  rw [h'.2.1] at h1; cases h1

/-- LMS positions are at least two apart, so a range of `d` positions holds at
most `(d+1)/2` of them. -/
theorem lmsRank_gap (t : List Bool) (a : Nat) : ∀ d : Nat,
    2 * lmsRank t (a + d) ≤ 2 * lmsRank t a + d + 1 ∧
    ((d = 0 ∨ ¬ LMS t (a + d - 1)) → 2 * lmsRank t (a + d) ≤ 2 * lmsRank t a + d)
  | 0 => by simp
  | d + 1 => by
    obtain ⟨h1, h2⟩ := lmsRank_gap t a d
    rw [show a + (d + 1) = a + d + 1 by omega, lmsRank_succ]
    simp only [Nat.add_sub_cancel]
    by_cases hM : LMS t (a + d)
    · rw [if_pos hM]
      have h3 : 2 * lmsRank t (a + d) ≤ 2 * lmsRank t a + d := by
        apply h2
        by_cases hd : d = 0
        · exact Or.inl hd
        · right
          obtain ⟨e, he⟩ : ∃ e, a + d = e + 1 := ⟨a + d - 1, by omega⟩
          rw [he] at hM ⊢
          exact LMS_not_adjacent hM
      exact ⟨by omega, fun h => by rcases h with h | h; omega; exact absurd hM h⟩
    · rw [if_neg hM]
      exact ⟨by omega, fun _ => by omega⟩

theorem lmsRank_last (hc : Classified s t) (hn : 0 < s.length) :
    lmsRank t s.length = lmsRank t (s.length - 1) := by
  obtain ⟨m, hm⟩ : ∃ m, s.length = m + 1 := ⟨s.length - 1, by omega⟩
  rw [hm, lmsRank_succ, Nat.add_sub_cancel, if_neg]
  · rfl
  · intro h
    have := LMS_lt hc h
    omega

/-- Lemma 2.1 of the paper: fewer than half of the positions are LMS positions. -/
theorem lmsRank_half (hc : Classified s t) (hn : 0 < s.length) :
    2 * lmsRank t s.length < s.length := by
  rw [lmsRank_last hc hn]
  by_cases h1 : s.length = 1
  · rw [h1]; simp [lmsRank_zero]
  · have := (lmsRank_gap t 1 (s.length - 2)).1
    rw [show 1 + (s.length - 2) = s.length - 1 by omega, lmsRank_one] at this
    omega

/-- The slot `n1 + p/2` that receives the name of the LMS position `p` is inside the array. -/
theorem lmsRank_slot (hc : Classified s t) {p : Nat} (hM : LMS t p) :
    lmsRank t s.length + p / 2 < s.length := by
  have hp := LMS_lt hc hM
  rw [lmsRank_last hc (by omega)]
  have h1 := (lmsRank_gap t 1 p).1
  rw [lmsRank_one, show 1 + p = p + 1 by omega] at h1
  have h2 := (lmsRank_gap t (p + 1) (s.length - 1 - (p + 1))).1
  rw [show p + 1 + (s.length - 1 - (p + 1)) = s.length - 1 by omega] at h2
  omega

theorem lmsRank_lt (hc : Classified s t) {p : Nat} (hM : LMS t p) :
    lmsRank t p < lmsRank t s.length := by
  have := LMS_lt hc hM
  have h1 := lmsRank_succ t p
  rw [if_pos hM] at h1
  have h2 := lmsRank_le t (show p + 1 ≤ s.length by omega)
  omega

theorem lmsRank_inj {p q : Nat} (hp : LMS t p) (hq : LMS t q)
    (h : lmsRank t p = lmsRank t q) : p = q := by
  by_contra hne
  rcases Nat.lt_or_gt_of_ne hne with h1 | h1
  · have h2 := lmsRank_succ t p
    rw [if_pos hp] at h2
    have h3 := lmsRank_le t (show p + 1 ≤ q by omega)
    omega
  · have h2 := lmsRank_succ t q
    rw [if_pos hq] at h2
    have h3 := lmsRank_le t (show q + 1 ≤ p by omega)
    omega

theorem lmsRank_surj (t : List Bool) : ∀ (n m : Nat), m < lmsRank t n →
    ∃ p, p < n ∧ LMS t p ∧ lmsRank t p = m
  | 0, m, h => by rw [lmsRank_zero] at h; omega
  | n + 1, m, h => by
    rw [lmsRank_succ] at h
    by_cases hm : m < lmsRank t n
    · obtain ⟨p, hp, hM, hr⟩ := lmsRank_surj t n m hm
      exact ⟨p, by omega, hM, hr⟩
    · by_cases hM : LMS t n
      · rw [if_pos hM] at h
        exact ⟨n, by omega, hM, by omega⟩
      · rw [if_neg hM] at h; omega

theorem LMS_half_inj {p q : Nat} (hp : LMS t p) (hq : LMS t q) (h : p / 2 = q / 2) : p = q := by
  by_contra hne
  rcases Nat.lt_or_gt_of_ne hne with h1 | h1
  · have : q = p + 1 := by omega
    subst this
    exact LMS_not_adjacent hq hp
  · have : p = q + 1 := by omega
    subst this
    exact LMS_not_adjacent hp hq

/-- Slots `[0, m)` holding distinct positions with property `Q`: there are at
least `m` positions with `Q`. -/
theorem pigeon_inj (f : Nat → Int) (n m : Nat) (Q : Nat → Prop) [DecidablePred Q]
    (hval : ∀ x, x < m → ∃ j : Nat, j < n ∧ f x = j ∧ Q j)
    (hinj : ∀ x y, x < m → y < m → f x = f y → x = y) : m ≤ countPos n Q := by
  have hcard : (Finset.range m).card ≤ ((Finset.range n).filter Q).card := by
    apply Finset.card_le_card_of_injOn (fun x => (f x).toNat)
    · intro x hx
      obtain ⟨j, hj, hfx, hQ⟩ := hval x (Finset.mem_range.mp hx)
      simp [hfx, hj, hQ]
    · intro x hx y hy hxy
      have hx' := Finset.mem_range.mp (by simpa using hx)
      have hy' := Finset.mem_range.mp (by simpa using hy)
      obtain ⟨j, hj, hfx, hQ⟩ := hval x hx'
      obtain ⟨j', hj', hfy, hQ'⟩ := hval y hy'
      apply hinj x y hx' hy'
      simp only [hfx, hfy, Int.toNat_natCast] at hxy
      rw [hfx, hfy, hxy]
  rw [Finset.card_range] at hcard
  exact hcard

/-- The number of slots of an LMS front is the number of LMS positions. -/
theorem LmsFront.n1_eq {SA : List Int} {n1 : Nat} (h : LmsFront s t SA n1)
    (hc : Classified s t) : n1 = lmsRank t s.length := by
  apply Nat.le_antisymm
  · exact pigeon_inj (cell SA) s.length n1 (fun j => LMS t j)
      (fun x hx => by
        obtain ⟨p, hp, hM⟩ := h.val x hx
        exact ⟨p, by have := LMS_lt hc hM; omega, hp, hM⟩)
      h.inj
  · have := pigeon_positions (cell SA) s.length 0 n1 (fun j => LMS t j) (Int.le_refl _)
      (by omega) (fun j _ hM => by
        obtain ⟨x, hx, hxc⟩ := h.mem j hM
        exact ⟨x, by omega, by omega, hxc⟩)
    unfold lmsRank
    omega

end Rank

/-! ## Extraction of the sorted LMS positions -/

section Extract
variable {s : List Int} {t : List Bool}

/-- An induced array is sorted by first symbol. -/
theorem Induced.sorted_sym {SA : List Int} (h : Induced s t SA) {x y p q : Nat} (hxy : x < y)
    (hy : y < s.length) (hp : cell SA x = p) (hq : cell SA y = q) : sym s p ≤ sym s q := by
  obtain ⟨j1, _, hc1, ha1, _⟩ := h.val x (by omega)
  obtain ⟨j2, _, hc2, _, hb2⟩ := h.val y hy
  rw [show j1 = p by omega] at ha1
  rw [show j2 = q by omega] at hb2
  by_contra hcon
  have := bEnd_le_bHead s (sym s q) (sym s p) (by omega)
  omega

theorem extractStep_spec {SA0 : List Int} (hInd : Induced s t SA0) (hc : Classified s t)
    {i : Nat} (hi : i < s.length) (st : List Int × Nat) (h : ExtInv s t SA0 i st.1 st.2) :
    ∃ st', extractStep t i st = some st' ∧ ExtInv s t SA0 (i + 1) st'.1 st'.2 := by
  obtain ⟨SA, n1⟩ := st
  simp only at h
  have hle := h.le
  obtain ⟨j, hj, hcj, _⟩ := hInd.val i hi
  have hci : cell SA i = j := by rw [h.tail i (Nat.le_refl _) hi, hcj]
  unfold extractStep
  simp only
  rw [rd_cell SA i (by rw [h.lenSA]; exact hi), Option.some_bind, hci,
    isLMS_nat j (by rw [hc.1]; exact hj), Option.some_bind]
  by_cases hM : LMS t j
  · simp only [hM, decide_True, if_true]
    rw [wr_nat SA n1 j (by rw [h.lenSA]; omega), Option.some_bind]
    refine ⟨_, rfl, ?_⟩
    simp only
    have hcellS : ∀ x, cell (SA.set n1 j) x = if n1 = x then (j : Int) else cell SA x := by
      intro x
      rw [cell_set]
      by_cases hpx : n1 = x
      · rw [if_pos ⟨hpx, by rw [h.lenSA]; omega⟩, if_pos hpx]
      · rw [if_neg (fun hh => hpx hh.1), if_neg hpx]
    have hnew : ∀ x, x < n1 → cell SA x ≠ (j : Int) := by
      intro x hx hxc
      obtain ⟨y, hy, hyc, _⟩ := h.val x hx
      have := hInd.inj y i (by omega) hi (by rw [← hyc, hxc, hcj])
      omega
    constructor
    · simpa using h.lenSA
    · omega
    · intro x hx hxn
      rw [hcellS, if_neg (by omega)]
      exact h.tail x (by omega) hxn
    · intro x hx
      rw [hcellS]
      by_cases hpx : n1 = x
      · rw [if_pos hpx]
        exact ⟨i, by omega, hcj.symm, j, hcj, hM⟩
      · rw [if_neg hpx]
        obtain ⟨y, hy, hyc, hp⟩ := h.val x (by omega)
        exact ⟨y, by omega, hyc, hp⟩
    · intro y p hy hyc hMp
      by_cases hyi : y = i
      · subst hyi
        exact ⟨n1, by omega, by rw [hcellS, if_pos rfl, ← hyc, hcj]⟩
      · obtain ⟨x, hx, hxc⟩ := h.mem y p (by omega) hyc hMp
        exact ⟨x, by omega, by rw [hcellS, if_neg (by omega)]; exact hxc⟩
    · intro x y hx hy hxy
      rw [hcellS, hcellS] at hxy
      by_cases hpx : n1 = x
      · by_cases hpy : n1 = y
        · omega
        · rw [if_pos hpx, if_neg hpy] at hxy
          exact absurd hxy.symm (hnew y (by omega))
      · by_cases hpy : n1 = y
        · rw [if_neg hpx, if_pos hpy] at hxy
          exact absurd hxy (hnew x (by omega))
        · rw [if_neg hpx, if_neg hpy] at hxy
          exact h.inj x y (by omega) (by omega) hxy
    · intro x y p q hxy hy hxc hyc
      rw [hcellS, if_neg (by omega)] at hxc
      rw [hcellS] at hyc
      by_cases hpy : n1 = y
      · rw [if_pos hpy] at hyc
        obtain ⟨y', hy', hyc', _⟩ := h.val x (by omega)
        rw [show q = j by omega]
        exact hInd.sorted_sym (x := y') (y := i) (by omega) hi (by rw [← hyc', hxc]) hcj
      · rw [if_neg hpy] at hyc
        exact h.sorted x y p q hxy (by omega) hxc hyc
  · simp only [hM, decide_False, Bool.false_eq_true, if_false]
    refine ⟨_, rfl, ?_⟩
    simp only
    constructor
    · exact h.lenSA
    · omega
    · intro x hx hxn; exact h.tail x (by omega) hxn
    · intro x hx
      obtain ⟨y, hy, hyc, hp⟩ := h.val x hx
      exact ⟨y, by omega, hyc, hp⟩
    · intro y p hy hyc hMp
      by_cases hyi : y = i
      · subst hyi
        rw [show p = j by omega] at hMp
        exact absurd hMp hM
      · exact h.mem y p (by omega) hyc hMp
    · exact h.inj
    · exact h.sorted

/-- Lines 134-142: the front of `SA` lists the LMS positions. -/
theorem extract_lms_spec {SA0 : List Int} (hInd : Induced s t SA0) (hc : Classified s t) :
    ∃ SA n1, extract_lms t SA0 s.length = some (SA, n1) ∧ LmsFront s t SA n1 := by
  obtain ⟨st, hst, hinv⟩ := loopUp_inv (extractStep t)
    (fun i st => ExtInv s t SA0 i st.1 st.2) s.length 0 (SA0, 0)
    ⟨hInd.lenSA, Nat.le_refl _, fun _ _ _ => rfl, fun x hx => by omega,
      fun y p hy => by omega, fun x y hx => by omega, fun x y p q _ hy => by omega⟩
    (fun i st _ hi h => extractStep_spec hInd hc (by omega) st h)
  rw [Nat.zero_add] at hinv
  have hle := hinv.le
  obtain ⟨SA, hSA, hlen, hcell⟩ := clear_spec st.1 st.2 (s.length - st.2)
    (by rw [hinv.lenSA]; omega)
  refine ⟨SA, st.2, by simp [extract_lms, hst, hSA], ?_⟩
  have hfront : ∀ x, x < st.2 → cell SA x = cell st.1 x := fun x hx => by
    rw [hcell x, if_neg (by omega)]
  constructor
  · rw [hlen, hinv.lenSA]
  · intro x hx
    obtain ⟨y, _, hyc, p, hp, hM⟩ := hinv.val x hx
    exact ⟨p, by rw [hfront x hx, hyc, hp], hM⟩
  · intro p hM
    obtain ⟨y, hy, hyc⟩ := hInd.mem p (by have := LMS_lt hc hM; omega)
    obtain ⟨x, hx, hxc⟩ := hinv.mem y p hy hyc hM
    exact ⟨x, hx, by rw [hfront x hx, hxc]⟩
  · intro x y hx hy hxy
    rw [hfront x hx, hfront y hy] at hxy
    exact hinv.inj x y hx hy hxy
  · intro x y p q hxy hy hxc hyc
    rw [hfront x (by omega)] at hxc
    rw [hfront y hy] at hyc
    exact hinv.sorted x y p q hxy hy hxc hyc
  · intro x hx hxn
    rw [hcell x, if_pos (by omega)]

end Extract

/-! ## Naming the LMS substrings -/

section Naming
variable {s : List Int} {t : List Bool}

theorem lmsDiff_step_total (hc : Classified s t) (p : Nat) (prev : Int)
    (hprev : prev = -1 ∨ 0 ≤ prev) (cnt j : Nat) (h1 : p + j ≤ s.length)
    (h2 : prev + j ≤ s.length)
    (ih : ∃ b, lmsDiff t s s.length p prev cnt (j + 1) = some b) :
    ∃ b, lmsDiff t s s.length p prev (cnt + 1) j = some b := by
  unfold lmsDiff
  by_cases hex : prev = -1 ∨ (p : Int) + j = s.length ∨ prev + j = s.length
  · rw [if_pos hex]; exact ⟨true, rfl⟩
  · rw [if_neg hex]
    have hp0 : 0 ≤ prev := by rcases hprev with h | h <;> omega
    have hl := hc.1
    have e1 : 0 ≤ (p : Int) + j := by omega
    have e2 : (p : Int) + j < s.length := by omega
    have e3 : 0 ≤ prev + j := by omega
    have e4 : prev + j < s.length := by omega
    have e5 : (p : Int) + j < t.length := by omega
    have e6 : prev + j < t.length := by omega
    rw [chr_int (s := s) _ e1 e2, chr_int (s := s) _ e3 e4, Option.some_bind, Option.some_bind]
    by_cases ha : sym s ((p : Int) + j).toNat ≠ sym s (prev + j).toNat
    · rw [if_pos ha]; exact ⟨true, rfl⟩
    · rw [if_neg ha, tget_typ_int t _ e1 e5, tget_typ_int t _ e3 e6, Option.some_bind,
        Option.some_bind]
      by_cases hb : typ t ((p : Int) + j).toNat ≠ typ t (prev + j).toNat
      · rw [if_pos hb]; exact ⟨true, rfl⟩
      · rw [if_neg hb]
        by_cases hj : 0 < j
        · rw [if_pos hj, isLMS_int (t := t) _ e5, isLMS_int (t := t) _ e6, Option.some_bind]
          by_cases hl1 : decide (0 < (p : Int) + j ∧ LMS t ((p : Int) + j).toNat) = true
          · rw [if_pos hl1]; exact ⟨false, rfl⟩
          · rw [if_neg hl1, Option.some_bind]
            by_cases hl2 : decide (0 < prev + j ∧ LMS t (prev + j).toNat) = true
            · rw [if_pos hl2]; exact ⟨false, rfl⟩
            · rw [if_neg hl2]
              by_cases hl3 : (p : Int) + j = (s.length : Int) - 1 ∨
                  prev + j = (s.length : Int) - 1
              · rw [if_pos hl3]; exact ⟨false, rfl⟩
              · rw [if_neg hl3]; exact ih
        · rw [if_neg hj]; exact ih

/-- The comparison loop stays inside the arrays and returns. -/
theorem lmsDiff_total (hc : Classified s t) (p : Nat) (prev : Int)
    (hprev : prev = -1 ∨ 0 ≤ prev) (cnt : Nat) :
    ∀ j : Nat, p + j ≤ s.length → prev + j ≤ s.length →
      ∃ b, lmsDiff t s s.length p prev cnt j = some b := by
  induction cnt with
  | zero => exact fun _ _ _ => ⟨false, rfl⟩
  | succ cnt ih =>
    intro j h1 h2
    by_cases hex : prev = -1 ∨ (p : Int) + j = s.length ∨ prev + j = s.length
    · exact ⟨true, by unfold lmsDiff; rw [if_pos hex]⟩
    · exact lmsDiff_step_total hc p prev hprev cnt j h1 h2
        (ih (j + 1) (by omega) (by omega))

/-- Two LMS positions that are not told apart start with the same symbol. -/
theorem lmsDiff_false (p : Nat) (prev : Int) (hp : p < s.length) (cnt : Nat)
    (h : lmsDiff t s s.length p prev (cnt + 1) 0 = some false) :
    0 ≤ prev ∧ prev < s.length ∧ sym s p = sym s prev.toNat := by
  unfold lmsDiff at h
  by_cases hex : prev = -1 ∨ (p : Int) + (0 : Nat) = s.length ∨ prev + (0 : Nat) = s.length
  · rw [if_pos hex] at h; cases h
  · rw [if_neg hex] at h
    have e1 : 0 ≤ (p : Int) + (0 : Nat) := by omega
    have e2 : (p : Int) + (0 : Nat) < s.length := by omega
    rw [chr_int (s := s) _ e1 e2, Option.some_bind] at h
    by_cases hp0 : 0 ≤ prev ∧ prev < s.length
    · have e3 : 0 ≤ prev + (0 : Nat) := by omega
      have e4 : prev + (0 : Nat) < s.length := by omega
      rw [chr_int (s := s) _ e3 e4, Option.some_bind] at h
      have e5 : ((p : Int) + (0 : Nat)).toNat = p := by omega
      have e6 : (prev + (0 : Nat)).toNat = prev.toNat := by omega
      rw [e5, e6] at h
      by_cases ha : sym s p ≠ sym s prev.toNat
      · rw [if_pos ha] at h; cases h
      · exact ⟨hp0.1, hp0.2, not_not.mp ha⟩
    · exfalso
      have hnone : chr s (prev + (0 : Nat)) = none := by
        unfold chr rd
        split_ifs with h0
        · exact List.getElem?_eq_none (by omega)
        · rfl
      rw [hnone] at h
      cases h

end Naming

section Naming2
variable {s : List Int} {t : List Bool}

theorem lmsDiff_first (p : Nat) (cnt j : Nat) :
    lmsDiff t s s.length p (-1) (cnt + 1) j = some true := by
  unfold lmsDiff
  rw [if_pos (Or.inl rfl)]

theorem nameStep_spec {SA0 : List Int} {n1 : Nat} (hF : LmsFront s t SA0 n1)
    (hc : Classified s t) {i : Nat} (hi : i < n1) (st : List Int × Int × Int)
    (h : NameInv s t SA0 n1 i st.1 st.2.1 st.2.2) :
    ∃ st', nameStep t s s.length n1 i st = some st' ∧
      NameInv s t SA0 n1 (i + 1) st'.1 st'.2.1 st'.2.2 := by
  obtain ⟨SA, name, prev⟩ := st
  simp only at h
  have hn1 := hF.n1_eq hc
  obtain ⟨p, hp, hM⟩ := hF.val i hi
  have hpn := LMS_lt hc hM
  have hn1n : n1 ≤ s.length := by
    have := lmsRank_half hc (by omega); omega
  have hci : cell SA i = p := by rw [h.front i hi, hp]
  have hprev : prev = -1 ∨ (0 ≤ prev ∧ prev < s.length) := by
    by_cases hi0 : i = 0
    · exact Or.inl (h.start hi0)
    · obtain ⟨x0, hx0, hpx, _⟩ := h.prevOK (by omega)
      obtain ⟨q, hq, hMq⟩ := hF.val x0 (by omega)
      have := LMS_lt hc hMq
      right; omega
  obtain ⟨diff, hdiff⟩ := lmsDiff_total hc p prev (by omega) s.length 0 (by omega)
    (by rcases hprev with h1 | h1 <;> omega)
  have hslot := hn1 ▸ lmsRank_slot hc hM
  have hidx : (n1 : Int) + Int.tdiv (p : Int) 2 = ((n1 + p / 2 : Nat) : Int) := by
    rw [Int.tdiv_eq_ediv (by omega) (by omega)]; omega
  unfold nameStep
  simp only
  rw [rd_cell SA i (by rw [h.lenSA]; omega), Option.some_bind, hci, hdiff, Option.some_bind,
    hidx, wr_nat SA _ _ (by rw [h.lenSA]; exact hslot), Option.some_bind]
  refine ⟨_, rfl, ?_⟩
  simp only
  generalize hw : (if diff = true then name + 1 else name) = name'
  have hname' : name' = if diff = true then name + 1 else name := hw.symm
  -- slots of the names
  have hpi : (cell SA0 i).toNat = p := by rw [hp]; omega
  have hsl : ∀ x, x < n1 → x ≠ i → n1 + (cell SA0 x).toNat / 2 ≠ n1 + p / 2 := by
    intro x hx hxi hcon
    obtain ⟨q, hq, hMq⟩ := hF.val x hx
    have : (cell SA0 x).toNat = q := by rw [hq]; omega
    rw [this] at hcon
    have := LMS_half_inj hMq hM (by omega)
    subst this
    exact hxi (hF.inj x i hx hi (by rw [hq, hp]))
  have hcellS : ∀ z, cell (SA.set (n1 + p / 2) (name' - 1)) z =
      if n1 + p / 2 = z then name' - 1 else cell SA z := by
    intro z
    rw [cell_set]
    by_cases hpx : n1 + p / 2 = z
    · rw [if_pos ⟨hpx, by rw [h.lenSA]; omega⟩, if_pos hpx]
    · rw [if_neg (fun hh => hpx hh.1), if_neg hpx]
  have hold : ∀ x, x < i → cell (SA.set (n1 + p / 2) (name' - 1))
      (n1 + (cell SA0 x).toNat / 2) = cell SA (n1 + (cell SA0 x).toNat / 2) := by
    intro x hx
    rw [hcellS, if_neg (fun hh => hsl x (by omega) (by omega) hh.symm)]
  have hnew : cell (SA.set (n1 + p / 2) (name' - 1)) (n1 + (cell SA0 i).toNat / 2) =
      name' - 1 := by
    rw [hpi, hcellS, if_pos rfl]
  -- when the substring is not new, there is a previous one
  have hnodiff : diff = false → 0 < i ∧ 1 ≤ name ∧ ∃ x0, x0 < i ∧ prev = cell SA0 x0 ∧
      cell SA (n1 + (cell SA0 x0).toNat / 2) = name - 1 ∧ sym s p = sym s (cell SA0 x0).toNat := by
    intro hd
    subst hd
    have hi0 : 0 < i := by
      by_contra hcon
      have := h.start (by omega)
      subst this
      obtain ⟨m, hm⟩ : ∃ m, s.length = m + 1 := ⟨s.length - 1, by omega⟩
      rw [hm] at hdiff
      have := lmsDiff_first (s := s) (t := t) p m 0
      rw [hm] at this
      rw [this] at hdiff; cases hdiff
    obtain ⟨x0, hx0, hpx, hnm⟩ := h.prevOK hi0
    have := (h.named x0 hx0).1
    obtain ⟨m, hm⟩ : ∃ m, s.length = m + 1 := ⟨s.length - 1, by omega⟩
    have hf : lmsDiff t s s.length p prev (m + 1) 0 = some false := by
      rw [← hm]; exact hdiff
    obtain ⟨_, _, hsym⟩ := lmsDiff_false p prev (by omega) m hf
    exact ⟨hi0, by omega, x0, hx0, hpx, hnm, by rw [hsym, hpx]⟩
  have hnb := h.nameBnd
  constructor
  · simpa using h.lenSA
  · intro x hx
    rw [hcellS, if_neg (by omega)]
    exact h.front x hx
  · cases diff <;> simp at hname' <;> omega
  · intro h0; omega
  · intro _
    cases hd : diff
    · obtain ⟨hi0, _, x0, hx0, hpx, hnm, _⟩ := hnodiff hd
      subst hd
      simp only [Bool.false_eq_true, if_false] at hname' ⊢
      exact ⟨x0, by omega, hpx, by rw [hold x0 hx0, hnm, hname']⟩
    · subst hd
      simp only [if_true]
      exact ⟨i, by omega, hp.symm, hnew⟩
  · intro x hx
    by_cases hxi : x = i
    · subst hxi
      rw [hnew]
      cases hd : diff
      · obtain ⟨_, h1, _⟩ := hnodiff hd
        subst hd
        simp at hname'; omega
      · subst hd
        simp at hname'; omega
    · rw [hold x (by omega)]
      have := h.named x (by omega)
      cases diff <;> simp at hname' <;> omega
  · intro x y hx hy hle
    by_cases hxi : x = i
    · by_cases hyi : y = i
      · rw [hxi, hyi]
      · subst hxi
        rw [hnew, hold y (by omega)] at hle
        have hny := h.named y (by omega)
        cases hd : diff
        · obtain ⟨_, _, x0, hx0, _, hnm, hsym⟩ := hnodiff hd
          subst hd
          simp only [Bool.false_eq_true, if_false] at hname'
          rw [hpi, hsym]
          exact h.monoSym x0 y hx0 (by omega) (by rw [hnm]; omega)
        · subst hd
          simp only [if_true] at hname'
          omega
    · by_cases hyi : y = i
      · subst hyi
        obtain ⟨q, hq, _⟩ := hF.val x (by omega)
        have hqx : (cell SA0 x).toNat = q := by rw [hq]; omega
        rw [hqx, hpi]
        exact hF.sorted x y q p (by omega) hi hq hp
      · rw [hold x (by omega), hold y (by omega)] at hle
        exact h.monoSym x y (by omega) (by omega) hle
  · intro v hv0 hv
    by_cases hvn : v < name
    · obtain ⟨x, hx, hxv⟩ := h.surj v hv0 hvn
      exact ⟨x, by omega, by rw [hold x hx, hxv]⟩
    · refine ⟨i, by omega, ?_⟩
      rw [hnew]
      cases diff <;> simp at hname' <;> omega
  · intro z hz1 hz2 hne
    rw [hcellS, if_neg (by have := hne i (by omega); rw [hpi] at this; omega)]
    exact h.others z hz1 hz2 fun x hx => hne x (by omega)

/-- The naming loop. -/
theorem name_loop_spec {SA0 : List Int} {n1 : Nat} (hF : LmsFront s t SA0 n1)
    (hc : Classified s t) :
    ∃ st nm, loopUp (nameStep t s s.length n1) n1 0 (SA0, 0, -1) = some st ∧
      NamedSparse s t st.1 n1 st.2.1 nm := by
  obtain ⟨st, hst, hinv⟩ := loopUp_inv (nameStep t s s.length n1)
    (fun i st => NameInv s t SA0 n1 i st.1 st.2.1 st.2.2) n1 0 (SA0, 0, -1)
    ⟨hF.lenSA, fun _ _ => rfl, ⟨Int.le_refl _, by simp⟩, fun _ => rfl, fun h => by omega,
      fun x hx => by omega, fun x y hx => by omega,
      fun v h1 h2 => by have : v < 0 := h2; omega,
      fun z hz1 hz2 _ => hF.rest z hz1 hz2⟩
    (fun i st _ hi h => nameStep_spec hF hc (by omega) st h)
  rw [Nat.zero_add] at hinv
  refine ⟨st, fun p => cell st.1 (n1 + p / 2), hst, ?_⟩
  have hslot : ∀ p, LMS t p → ∃ x, x < n1 ∧ (cell SA0 x).toNat = p := by
    intro p hM
    obtain ⟨x, hx, hxc⟩ := hF.mem p hM
    exact ⟨x, hx, by rw [hxc]; omega⟩
  constructor
  · exact hinv.lenSA
  · exact hinv.nameBnd
  · intro p _; rfl
  · intro p hM
    obtain ⟨x, hx, hxp⟩ := hslot p hM
    have := hinv.named x hx
    rwa [hxp] at this
  · intro p q hMp hMq hle
    obtain ⟨x, hx, hxp⟩ := hslot p hMp
    obtain ⟨y, hy, hyq⟩ := hslot q hMq
    have := hinv.monoSym x y hx hy
    rw [hxp, hyq] at this
    exact this hle
  · intro v hv0 hv
    obtain ⟨x, hx, hxv⟩ := hinv.surj v hv0 hv
    obtain ⟨p, hp, hM⟩ := hF.val x hx
    have : (cell SA0 x).toNat = p := by rw [hp]; omega
    rw [this] at hxv
    exact ⟨p, hM, hxv⟩
  · intro z hz1 hz2 hne
    apply hinv.others z hz1 hz2
    intro x hx
    obtain ⟨p, hp, hM⟩ := hF.val x hx
    have : (cell SA0 x).toNat = p := by rw [hp]; omega
    rw [this]
    exact hne p hM

end Naming2

section Compact
variable {s : List Int} {t : List Bool}

theorem lmsRank_ge (hc : Classified s t) : ∀ d : Nat, lmsRank t (s.length + d) = lmsRank t s.length
  | 0 => rfl
  | d + 1 => by
    rw [show s.length + (d + 1) = s.length + d + 1 by omega, lmsRank_succ, lmsRank_ge hc d,
      if_neg]
    · rfl
    · intro h
      have := LMS_lt hc h
      omega

/-- There are fewer than `p/2` LMS positions before the LMS position `p`. -/
theorem lmsRank_before {p : Nat} (hM : LMS t p) : 2 * lmsRank t p + 1 ≤ p := by
  have h0 := hM.1
  have := (lmsRank_gap t 1 (p - 1)).2 (by
    by_cases hp : p - 1 = 0
    · exact Or.inl hp
    · right
      rw [show 1 + (p - 1) - 1 = p - 1 by omega]
      obtain ⟨e, he⟩ : ∃ e, p = e + 1 := ⟨p - 1, by omega⟩
      subst he
      simpa using LMS_not_adjacent hM)
  rw [show 1 + (p - 1) = p by omega, lmsRank_one] at this
  omega

theorem compactStep_spec {SA0 : List Int} {n1 : Nat} {name : Int} {nm : Nat → Int}
    (hN : NamedSparse s t SA0 n1 name nm) (hn1 : n1 = lmsRank t s.length)
    (hc : Classified s t) {i : Nat} (hi1 : n1 ≤ i) (hi2 : i < s.length)
    (st : List Int × Int) (h : CompInv s t SA0 n1 nm (i + 1) st.1 st.2) :
    ∃ st', compactStep i st = some st' ∧ CompInv s t SA0 n1 nm i st'.1 st'.2 := by
  obtain ⟨SA, j⟩ := st
  simp only at h
  have hci : cell SA i = cell SA0 i := h.low i (by omega)
  have hjv := h.jval
  rw [show 2 * (i + 1 - n1) = 2 * (i - n1) + 2 by omega] at hjv
  have hr1 := lmsRank_succ t (2 * (i - n1))
  have hr2 : lmsRank t (2 * (i - n1) + 2) = lmsRank t (2 * (i - n1) + 1) +
      if LMS t (2 * (i - n1) + 1) then 1 else 0 := lmsRank_succ t (2 * (i - n1) + 1)
  unfold compactStep
  simp only
  rw [rd_cell SA i (by rw [h.lenSA]; exact hi2), Option.some_bind]
  by_cases hex : ∃ p, LMS t p ∧ p / 2 = i - n1
  · obtain ⟨p, hM, hpq⟩ := hex
    have hv : cell SA i = nm p := by
      rw [hci, ← hN.slot p hM, show n1 + p / 2 = i by omega]
    have hv0 := (hN.rng p hM).1
    have hpn := LMS_lt hc hM
    have hrp := lmsRank_succ t p
    rw [if_pos hM] at hrp
    have hlt := lmsRank_lt hc hM
    have hbef := lmsRank_before hM
    have hgap := (lmsRank_gap t (p + 1) (s.length - 1 - (p + 1))).1
    rw [show p + 1 + (s.length - 1 - (p + 1)) = s.length - 1 by omega,
      ← lmsRank_last hc (by omega), ← hn1] at hgap
    -- the rank of `p` is the number of LMS positions below `2 * (i - n1)`
    have hrk : lmsRank t (2 * (i - n1) + 2) = lmsRank t p + 1 ∧
        lmsRank t (2 * (i - n1)) = lmsRank t p := by
      by_cases hpe : p = 2 * (i - n1)
      · subst hpe
        rw [if_pos hM] at hr1
        rw [if_neg (fun hh => LMS_not_adjacent hh hM)] at hr2
        omega
      · have hpo : p = 2 * (i - n1) + 1 := by omega
        subst hpo
        rw [if_pos hM] at hr2
        rw [if_neg (LMS_not_adjacent hM)] at hr1
        omega
    have hj : j = ((s.length - n1 + lmsRank t p : Nat) : Int) := by omega
    rw [if_pos (by rw [hv]; exact hv0), hj,
      wr_nat SA _ _ (by rw [h.lenSA]; omega), Option.some_bind]
    refine ⟨_, rfl, ?_⟩
    simp only
    have hcellS : ∀ z, cell (SA.set (s.length - n1 + lmsRank t p) (cell SA i)) z =
        if s.length - n1 + lmsRank t p = z then cell SA i else cell SA z := by
      intro z
      rw [cell_set]
      by_cases hpx : s.length - n1 + lmsRank t p = z
      · rw [if_pos ⟨hpx, by rw [h.lenSA]; omega⟩, if_pos hpx]
      · rw [if_neg (fun hh => hpx hh.1), if_neg hpx]
    constructor
    · simpa using h.lenSA
    · omega
    · intro x hx
      rw [hcellS, if_neg (by omega)]
      exact h.low x (by omega)
    · intro p' hM' hp'
      rw [hcellS]
      by_cases hpp : p' = p
      · subst hpp
        rw [if_pos rfl, hv]
      · have hne : lmsRank t p ≠ lmsRank t p' := fun hh => hpp (lmsRank_inj hM' hM hh.symm)
        rw [if_neg (by omega)]
        apply h.done p' hM'
        have : p' / 2 ≠ p / 2 := fun hh => hpp (LMS_half_inj hM' hM hh)
        omega
  · have hv : cell SA i = -1 := by
      rw [hci]
      apply hN.others i hi1 hi2
      intro p hM hcon
      exact hex ⟨p, hM, by omega⟩
    rw [if_neg (by rw [hv]; omega)]
    refine ⟨_, rfl, ?_⟩
    simp only
    have hn0 : ¬ LMS t (2 * (i - n1)) := fun hM => hex ⟨_, hM, by omega⟩
    have hn1' : ¬ LMS t (2 * (i - n1) + 1) := fun hM => hex ⟨_, hM, by omega⟩
    rw [if_neg hn0] at hr1
    rw [if_neg hn1'] at hr2
    constructor
    · exact h.lenSA
    · omega
    · intro x hx; exact h.low x (by omega)
    · intro p' hM' hp'
      apply h.done p' hM'
      have : p' / 2 ≠ i - n1 := fun hh => hex ⟨p', hM', hh⟩
      omega

/-- Lines 144-194: the names of the LMS substrings, compacted into `s1`. -/
theorem name_lms_spec {SA0 : List Int} {n1 : Nat} (hF : LmsFront s t SA0 n1)
    (hc : Classified s t) (hn : 0 < s.length) :
    ∃ SA name nm, name_lms t s SA0 s.length n1 = some (SA, name) ∧ Named s t SA n1 name nm := by
  have hn1 := hF.n1_eq hc
  have hhalf := lmsRank_half hc hn
  obtain ⟨st, nm, hst, hN⟩ := name_loop_spec hF hc
  obtain ⟨st2, hst2, hinv⟩ := loopDown_inv compactStep
    (fun i st2 => CompInv s t st.1 n1 nm i st2.1 st2.2) n1 (s.length - n1)
    (st.1, (s.length : Int) - 1)
    (by
      rw [show n1 + (s.length - n1) = s.length by omega]
      refine ⟨hN.lenSA, ?_, fun _ _ => rfl, ?_⟩
      · have := lmsRank_ge hc (2 * (s.length - n1) - s.length)
        rw [show s.length + (2 * (s.length - n1) - s.length) = 2 * (s.length - n1) by omega]
          at this
        simp only
        rw [this]; omega
      · intro p hM hp
        have := LMS_lt hc hM
        omega)
    (fun i st2 hi1 hi2 h => compactStep_spec hN hn1 hc hi1 (by omega) st2 h)
  refine ⟨st2.1, st.2.1, nm, by simp [name_lms, hst, hst2], ?_⟩
  exact ⟨hinv.lenSA, hN.nameLe, fun p hM => hinv.done p hM (by omega), hN.rng, hN.monoSym,
    hN.surj⟩

end Compact

/-! ## Stage 2 without recursion: the inverse permutation -/

section Inverse
variable {s : List Int} {t : List Bool}

/-- When every name is used and there are as many names as LMS positions, the
loop `SA[s1[i]] = i` writes the inverse of `s1` to the front of `SA`. -/
theorem inverse_spec {SA0 : List Int} {n1 : Nat} {name : Int} {nm : Nat → Int}
    (hN : Named s t SA0 n1 name nm) (hn1 : n1 = lmsRank t s.length) (hc : Classified s t)
    (hn : 0 < s.length) (hname : ¬ name < n1) :
    ∃ SA, loopUp (invStep s.length n1) n1 0 SA0 = some SA ∧ Reduced s t SA n1 := by
  have hhalf := lmsRank_half hc hn
  have hnn : name = n1 := by have := hN.nameLe.2; omega
  -- `f m` is the name of the `m`-th LMS position
  obtain ⟨f, hf⟩ : ∃ f : Nat → Int, ∀ m, f m = cell SA0 (s.length - n1 + m) := ⟨_, fun _ => rfl⟩
  have hfp : ∀ p, LMS t p → f (lmsRank t p) = nm p := fun p hM => by rw [hf, hN.slot p hM]
  have hrank : ∀ p, LMS t p → lmsRank t p < n1 := fun p hM => hn1 ▸ lmsRank_lt hc hM
  have hfsurj : ∀ j, j < n1 → ∃ m, m < n1 ∧ f m = (j : Int) := by
    intro j hj
    obtain ⟨p, hM, hp⟩ := hN.surj j (by omega) (by omega)
    exact ⟨lmsRank t p, hrank p hM, by rw [hfp p hM, hp]⟩
  obtain ⟨hfval, hfinj⟩ := pigeon_perm f n1 hfsurj
  obtain ⟨SA, hSA, hlen, hhigh, hinv⟩ := loopUp_inv (invStep s.length n1)
    (fun i SA => SA.length = s.length ∧ (∀ z, n1 ≤ z → cell SA z = cell SA0 z) ∧
      ∀ m, m < i → cell SA (f m).toNat = m)
    n1 0 SA0 ⟨hN.lenSA, fun _ _ => rfl, fun m hm => by omega⟩
    (by
      intro i SA _ hi ⟨hlen, hhigh, hinv⟩
      obtain ⟨v, hv, hfv⟩ := hfval i (by omega)
      have hidx : (s.length : Int) - n1 + i = ((s.length - n1 + i : Nat) : Int) := by omega
      have hrd : cell SA (s.length - n1 + i) = v := by
        rw [hhigh _ (by omega), ← hf, hfv]
      refine ⟨SA.set v i, ?_, by simpa using hlen, ?_, ?_⟩
      · unfold invStep
        rw [hidx, rd_cell SA _ (by rw [hlen]; omega), Option.some_bind, hrd,
          wr_nat SA v i (by rw [hlen]; omega)]
      · intro z hz
        rw [cell_set, if_neg (by omega)]
        exact hhigh z hz
      · intro m hm
        rw [cell_set]
        by_cases hmi : m = i
        · subst hmi
          rw [hfv, Int.toNat_natCast, if_pos ⟨rfl, by rw [hlen]; omega⟩]
        · obtain ⟨v', hv', hfv'⟩ := hfval m (by omega)
          have : v ≠ v' := by
            intro hvv
            exact hmi (hfinj m i (by omega) (by omega) (by rw [hfv, hfv', hvv]))
          rw [hfv', Int.toNat_natCast, if_neg (fun hh => this hh.1)]
          have := hinv m (by omega)
          rwa [hfv', Int.toNat_natCast] at this)
  rw [Nat.zero_add] at hinv
  refine ⟨SA, hSA, hlen, ?_, ?_, ?_, ?_⟩
  · intro x hx
    obtain ⟨m, hm, hfm⟩ := hfsurj x hx
    obtain ⟨p, _, hM, hr⟩ := lmsRank_surj t s.length m (by omega)
    have := hinv m hm
    rw [hfm, Int.toNat_natCast] at this
    exact ⟨p, hM, by rw [this, hr]⟩
  · intro p hM
    obtain ⟨v, hv, hfv⟩ := hfval (lmsRank t p) (hrank p hM)
    have := hinv _ (hrank p hM)
    rw [hfv, Int.toNat_natCast] at this
    exact ⟨v, hv, this⟩
  · intro x y hx hy hxy
    obtain ⟨m, hm, hfm⟩ := hfsurj x hx
    obtain ⟨m', hm', hfm'⟩ := hfsurj y hy
    have h1 := hinv m hm
    have h2 := hinv m' hm'
    rw [hfm, Int.toNat_natCast] at h1
    rw [hfm', Int.toNat_natCast] at h2
    have : m = m' := by omega
    subst this
    omega
  · intro x y p q hxy hy hMp hMq hxp hyq
    apply hN.monoSym p q hMp hMq
    obtain ⟨m, hm, hfm⟩ := hfsurj x (by omega)
    obtain ⟨m', hm', hfm'⟩ := hfsurj y hy
    have h1 := hinv m hm
    have h2 := hinv m' hm'
    rw [hfm, Int.toNat_natCast] at h1
    rw [hfm', Int.toNat_natCast] at h2
    have e1 : m = lmsRank t p := by omega
    have e2 : m' = lmsRank t q := by omega
    rw [← hfp p hMp, ← hfp q hMq, ← e1, ← e2, hfm, hfm']
    omega

end Inverse

/-! ## Stage 3: inducing the final array -/

section Final
variable {s : List Int} {t : List Bool} {k : Nat}

/-- The loop that lists the LMS positions in `s1`, followed by the loop that
replaces each rank in the front of `SA` by the LMS position of that rank, and
the clearing of the rest. -/
theorem recover_spec {SA0 : List Int} {n1 : Nat} (hR : Reduced s t SA0 n1)
    (hn1 : n1 = lmsRank t s.length) (hc : Classified s t) (hn : 0 < s.length) :
    ∃ st SA1 SA2, loopUp (lmsListStep t s.length n1) (s.length - 1) 1 (SA0, 0) = some st ∧
      loopUp (recoverStep s.length n1) n1 0 st.1 = some SA1 ∧
      clear SA1 n1 (s.length - n1) = some SA2 ∧ LmsFront s t SA2 n1 := by
  have hhalf := lmsRank_half hc hn
  have hrank : ∀ p, LMS t p → lmsRank t p < n1 := fun p hM => hn1 ▸ lmsRank_lt hc hM
  -- the list of the LMS positions
  obtain ⟨st, hst, hlen1, hj1, hlow1, hlist⟩ := loopUp_inv (lmsListStep t s.length n1)
    (fun i st => st.1.length = s.length ∧ st.2 = lmsRank t i ∧
      (∀ x, x < s.length - n1 → cell st.1 x = cell SA0 x) ∧
      ∀ p, p < i → LMS t p → cell st.1 (s.length - n1 + lmsRank t p) = p)
    (s.length - 1) 1 (SA0, 0)
    ⟨hR.lenSA, by simp [lmsRank_one], fun _ _ => rfl, fun p hp hM => by have := hM.1; omega⟩
    (by
      intro i st _ hi ⟨hlen, hj, hlow, hlist⟩
      obtain ⟨SA, j⟩ := st
      simp only at hlen hj hlow hlist
      unfold lmsListStep
      rw [isLMS_nat i (by rw [hc.1]; omega), Option.some_bind]
      have hrs := lmsRank_succ t i
      by_cases hM : LMS t i
      · simp only [hM, decide_True, if_true]
        rw [if_pos hM] at hrs
        have hri := hrank i hM
        have hidx : (s.length : Int) - n1 + j = ((s.length - n1 + lmsRank t i : Nat) : Int) := by
          omega
        rw [hidx, wr_nat SA _ _ (by rw [hlen]; omega), Option.some_bind]
        refine ⟨_, rfl, by simpa using hlen, by simp only; omega, ?_, ?_⟩
        · intro x hx
          simp only
          rw [cell_set, if_neg (by omega)]
          exact hlow x hx
        · intro p hp hMp
          simp only
          rw [cell_set]
          by_cases hpi : p = i
          · subst hpi
            rw [if_pos ⟨rfl, by rw [hlen]; omega⟩]
          · have : lmsRank t i ≠ lmsRank t p := fun hh => hpi (lmsRank_inj hMp hM hh.symm)
            rw [if_neg (by omega)]
            exact hlist p (by omega) hMp
      · simp only [hM, decide_False, Bool.false_eq_true, if_false]
        rw [if_neg hM] at hrs
        refine ⟨_, rfl, hlen, by simp only; omega, hlow, ?_⟩
        intro p hp hMp
        by_cases hpi : p = i
        · subst hpi; exact absurd hMp hM
        · exact hlist p (by omega) hMp)
  rw [show 1 + (s.length - 1) = s.length by omega] at hj1 hlist
  -- from ranks to positions
  obtain ⟨SA1, hSA1, hlen2, hhigh2, hrest2, hdone2⟩ := loopUp_inv (recoverStep s.length n1)
    (fun i SA => SA.length = s.length ∧ (∀ z, n1 ≤ z → cell SA z = cell st.1 z) ∧
      (∀ x, i ≤ x → x < n1 → cell SA x = cell SA0 x) ∧
      ∀ x p, x < i → LMS t p → cell SA0 x = lmsRank t p → cell SA x = p)
    n1 0 st.1
    ⟨hlen1, fun _ _ => rfl, fun x _ hx => hlow1 x (by omega), fun x p hx => by omega⟩
    (by
      intro i SA _ hi ⟨hlen, hhigh, hrest, hdone⟩
      obtain ⟨p, hM, hp⟩ := hR.val i (by omega)
      have hri := hrank p hM
      have hci : cell SA i = lmsRank t p := by rw [hrest i (Nat.le_refl _) (by omega), hp]
      have hidx : (s.length : Int) - n1 + (lmsRank t p : Int) =
          ((s.length - n1 + lmsRank t p : Nat) : Int) := by omega
      have hcp : cell SA (s.length - n1 + lmsRank t p) = p := by
        rw [hhigh _ (by omega)]
        exact hlist p (by have := LMS_lt hc hM; omega) hM
      refine ⟨SA.set i p, ?_, by simpa using hlen, ?_, ?_, ?_⟩
      · unfold recoverStep
        rw [rd_cell SA i (by rw [hlen]; omega), Option.some_bind, hci, hidx,
          rd_cell SA _ (by rw [hlen]; omega), Option.some_bind, hcp,
          wr_nat SA i p (by rw [hlen]; omega)]
      · intro z hz
        rw [cell_set, if_neg (by omega)]
        exact hhigh z hz
      · intro x hx1 hx2
        rw [cell_set, if_neg (by omega)]
        exact hrest x (by omega) hx2
      · intro x q hx hMq hxq
        rw [cell_set]
        by_cases hxi : x = i
        · subst hxi
          rw [if_pos ⟨rfl, by rw [hlen]; omega⟩]
          have : lmsRank t p = lmsRank t q := by omega
          rw [lmsRank_inj hM hMq this]
        · rw [if_neg (fun hh => hxi hh.1.symm)]
          exact hdone x q (by omega) hMq hxq)
  rw [Nat.zero_add] at hdone2
  obtain ⟨SA2, hSA2, hlen3, hcell3⟩ := clear_spec SA1 n1 (s.length - n1) (by rw [hlen2]; omega)
  refine ⟨st, SA1, SA2, hst, hSA1, hSA2, ?_⟩
  have hfront : ∀ x, x < n1 → cell SA2 x = cell SA1 x := fun x hx => by
    rw [hcell3 x, if_neg (by omega)]
  have hpos : ∀ x, x < n1 → ∃ p, LMS t p ∧ cell SA0 x = lmsRank t p ∧ cell SA2 x = p := by
    intro x hx
    obtain ⟨p, hM, hp⟩ := hR.val x hx
    exact ⟨p, hM, hp, by rw [hfront x hx, hdone2 x p hx hM hp]⟩
  constructor
  · rw [hlen3, hlen2]
  · intro x hx
    obtain ⟨p, hM, _, hp⟩ := hpos x hx
    exact ⟨p, hp, hM⟩
  · intro p hM
    obtain ⟨x, hx, hxp⟩ := hR.mem p hM
    exact ⟨x, hx, by rw [hfront x hx, hdone2 x p hx hM hxp]⟩
  · intro x y hx hy hxy
    obtain ⟨p, _, hp0, hp⟩ := hpos x hx
    obtain ⟨q, _, hq0, hq⟩ := hpos y hy
    apply hR.inj x y hx hy
    rw [hp0, hq0]
    have : p = q := by omega
    rw [this]
  · intro x y p q hxy hy hxp hyq
    obtain ⟨p', hMp, hp0, hp⟩ := hpos x (by omega)
    obtain ⟨q', hMq, hq0, hq⟩ := hpos y hy
    have e1 : p' = p := by omega
    have e2 : q' = q := by omega
    subst e1 e2
    exact hR.sorted x y p' q' hxy hy hMp hMq hp0 hq0
  · intro x hx1 hx2
    rw [hcell3 x, if_pos (by omega)]

end Final

section Reseed
variable {s : List Int} {t : List Bool} {k : Nat}

theorem ReseedInv.fresh {SA0 SA B : List Int} {n1 i : Nat} (h : ReseedInv s t SA0 k n1 i SA B)
    (hv : ValidInput s s.length k) (hF : LmsFront s t SA0 n1) (hc : Classified s t) {c : Int}
    (h0 : 0 ≤ c) (hk : c < k) {x : Nat} (hx1 : bp B c < x) (hx2 : x < bEnd s c) :
    ∃ (y : Nat) (q : Nat), i ≤ y ∧ y < n1 ∧ i ≤ x ∧ q < s.length ∧ cell SA0 y = q ∧ cell SA x = q ∧
      LMS t q ∧ sym s q = c := by
  obtain ⟨hix, hne⟩ := h.filled c h0 hk x hx1 hx2
  have hb := h.bnd c h0 hk
  have h1 := bHead_le_bMid s t c
  have h2 := bEnd_le s c
  rcases h.cls x hix (by omega) with hneg | ⟨y, q, hy1, hy2, hyq, hxq, ha, hb2⟩
  · exact absurd hneg hne
  · obtain ⟨q', hq', hM⟩ := hF.val y hy2
    have hqq : q' = q := by omega
    subst hqq
    have hqn := LMS_lt hc hM
    obtain ⟨hs0, hsk⟩ := sym_range hv q' (by omega)
    have hb' := h.bnd _ hs0 hsk
    have h3' := bHead_le_bMid s t (sym s q')
    have : sym s q' = c := same_bucket s (x := x) (by omega) (by omega) (by omega) (by omega)
    exact ⟨y, q', hy1, hy2, hix, by omega, hyq, hxq, hM, this⟩

theorem reseedStep_spec {SA0 : List Int} {n1 i : Nat} (hv : ValidInput s s.length k)
    (hF : LmsFront s t SA0 n1) (hc : Classified s t) (hi : i < n1)
    (st : List Int × List Int) (h : ReseedInv s t SA0 k n1 (i + 1) st.1 st.2) :
    ∃ st', reseedStep s i st = some st' ∧ ReseedInv s t SA0 k n1 i st'.1 st'.2 := by
  obtain ⟨SA, B⟩ := st
  simp only at h
  obtain ⟨p, hp, hM⟩ := hF.val i hi
  have hpn := LMS_lt hc hM
  have hci : cell SA i = p := by rw [h.front i (by omega), hp]
  obtain ⟨hc0, hck⟩ := sym_range hv p (by omega)
  have hbnd := h.bnd _ hc0 hck
  have hme := bMid_le_bEnd s t (sym s p)
  have hhm := bHead_le_bMid s t (sym s p)
  have hen := bEnd_le s (sym s p)
  have hlen := h.lenSA
  have hin1 : n1 ≤ s.length := by
    have := hF.n1_eq hc
    have := lmsRank_half hc (by omega)
    omega
  -- the slots above the pointer hold other LMS positions
  have hother : ∀ x q : Nat, i + 1 ≤ x → x < s.length → cell SA x = q → q ≠ p := by
    intro x q hx1 hx2 hxq hqp
    rcases h.cls x hx1 hx2 with hneg | ⟨y, q', hy1, hy2, hyq, hxq', _⟩
    · omega
    · have := hF.inj y i hy2 hi (by rw [hyq, hp]; omega)
      omega
  have hroom : (bMid s t (sym s p) : Int) ≤ bp B (sym s p) := by
    have := pigeon_slots (cell SA) s.length (bp B (sym s p) + 1) (bEnd s (sym s p))
      (fun j' => sym s j' = sym s p ∧ typ t j' = true) p (by omega) ⟨rfl, hM.2.1⟩ (by omega)
      (fun x hx1 hx2 => by
        obtain ⟨y, q, _, _, hix, hq, _, hxq, hMq, hsq⟩ :=
          h.fresh hv hF hc hc0 hck (x := x) (by omega) (by omega)
        exact ⟨q, hq, hxq, ⟨hsq, hMq.2.1⟩, hother x q hix (by omega) hxq⟩)
      (fun x y hx1 hx2 hy1 hy2 hxy => by
        obtain ⟨hix, hne⟩ := h.filled _ hc0 hck x (by omega) (by omega)
        obtain ⟨hiy, _⟩ := h.filled _ hc0 hck y (by omega) (by omega)
        exact h.inj x y hix (by omega) hiy (by omega) hxy hne)
    have hadd := bMid_add s t (sym s p)
    omega
  obtain ⟨b, hb⟩ : ∃ b : Nat, bp B (sym s p) = b := ⟨(bp B (sym s p)).toNat, by omega⟩
  have hfront : i ≤ b := by
    have := pigeon_inj
      (fun z => if z ≤ i then cell SA0 z else cell SA (z - (i + 1) + (b + 1)))
      s.length (i + 1 + (bEnd s (sym s p) - (b + 1))) (fun j => sym s j ≤ sym s p)
      (fun z hz => by
        by_cases hzi : z ≤ i
        · obtain ⟨q, hq, hMq⟩ := hF.val z (by omega)
          have hqn := LMS_lt hc hMq
          refine ⟨q, by omega, by simp only [if_pos hzi]; exact hq, ?_⟩
          by_cases hzi' : z = i
          · subst hzi'
            have : q = p := by omega
            rw [this]
          · exact hF.sorted z i q p (by omega) hi hq hp
        · obtain ⟨y, q, _, _, _, hq, _, hxq, _, hsq⟩ :=
            h.fresh hv hF hc hc0 hck (x := z - (i + 1) + (b + 1)) (by omega) (by omega)
          exact ⟨q, hq, by simp only [if_neg hzi]; exact hxq, by
            show sym s q ≤ sym s p
            omega⟩)
      (fun z z' hz hz' hzz => by
        simp only at hzz
        by_cases hzi : z ≤ i
        · by_cases hzi' : z' ≤ i
          · rw [if_pos hzi, if_pos hzi'] at hzz
            exact hF.inj z z' (by omega) (by omega) hzz
          · rw [if_pos hzi, if_neg hzi'] at hzz
            obtain ⟨y, q, hy1, hy2, _, _, hyq, hxq, _, _⟩ :=
              h.fresh hv hF hc hc0 hck (x := z' - (i + 1) + (b + 1)) (by omega) (by omega)
            have := hF.inj z y (by omega) hy2 (by rw [hzz, hxq, hyq])
            omega
        · by_cases hzi' : z' ≤ i
          · rw [if_neg hzi, if_pos hzi'] at hzz
            obtain ⟨y, q, hy1, hy2, _, _, hyq, hxq, _, _⟩ :=
              h.fresh hv hF hc hc0 hck (x := z - (i + 1) + (b + 1)) (by omega) (by omega)
            have := hF.inj z' y (by omega) hy2 (by rw [← hzz, hxq, hyq])
            omega
          · rw [if_neg hzi, if_neg hzi'] at hzz
            obtain ⟨hix, hne⟩ := h.filled _ hc0 hck (z - (i + 1) + (b + 1)) (by omega) (by omega)
            obtain ⟨hiy, _⟩ := h.filled _ hc0 hck (z' - (i + 1) + (b + 1)) (by omega) (by omega)
            have := h.inj _ _ hix (by omega) hiy (by omega) hzz hne
            omega)
    have he : countPos s.length (fun j => sym s j ≤ sym s p) = bEnd s (sym s p) := rfl
    omega
  have hbn : b < s.length := by omega
  -- the old contents of slot `b`
  have hbold : i + 1 ≤ b → cell SA b = -1 := by
    intro hib
    rcases h.cls b hib hbn with hneg | ⟨y, q, hy1, hy2, hyq, hxq, ha, hb2⟩
    · exact hneg
    · exfalso
      obtain ⟨q', hq', hMq⟩ := hF.val y hy2
      have hqq : q' = q := by omega
      subst hqq
      have hqn := LMS_lt hc hMq
      obtain ⟨hs0, hsk⟩ := sym_range hv q' (by omega)
      have hb' := h.bnd _ hs0 hsk
      have h3' := bHead_le_bMid s t (sym s q')
      have : sym s q' = sym s p :=
        same_bucket s (x := b) (by omega) (by omega) (by omega) (by omega)
      rw [this] at ha; omega
  have hpl := place_spec hv (-1) p (by omega) (SA.set i (-1)) B h.lenB (by omega)
    (by rw [List.length_set, hlen]; omega)
  unfold reseedStep
  simp only
  rw [rd_cell SA i (by rw [hlen]; omega), Option.some_bind, hci,
    wr_nat SA i (-1) (by rw [hlen]; omega), Option.some_bind, hpl]
  refine ⟨_, rfl, ?_⟩
  simp only
  rw [hb, Int.toNat_natCast]
  have hcellS : ∀ z, cell ((SA.set i (-1)).set b p) z =
      if b = z then (p : Int) else if i = z then -1 else cell SA z := by
    intro z
    rw [cell_set, cell_set, List.length_set]
    by_cases hbz : b = z
    · rw [if_pos ⟨hbz, by rw [hlen]; omega⟩, if_pos hbz]
    · rw [if_neg (fun hh => hbz hh.1), if_neg hbz]
      by_cases hiz : i = z
      · rw [if_pos ⟨hiz, by rw [hlen]; omega⟩, if_pos hiz]
      · rw [if_neg (fun hh => hiz hh.1), if_neg hiz]
  have hbpS : ∀ c' : Int, 0 ≤ c' →
      bp (B.set (sym s p).toNat ((b : Int) + -1)) c' =
        if sym s p = c' then (b : Int) + -1 else bp B c' := fun c' h0' =>
    bp_set B _ c' _ hc0 (by rw [h.lenB]; exact hck) h0'
  have hbpmono : ∀ c' : Int, 0 ≤ c' → bp (B.set (sym s p).toNat ((b : Int) + -1)) c' ≤ bp B c' := by
    intro c' h0'
    rw [hbpS c' h0']
    by_cases hcc : sym s p = c'
    · rw [if_pos hcc, ← hcc]; omega
    · rw [if_neg hcc]
  constructor
  · simp [hlen]
  · simpa using h.lenB
  · intro c' h0' hk'
    rw [hbpS c' h0']
    by_cases hcc : sym s p = c'
    · rw [if_pos hcc, ← hcc]; omega
    · rw [if_neg hcc]; exact h.bnd c' h0' hk'
  · intro x hx
    rw [hcellS, if_neg (by omega), if_neg (by omega)]
    exact h.front x (by omega)
  · intro x hx1 hx2
    rw [hcellS]
    by_cases hbx : b = x
    · subst hbx
      right
      refine ⟨i, p, Nat.le_refl _, hi, hp, by rw [if_pos rfl], ?_, by omega⟩
      rw [hbpS _ hc0, if_pos rfl]; omega
    · rw [if_neg hbx]
      by_cases hix : i = x
      · rw [if_pos hix]; exact Or.inl rfl
      · rw [if_neg hix]
        rcases h.cls x (by omega) hx2 with hneg | ⟨y, q, hy1, hy2, hyq, hxq, ha, hb2⟩
        · exact Or.inl hneg
        · right
          obtain ⟨q', hq', hMq⟩ := hF.val y hy2
          have hqq : q' = q := by omega
          subst hqq
          have := hbpmono (sym s q') (sym_range hv q' (by have := LMS_lt hc hMq; omega)).1
          exact ⟨y, q', by omega, hy2, hyq, hxq, by omega, hb2⟩
  · intro c' h0' hk' x hx1 hx2
    rw [hcellS]
    by_cases hbx : b = x
    · rw [if_pos hbx]; exact ⟨by omega, by omega⟩
    · rw [if_neg hbx]
      have hx1' : bp B c' < x := by
        rw [hbpS c' h0'] at hx1
        by_cases hcc : sym s p = c'
        · rw [if_pos hcc] at hx1; rw [← hcc]; omega
        · rw [if_neg hcc] at hx1; exact hx1
      obtain ⟨hix, hne⟩ := h.filled c' h0' hk' x hx1' hx2
      rw [if_neg (by omega)]
      exact ⟨by omega, hne⟩
  · intro x y hx1 hx2 hy1 hy2 hxy hne
    rw [hcellS] at hxy hne
    rw [hcellS] at hxy
    have hval : ∀ z, i ≤ z → z < s.length → b ≠ z → i ≠ z → cell SA z ≠ (p : Int) :=
      fun z hz1 hz2 _ hiz hzp => hother z p (by omega) hz2 hzp rfl
    by_cases hbx : b = x
    · by_cases hby : b = y
      · omega
      · rw [if_pos hbx, if_neg hby] at hxy
        by_cases hiy : i = y
        · rw [if_pos hiy] at hxy; omega
        · rw [if_neg hiy] at hxy
          exact absurd hxy.symm (hval y hy1 hy2 hby hiy)
    · rw [if_neg hbx] at hxy hne
      by_cases hix : i = x
      · rw [if_pos hix] at hne; exact absurd rfl hne
      · rw [if_neg hix] at hxy hne
        by_cases hby : b = y
        · rw [if_pos hby] at hxy
          exact absurd hxy (hval x hx1 hx2 hbx hix)
        · rw [if_neg hby] at hxy
          by_cases hiy : i = y
          · rw [if_pos hiy] at hxy; exact absurd hxy hne
          · rw [if_neg hiy] at hxy
            exact h.inj x y (by omega) hx2 (by omega) hy2 hxy hne
  · intro y hy1 hy2
    by_cases hyi : y = i
    · subst hyi
      exact ⟨b, hfront, hbn, by rw [hcellS, if_pos rfl, hp]⟩
    · obtain ⟨x, hx1, hx2, hxc⟩ := h.mem y (by omega) hy2
      obtain ⟨q, hq, _⟩ := hF.val y hy2
      have hbx : b ≠ x := by
        intro hbx
        subst hbx
        have := hbold hx1
        omega
      exact ⟨x, by omega, hx2, by rw [hcellS, if_neg hbx, if_neg (by omega)]; exact hxc⟩

/-- Lines 207-224: stage 3 turns the sorted ranks of the LMS positions into an
array that holds every position, each in the bucket of its symbol. -/
theorem induce_final_spec {SA0 : List Int} {n n1 : Nat} (hv : ValidInput s n k) (hn : 0 < n)
    (hc : Classified s t) (hR : Reduced s t SA0 n1) (hn1 : n1 = lmsRank t s.length) :
    ∃ SA, induce_final t s SA0 n k n1 = some SA ∧ Induced s t SA := by
  obtain rfl : s.length = n := hv.1
  obtain ⟨bt, hbt, hbtl, hbtv⟩ := get_buckets_spec hv true
  obtain ⟨st, SA1, SA2, hst, hSA1, hSA2, hF⟩ := recover_spec hR hn1 hc hn
  have hbp : ∀ c : Int, 0 ≤ c → c < k → bp bt c = (bEnd s c : Int) - 1 := fun c h0 hk => by
    have := hbtv c h0 hk
    simp only [if_true] at this
    exact this
  obtain ⟨st2, hst2, hinv⟩ := loopDown_inv (reseedStep s)
    (fun i st2 => ReseedInv s t SA2 k n1 i st2.1 st2.2) 0 n1 (SA2, bt)
    (by
      rw [Nat.zero_add]
      refine ⟨hF.lenSA, hbtl, ?_, fun _ _ => rfl, fun x hx1 hx2 => Or.inl (hF.rest x hx1 hx2),
        ?_, ?_, fun y hy1 hy2 => by omega⟩
      · intro c h0 hk
        have := bMid_le_bEnd s t c
        simp only
        rw [hbp c h0 hk]; omega
      · intro c h0 hk x hx1 hx2
        simp only at hx1
        rw [hbp c h0 hk] at hx1; omega
      · intro x y hx1 hx2 _ _ _ hne
        exact absurd (hF.rest x hx1 hx2) hne)
    (fun i st2 _ hi h => reseedStep_spec hv hF hc (by omega) st2 h)
  have hseed : Seeded s t st2.1 := by
    refine ⟨hinv.lenSA, ?_, ?_, ?_⟩
    · intro x hx
      rcases hinv.cls x (Nat.zero_le _) hx with hneg | ⟨y, q, _, hy2, hyq, hxq, ha, hb2⟩
      · exact Or.inl hneg
      · obtain ⟨q', hq', hMq⟩ := hF.val y hy2
        have hqq : q' = q := by omega
        subst hqq
        have hqn := LMS_lt hc hMq
        have := hinv.bnd _ (sym_range hv q' (by omega)).1 (sym_range hv q' (by omega)).2
        exact Or.inr ⟨q', by omega, hxq, hMq, by omega, hb2⟩
    · intro x y hx hy hxy hne
      exact hinv.inj x y (Nat.zero_le _) hx (Nat.zero_le _) hy hxy hne
    · intro p hM
      obtain ⟨y, hy, hyp⟩ := hF.mem p hM
      obtain ⟨x, _, hx, hxc⟩ := hinv.mem y (Nat.zero_le _) hy
      exact ⟨x, hx, by rw [hxc, hyp]⟩
  obtain ⟨SA, hSA, hind⟩ := induce_sa_spec hv hn hc hseed
  exact ⟨SA, by simp [induce_final, hbt, hst, hSA1, hSA2, hst2, hSA], hind⟩

end Reseed

/-! ## The whole construction -/

theorem cell_append_left (a b : List Int) (x : Nat) (h : x < a.length) :
    cell (a ++ b) x = cell a x := by
  unfold cell
  rw [List.getD_eq_getElem?_getD, List.getD_eq_getElem?_getD, List.getElem?_append_left h]

theorem cell_drop (a : List Int) (d x : Nat) : cell (a.drop d) x = cell a (d + x) := by
  unfold cell
  rw [List.getD_eq_getElem?_getD, List.getD_eq_getElem?_getD, List.getElem?_drop]

/-- The reduced sequence `s1` is a valid input of the builder. -/
theorem Named.valid {s : List Int} {t : List Bool} {SA : List Int} {n1 : Nat} {name : Int}
    {nm : Nat → Int} (hN : Named s t SA n1 name nm) (hn1 : n1 = lmsRank t s.length)
    (hle : n1 ≤ s.length) :
    ValidInput (SA.drop (s.length - n1)) n1 name.toNat := by
  have hlen : (SA.drop (s.length - n1)).length = n1 := by
    rw [List.length_drop, hN.lenSA]; omega
  refine ⟨hlen, ?_⟩
  intro x hx
  obtain ⟨m, hm, hxm⟩ := List.getElem_of_mem hx
  rw [hlen] at hm
  have hcell : cell (SA.drop (s.length - n1)) m = x := by
    unfold cell
    rw [List.getD_eq_getElem?_getD, List.getElem?_eq_getElem (by rw [hlen]; exact hm), hxm]
    rfl
  rw [cell_drop] at hcell
  obtain ⟨p, _, hM, hr⟩ := lmsRank_surj t s.length m (by omega)
  have := hN.slot p hM
  rw [hr, hcell] at this
  have hrng := hN.rng p hM
  have := hN.nameLe
  omega

/-- Stage 2 by recursion: a correct array for `s1` is a correct array of ranks. -/
theorem Named.reduced_of_rec {s : List Int} {t : List Bool} {SA : List Int} {n1 : Nat}
    {name : Int} {nm : Nat → Int} (hN : Named s t SA n1 name nm)
    (hn1 : n1 = lmsRank t s.length) (hc : Classified s t) (hn : 0 < s.length)
    {t1 : List Bool} {sa1 : List Int} (hI : Induced (SA.drop (s.length - n1)) t1 sa1) :
    Reduced s t (sa1 ++ SA.drop n1) n1 := by
  have hhalf := lmsRank_half hc hn
  have hlen : (SA.drop (s.length - n1)).length = n1 := by
    rw [List.length_drop, hN.lenSA]; omega
  have hl1 : sa1.length = n1 := by rw [hI.lenSA, hlen]
  have hrank : ∀ p, LMS t p → lmsRank t p < n1 := fun p hM => hn1 ▸ lmsRank_lt hc hM
  have hfront : ∀ x, x < n1 → cell (sa1 ++ SA.drop n1) x = cell sa1 x := fun x hx =>
    cell_append_left _ _ x (by omega)
  have hsym : ∀ p, LMS t p → sym (SA.drop (s.length - n1)) (lmsRank t p) = nm p := by
    intro p hM
    rw [show sym (SA.drop (s.length - n1)) (lmsRank t p) =
      cell (SA.drop (s.length - n1)) (lmsRank t p) from rfl, cell_drop, hN.slot p hM]
  constructor
  · rw [List.length_append, List.length_drop, hl1, hN.lenSA]; omega
  · intro x hx
    obtain ⟨j, hj, hxj, _⟩ := hI.val x (by rw [hlen]; exact hx)
    rw [hlen] at hj
    obtain ⟨p, _, hM, hr⟩ := lmsRank_surj t s.length j (by omega)
    exact ⟨p, hM, by rw [hfront x hx, hxj, hr]⟩
  · intro p hM
    obtain ⟨x, hx, hxc⟩ := hI.mem (lmsRank t p) (by rw [hlen]; exact hrank p hM)
    rw [hlen] at hx
    exact ⟨x, hx, by rw [hfront x hx, hxc]⟩
  · intro x y hx hy hxy
    rw [hfront x hx, hfront y hy] at hxy
    exact hI.inj x y (by rw [hlen]; exact hx) (by rw [hlen]; exact hy) hxy
  · intro x y p q hxy hy hMp hMq hxp hyq
    rw [hfront x (by omega)] at hxp
    rw [hfront y hy] at hyq
    have := hI.sorted_sym (x := x) (y := y) hxy (by rw [hlen]; exact hy) hxp hyq
    rw [hsym p hMp, hsym q hMq] at this
    exact hN.monoSym p q hMp hMq this

/-- The builder returns, for every valid input and enough recursion depth, an
array that holds every position once, each in the bucket of its symbol. -/
theorem construct_suffix_array_aux_spec : ∀ (fuel : Nat) (s : List Int) (n k : Nat),
    ValidInput s n k → 0 < n → n ≤ fuel →
    ∃ t SA, Classified s t ∧ construct_suffix_array_aux fuel s n k = some SA ∧ Induced s t SA
  | 0, _, _, _, _, hn, hf => by omega
  | fuel + 1, s, n, k, hv, hn, hf => by
    obtain ⟨t, ht, hc⟩ := classify_spec hv hn
    obtain ⟨SA1, hSA1, hI1⟩ := sort_lms_spec hv hn hc
    obtain rfl : s.length = n := hv.1
    obtain ⟨SA2, n1, hSA2, hF⟩ := extract_lms_spec hI1 hc
    obtain ⟨SA3, name, nm, hSA3, hN⟩ := name_lms_spec hF hc hn
    have hn1 := hF.n1_eq hc
    have hhalf := lmsRank_half hc hn
    have hstage2 : ∃ SA4,
        (if name < n1 then
          if s.length < 2 * n1 then none else
          (construct_suffix_array_aux fuel (SA3.drop (s.length - n1)) n1 name.toNat).bind
            fun sa1 => some (sa1 ++ SA3.drop n1)
        else loopUp (invStep s.length n1) n1 0 SA3) = some SA4 ∧ Reduced s t SA4 n1 := by
      by_cases hname : name < n1
      · rw [if_pos hname, if_neg (by omega)]
        have hv1 := hN.valid hn1 (by omega)
        obtain ⟨t1, sa1, _, hsa1, hI⟩ := construct_suffix_array_aux_spec fuel
          (SA3.drop (s.length - n1)) n1 name.toNat hv1 (by have := hN.nameLe.1; omega)
          (by omega)
        exact ⟨_, by rw [hsa1, Option.some_bind], hN.reduced_of_rec hn1 hc hn hI⟩
      · rw [if_neg hname]
        exact inverse_spec hN hn1 hc hn hname
    obtain ⟨SA4, hSA4, hR⟩ := hstage2
    obtain ⟨SA, hSA, hI⟩ := induce_final_spec hv hn hc hR hn1
    refine ⟨t, SA, hc, ?_, hI⟩
    unfold construct_suffix_array_aux
    simp only [ht, hSA1, hSA2, hSA3, Option.some_bind]
    rw [hSA4, Option.some_bind, hSA]

/-! ## Consequences for the array as a list -/

theorem cell_eq_getElem (a : List Int) (x : Nat) (h : x < a.length) : cell a x = a[x] := by
  unfold cell
  rw [List.getD_eq_getElem?_getD, List.getElem?_eq_getElem h]
  rfl

theorem mem_iff_cell (a : List Int) (v : Int) : v ∈ a ↔ ∃ x, x < a.length ∧ cell a x = v := by
  rw [List.mem_iff_getElem]
  constructor
  · rintro ⟨x, hx, hv⟩
    exact ⟨x, hx, by rw [cell_eq_getElem a x hx, hv]⟩
  · rintro ⟨x, hx, hv⟩
    exact ⟨x, hx, by rw [← cell_eq_getElem a x hx, hv]⟩

theorem nodup_of_cell_inj (a : List Int)
    (h : ∀ x y, x < a.length → y < a.length → cell a x = cell a y → x = y) : a.Nodup := by
  rw [List.nodup_iff_injective_get]
  intro i j hij
  apply Fin.ext
  apply h i.1 j.1 i.2 j.2
  rw [cell_eq_getElem a i.1 i.2, cell_eq_getElem a j.1 j.2]
  exact hij

theorem Induced.isPermutation {s : List Int} {t : List Bool} {SA : List Int}
    (h : Induced s t SA) : IsPermutation SA s.length ∧ (-1 : Int) ∉ SA := by
  have hnd : SA.Nodup := nodup_of_cell_inj SA fun x y hx hy hxy =>
    h.inj x y (by rw [← h.lenSA]; exact hx) (by rw [← h.lenSA]; exact hy) hxy
  refine ⟨⟨h.lenSA, fun j hj => ?_⟩, ?_⟩
  · apply List.count_eq_one_of_mem hnd
    rw [mem_iff_cell]
    obtain ⟨x, hx, hxc⟩ := h.mem j hj
    exact ⟨x, by rw [h.lenSA]; exact hx, hxc⟩
  · rw [mem_iff_cell]
    rintro ⟨x, hx, hxc⟩
    obtain ⟨j, _, hj, _⟩ := h.val x (by rw [← h.lenSA]; exact hx)
    omega

theorem construct_suffix_array_spec {s : List Int} {n k : Nat} (hv : ValidInput s n k)
    (hn : 1 ≤ n) :
    ∃ t SA, Classified s t ∧ construct_suffix_array s n k = some SA ∧ Induced s t SA :=
  construct_suffix_array_aux_spec n s n k hv hn (Nat.le_refl _)

theorem reduced_length_spec {s : List Int} {n k : Nat} (hv : ValidInput s n k) (hn : 1 ≤ n) :
    ∃ t, Classified s t ∧ reduced_length s n k = some (lmsRank t n) := by
  obtain ⟨t, ht, hc⟩ := classify_spec hv hn
  obtain ⟨SA1, hSA1, hI1⟩ := sort_lms_spec hv hn hc
  obtain rfl : s.length = n := hv.1
  obtain ⟨SA2, n1, hSA2, hF⟩ := extract_lms_spec hI1 hc
  refine ⟨t, hc, ?_⟩
  unfold reduced_length
  rw [ht, Option.some_bind, hSA1, Option.some_bind, hSA2, Option.some_bind, hF.n1_eq hc]

/-! ## The permutation loop of `bwt` -/

theorem set_append_replicate (a : List Int) (m : Nat) (c : Int) :
    (a ++ List.replicate (m + 1) 0).set a.length c = (a ++ [c]) ++ List.replicate m 0 := by
  induction a with
  | nil => simp [List.replicate_succ]
  | cons x a ih => simp [ih]

theorem take_succ_cell (SA : List Int) (i : Nat) (h : i < SA.length) :
    SA.take (i + 1) = SA.take i ++ [cell SA i] := by
  rw [List.take_succ, List.getElem?_eq_getElem h, cell_eq_getElem SA i h]
  rfl

theorem bwtStep_spec {data SA : List Int} {n i0 : Nat} (hd : data.length = n) (hS : SA.length = n)
    (hval : ∀ x, x < n → ∃ j : Nat, j < n ∧ cell SA x = j) (hi0 : i0 < n)
    (hz : cell SA i0 = 0) (huniq : ∀ x, x < n → cell SA x = 0 → x = i0) {i : Nat} (hi : i < n)
    (st : List Int × Int × Int) (h : BwtInv data SA n i0 i st.1 st.2.1 st.2.2) :
    ∃ st', bwtStep data SA i st = some st' ∧ BwtInv data SA n i0 (i + 1) st'.1 st'.2.1 st'.2.2 := by
  obtain ⟨out, j, z⟩ := st
  simp only at h
  obtain ⟨v, hv, hcv⟩ := hval i hi
  unfold bwtStep
  simp only
  rw [rd_cell SA i (by omega), Option.some_bind]
  have htk := take_succ_cell SA i (by omega)
  have hlist := h.list
  have hjv := h.jval
  have hbef := h.before
  have haft := h.after
  by_cases hv0 : cell SA i ≠ 0
  · rw [if_pos hv0]
    have hne : i ≠ i0 := fun hh => hv0 (hh ▸ hz)
    have hfil : (SA.take (i + 1)).filter (fun v => decide (v ≠ 0)) =
        (SA.take i).filter (fun v => decide (v ≠ 0)) ++ [cell SA i] := by
      rw [htk, List.filter_append]
      simp [hv0]
    generalize hl : (SA.take i).filter (fun v => decide (v ≠ 0)) = l at hlist hjv hbef haft hfil
    have hll : l.length + 1 < n := by
      by_cases hle : i ≤ i0
      · have := (hbef hle).2; omega
      · have := (haft (by omega)).2; omega
    rw [rd_cell_int data (cell SA i - 1) (by omega) (by omega), Option.some_bind]
    have hj : j = ((1 + l.length : Nat) : Int) := by rw [hjv]; omega
    rw [hj, wr_nat out _ _ (by rw [hlist]; simp; omega), Option.some_bind]
    refine ⟨_, rfl, ?_⟩
    simp only
    constructor
    · rw [hfil, hlist]
      have e1 : n - 1 - l.length = (n - 1 - (l ++ [cell SA i]).length) + 1 := by
        simp; omega
      have e2 : 1 + l.length = (sym data (n - 1) ::
          l.map (fun v => sym data (v - 1).toNat)).length := by simp; omega
      rw [e1, e2, set_append_replicate]
      simp [cell, sym]
    · rw [hfil]; simp; omega
    · intro hle
      have := hbef (by omega)
      exact ⟨this.1, by rw [hfil]; simp; omega⟩
    · intro hlt
      have := haft (by omega)
      exact ⟨this.1, by rw [hfil]; simp; omega⟩
  · rw [if_neg hv0]
    have hv0' : cell SA i = 0 := not_not.mp hv0
    have hii : i = i0 := huniq i hi hv0'
    have hfil : (SA.take (i + 1)).filter (fun v => decide (v ≠ 0)) =
        (SA.take i).filter (fun v => decide (v ≠ 0)) := by
      rw [htk, List.filter_append]
      simp [hv0']
    refine ⟨_, rfl, ?_⟩
    simp only
    constructor
    · rw [hfil]; exact hlist
    · rw [hfil]; exact hjv
    · intro hle; omega
    · intro _
      have := hbef (by omega)
      rw [hfil]
      exact ⟨by rw [hii], by omega⟩

/-- Lines 28-43 of `bwt`: the bytes written and the value returned, for an array
`SA` that is a permutation of the positions. -/
theorem bwt_permute_spec {data SA : List Int} {n i0 : Nat} (hd : data.length = n)
    (hS : SA.length = n) (hval : ∀ x, x < n → ∃ j : Nat, j < n ∧ cell SA x = j) (hi0 : i0 < n)
    (hz : cell SA i0 = 0) (huniq : ∀ x, x < n → cell SA x = 0 → x = i0) :
    bwt_permute data SA n = some (sym data (n - 1) ::
      (SA.filter (fun v => decide (v ≠ 0))).map (fun v => sym data (v - 1).toNat),
      (i0 : Int) + 1) ∧
    ((SA.filter (fun v => decide (v ≠ 0))).length + 1 = n) := by
  obtain ⟨st, hst, hinv⟩ := loopUp_inv (bwtStep data SA)
    (fun i st => BwtInv data SA n i0 i st.1 st.2.1 st.2.2) n 0
    ((List.replicate n 0).set 0 (sym data (n - 1)), 1, -1)
    ⟨by
      obtain ⟨m, hm⟩ : ∃ m, n = m + 1 := ⟨n - 1, by omega⟩
      subst hm
      simp [List.replicate_succ], by simp, fun _ => ⟨rfl, by simp⟩, fun h => by omega⟩
    (fun i st _ hi h => bwtStep_spec hd hS hval hi0 hz huniq (by omega) st h)
  rw [Nat.zero_add] at hinv
  have hl := hinv.list
  obtain ⟨hz', hlen⟩ := hinv.after (by omega)
  have htake : SA.take n = SA := by rw [← hS, List.take_length]
  rw [htake] at hl hlen
  refine ⟨?_, by omega⟩
  have hw : wr (List.replicate n 0) 0 (sym data (n - 1)) =
      some ((List.replicate n 0).set 0 (sym data (n - 1))) :=
    wr_nat _ 0 _ (by simp; omega)
  unfold bwt_permute
  rw [show ((n : Int) - 1) = ((n - 1 : Nat) : Int) by omega,
    rd_cell data _ (by omega), Option.some_bind,
    show cell data (n - 1) = sym data (n - 1) from rfl, hw, Option.some_bind, hst,
    Option.some_bind]
  rw [show n - 1 - (List.filter (fun v => decide (v ≠ 0)) SA).length = 0 by omega] at hl
  simp only [List.replicate_zero, List.append_nil] at hl
  rw [hl, hz']

/-! ## Sequences without an S-type position -/

section AllL
variable {s : List Int} {t : List Bool}

theorem NonIncreasing.le {data : List Int} (h : NonIncreasing data) :
    ∀ (d i : Nat), i + d < data.length → sym data (i + d) ≤ sym data i
  | 0, _, _ => Int.le_refl _
  | d + 1, i, hi => by
    have h1 := h.le d i (by omega)
    have h2 := h (i + d) (by omega)
    rw [show i + (d + 1) = i + d + 1 by omega]
    omega

/-- In a non-increasing sequence every position is L-type. -/
theorem NonIncreasing.allLType (h : NonIncreasing s) (hc : Classified s t) :
    ∀ (d j : Nat), j + d + 1 = s.length → typ t j = false
  | 0, j, hj => by
    have := hc.2.1
    rwa [show s.length - 1 = j by omega] at this
  | d + 1, j, hj => by
    have h1 := h.allLType hc d (j + 1) (by omega)
    have h2 := hc.2.2 j (by omega)
    have h3 := h j (by omega)
    rw [h2, h1]
    simp only [Bool.and_false, Bool.or_false, decide_eq_false_iff_not]
    omega

theorem typ_false_of_nonIncreasing (h : NonIncreasing s) (hc : Classified s t) (j : Nat) :
    typ t j = false := by
  by_cases hj : j < s.length
  · exact h.allLType hc (s.length - 1 - j) j (by omega)
  · exact typ_of_le (by rw [hc.1]; omega)

/-- When every position is L-type the induced array lists the positions from the
last to the first. -/
theorem Induced.descending {SA : List Int} (hI : Induced s t SA)
    (hL : ∀ j, typ t j = false) (x : Nat) (hx : x < s.length) :
    cell SA x = ((s.length - 1 - x : Nat) : Int) := by
  have hlow : ∀ (d j y : Nat), j + d + 1 = s.length → y < s.length → cell SA y = j → d ≤ y := by
    intro d
    induction d with
    | zero => intro j y _ _ _; omega
    | succ d ih =>
      intro j y hj hy hyc
      obtain ⟨y', hy', hyc'⟩ := hI.mem (j + 1) (by omega)
      have h1 := ih (j + 1) y' (by omega) hy' hyc'
      have h2 := hI.ordL y y' j hy hy' hyc (by rw [hyc']; push_cast; rfl) (hL j)
      omega
  have hhigh : ∀ (j y : Nat), y < s.length → cell SA y = j → y + j + 1 ≤ s.length := by
    intro j
    induction j with
    | zero => intro y hy _; omega
    | succ j ih =>
      intro y hy hyc
      have hj : j < s.length := by
        obtain ⟨j', hj', hc', _⟩ := hI.val y hy; omega
      obtain ⟨y', hy', hyc'⟩ := hI.mem j hj
      have h1 := ih y' hy' hyc'
      have h2 := hI.ordL y' y j hy' hy hyc' (by rw [hyc]; push_cast; rfl) (hL j)
      omega
  obtain ⟨j, hj, hxc, _⟩ := hI.val x hx
  have h1 := hlow (s.length - 1 - j) j x (by omega) hx hxc
  have h2 := hhigh j x hx hxc
  rw [hxc]
  omega

end AllL

/-- On a non-increasing byte sequence `bwt` writes the bytes in reverse order and
returns the zero index `n`. -/
theorem bwt_nonIncreasing {data : List Int} {n : Nat} (hd : data.length = n) (hb : IsBytes data)
    (hn : 1 ≤ n) (hm : NonIncreasing data) :
    ∃ out, bwt data n = some (out, (n : Int)) ∧ out.length = n ∧
      ∀ m, m < n → cell out m = sym data (n - 1 - m) := by
  have hv : ValidInput data n 256 := ⟨hd, fun x hx => hb x hx⟩
  obtain ⟨t, SA, hc, hSA, hI⟩ := construct_suffix_array_spec hv hn
  obtain rfl := hd
  have hdesc := hI.descending (typ_false_of_nonIncreasing hm hc)
  have hlen := hI.lenSA
  have hval : ∀ x, x < data.length → ∃ j : Nat, j < data.length ∧ cell SA x = j := fun x hx =>
    ⟨data.length - 1 - x, by omega, hdesc x hx⟩
  have hz : cell SA (data.length - 1) = 0 := by
    rw [hdesc _ (by omega)]; simp
  have huniq : ∀ x, x < data.length → cell SA x = 0 → x = data.length - 1 := by
    intro x hx hx0
    rw [hdesc x hx] at hx0
    omega
  obtain ⟨h1, h2⟩ := bwt_permute_spec rfl hlen hval (by omega) hz huniq
  refine ⟨sym data (data.length - 1) ::
      (SA.filter (fun v => decide (v ≠ 0))).map (fun v => sym data (v - 1).toNat), ?_,
    by rw [List.length_cons, List.length_map]; exact h2, ?_⟩
  · have e : ((data.length - 1 : Nat) : Int) + 1 = (data.length : Int) := by omega
    unfold bwt
    rw [hSA, Option.some_bind, h1, e]
  · -- the entries of `SA` other than `0` are its first `n - 1` entries
    have hsplit : SA = SA.take (data.length - 1) ++ [0] := by
      have h3 := take_succ_cell SA (data.length - 1) (by omega)
      rw [show data.length - 1 + 1 = SA.length by omega, List.take_length, hz] at h3
      exact h3
    have hfil : SA.filter (fun v => decide (v ≠ 0)) = SA.take (data.length - 1) := by
      conv_lhs => rw [hsplit]
      rw [List.filter_append]
      have : List.filter (fun v => decide (v ≠ 0)) ([0] : List Int) = [] := by decide
      rw [this, List.append_nil, List.filter_eq_self]
      intro v hv
      rw [mem_iff_cell] at hv
      obtain ⟨x, hx, hxc⟩ := hv
      rw [List.length_take] at hx
      have hx' : x < data.length - 1 := by omega
      have : cell (SA.take (data.length - 1)) x = cell SA x := by
        unfold cell
        rw [List.getD_eq_getElem?_getD, List.getD_eq_getElem?_getD, List.getElem?_take_of_lt hx']
      rw [this, hdesc x (by omega)] at hxc
      simp only [ne_eq, decide_not, Bool.not_eq_eq_eq_not, Bool.not_true, decide_eq_false_iff_not]
      omega
    intro m hmn
    rw [hfil]
    cases m with
    | zero =>
      unfold cell
      rw [List.getD_cons_zero, Nat.sub_zero]
    | succ m =>
      have hm1 : m < data.length - 1 := by omega
      have hcm : cell SA m = ((data.length - 1 - m : Nat) : Int) := hdesc m (by omega)
      unfold cell
      rw [List.getD_cons_succ, List.getD_eq_getElem?_getD, List.getElem?_map,
        List.getElem?_take_of_lt hm1, List.getElem?_eq_getElem (by omega)]
      simp only [Option.map_some', Option.getD_some]
      rw [← cell_eq_getElem SA m (by omega), hcm]
      congr 1
      omega

/-! ## The decoder on sorted data -/

theorem two_pow_32 : (2 : Int) ^ 32 = 4294967296 := by norm_num

theorem countPos_cut (n i : Nat) (p : Nat → Prop) [DecidablePred p] (hi : i ≤ n)
    (h : ∀ j, i ≤ j → j < n → ¬ p j) : countPos n p = countPos i p := by
  obtain ⟨d, rfl⟩ : ∃ d, n = i + d := ⟨n - i, by omega⟩
  induction d with
  | zero => rfl
  | succ d ih =>
    rw [show i + (d + 1) = i + d + 1 by omega, countPos_succ,
      if_neg (h (i + d) (by omega) (by omega)), Nat.add_zero]
    exact ih (by omega) fun j hj1 hj2 => h j hj1 (by omega)

theorem countPos_all (i : Nat) (p : Nat → Prop) [DecidablePred p] (h : ∀ j, j < i → p j) :
    countPos i p = i := by
  induction i with
  | zero => exact countPos_zero p
  | succ i ih =>
    rw [countPos_succ, if_pos (h i (by omega)), ih fun j hj => h j (by omega)]

section Sorted
variable {d : List Int}

/-- In sorted data the `i`-th element is preceded by the smaller elements and the
equal elements with a smaller index. -/
theorem sorted_rank (hs : ∀ i j, i ≤ j → j < d.length → sym d i ≤ sym d j) (i : Nat)
    (hi : i < d.length) :
    bHead d (sym d i) + countPos i (fun j => sym d j = sym d i) = i := by
  unfold bHead
  rw [countPos_cut d.length i (fun j => sym d j < sym d i) (by omega)
    (fun j hj1 hj2 => by have := hs i j hj1 hj2; omega)]
  rw [← countPos_split i (fun j => sym d j ≤ sym d i) (fun j => sym d j < sym d i)
    (fun j => sym d j = sym d i) (fun j _ => by constructor <;> omega)]
  exact countPos_all i _ fun j hj => hs j i (by omega) hi

theorem sorted_bEnd_ge (hs : ∀ i j, i ≤ j → j < d.length → sym d i ≤ sym d j) (i : Nat)
    (hi : i < d.length) : i + 1 ≤ bEnd d (sym d i) := by
  unfold bEnd
  have h1 := countPos_all (i + 1) (fun j => sym d j ≤ sym d i) fun j hj => hs j i (by omega) hi
  have h2 : countPos (i + 1) (fun j => sym d j ≤ sym d i) ≤
      countPos d.length (fun j => sym d j ≤ sym d i) := by
    unfold countPos
    apply Finset.card_le_card
    intro j hj
    simp only [Finset.mem_filter, Finset.mem_range] at hj ⊢
    exact ⟨by omega, hj.2⟩
  omega

theorem sorted_bEnd_lt (hs : ∀ i j, i ≤ j → j < d.length → sym d i ≤ sym d j) (i : Nat)
    (hi : i < d.length) (c : Int) (hc : c < sym d i) : bEnd d c ≤ i := by
  unfold bEnd
  rw [countPos_cut d.length i (fun j => sym d j ≤ c) (by omega)
    (fun j hj1 hj2 => by have := hs i j hj1 hj2; omega)]
  exact countPos_le _ _

end Sorted

theorem offsetLoop_length : ∀ (pos : List Int) (off : Int),
    (offsetLoop off pos).length = pos.length
  | [], _ => rfl
  | v :: pos, off => by simp [offsetLoop, offsetLoop_length pos]

theorem offsetLoop_cell : ∀ (pos : List Int) (off : Int) (c : Nat), c < pos.length →
    (∀ x ∈ pos, 0 ≤ x) → 0 ≤ off → off + pos.sum < 4294967296 →
    cell (offsetLoop off pos) c = off + (pos.take c).sum
  | [], _, _, h, _, _, _ => by simp at h
  | v :: pos, off, 0, _, _, _, _ => by simp [offsetLoop, cell]
  | v :: pos, off, c + 1, h, hp, h0, hs => by
    have hv := hp v (List.mem_cons_self _ _)
    have hsum : 0 ≤ pos.sum := List.sum_nonneg fun x hx => hp x (List.mem_cons_of_mem _ hx)
    rw [List.sum_cons] at hs
    have hmod : (off + v) % 2 ^ 32 = off + v := by
      rw [two_pow_32]; omega
    have := offsetLoop_cell pos (off + v) c (by simpa using h)
      (fun x hx => hp x (List.mem_cons_of_mem _ hx)) (by omega) (by omega)
    unfold cell at this ⊢
    simp only [offsetLoop, hmod, List.getD_cons_succ, this, List.take_succ_cons, List.sum_cons]
    omega

/-- The binary search of `inverse_bwt` on a non-decreasing table: it returns `imax`
such that the entries up to `imax` are below `t` and the entries after it are not. -/
theorem bsearch_spec (pos : List Int) (t : Int) (hlen : pos.length = 256)
    (hmono : ∀ a b : Nat, a ≤ b → b < 256 → cell pos a ≤ cell pos b) :
    ∀ (fuel : Nat) (imin imax : Int), 0 ≤ imin → imax ≤ 255 → imin ≤ imax + 1 →
      imax - imin + 1 < fuel → (∀ k : Nat, (k : Int) < imin → cell pos k < t) →
      (∀ k : Nat, imax < k → k < 256 → t ≤ cell pos k) →
      ∃ r, bsearch pos t fuel imin imax = some r ∧ -1 ≤ r ∧ r ≤ 255 ∧
        (∀ k : Nat, (k : Int) ≤ r → cell pos k < t) ∧
        (∀ k : Nat, r < k → k < 256 → t ≤ cell pos k) := by
  intro fuel
  induction fuel with
  | zero => intro imin imax _ _ _ h; omega
  | succ fuel ih =>
    intro imin imax h0 h255 hle hfuel hlow hhigh
    unfold bsearch
    by_cases hcond : imax ≥ imin
    · rw [if_pos hcond]
      obtain ⟨m, hm⟩ : ∃ m : Nat, (imax + imin) / 2 = m := ⟨((imax + imin) / 2).toNat, by omega⟩
      have hm1 : imin ≤ m := by omega
      have hm2 : (m : Int) ≤ imax := by omega
      rw [hm, rd_cell pos m (by omega), Option.some_bind]
      by_cases hlt : cell pos m < t
      · rw [if_pos hlt]
        exact ih _ _ (by omega) h255 (by omega) (by omega)
          (fun k hk => by
            have := hmono k m (by omega) (by omega)
            omega) hhigh
      · rw [if_neg hlt]
        exact ih _ _ h0 (by omega) (by omega) (by omega) hlow
          (fun k hk1 hk2 => by
            have := hmono m k (by omega) hk2
            omega)
    · rw [if_neg hcond]
      exact ⟨imax, rfl, by omega, h255, fun k hk => hlow k (by omega), hhigh⟩

theorem char_value_low (c : Int) (h : c < 128) : char_value c = c := by
  unfold char_value
  rw [if_pos h]

theorem char_value_high (c : Int) (h1 : 128 ≤ c) (h2 : c < 256) : char_value c < 0 := by
  unfold char_value
  rw [if_neg (by omega)]
  omega

theorem ValidInput.bytes {d : List Int} {n : Nat} (h : ValidInput d n 128) :
    ValidInput d n 256 :=
  ⟨h.1, fun x hx => by have := h.2 x hx; omega⟩

/-- The counting loop of `inverse_bwt`, on bytes below 128. -/
theorem posCount_loop {d : List Int} {n : Nat} (hv : ValidInput d n 128)
    (hn : n < 2147483648) :
    ∃ pos, loopUp (posCountStep d) n 0 (List.replicate 256 0) = some pos ∧ pos.length = 256 ∧
      ∀ c : Nat, c < 256 → cell pos c = countPos n fun j => sym d j = c := by
  have := loopUp_inv (posCountStep d)
    (fun i b => b.length = 256 ∧ ∀ c : Nat, c < 256 → cell b c = countPos i fun j => sym d j = c)
    n 0 (List.replicate 256 0)
    ⟨List.length_replicate _ _, fun c hc => by rw [cell_replicate _ _ _ hc, countPos_zero]; rfl⟩
    (by
      intro i b _ hi ⟨hlen, hb⟩
      have hi' : i < d.length := by rw [hv.1]; omega
      obtain ⟨h0, hk⟩ := sym_range hv i (by omega)
      obtain ⟨c, hc⟩ : ∃ c : Nat, sym d i = c := ⟨(sym d i).toNat, by omega⟩
      have hc256 : c < 256 := by omega
      have hcv : char_value (c : Int) = c := char_value_low _ (by omega)
      have hle := countPos_le i (fun j => sym d j = (c : Int))
      have hmod : (cell b c + 1) % 2 ^ 32 = cell b c + 1 := by
        rw [two_pow_32, hb c hc256]; omega
      refine ⟨b.set c (cell b c + 1), ?_, by simpa using hlen, ?_⟩
      · unfold posCountStep
        rw [rd_cell d i hi', Option.some_bind, show cell d i = sym d i from rfl, hc, hcv,
          rd_cell b c (by omega), Option.some_bind, hmod, wr_nat b c _ (by omega)]
      · intro c' hc'
        rw [cell_set, countPos_succ]
        by_cases hcc : c = c'
        · subst hcc
          rw [if_pos ⟨rfl, by omega⟩, if_pos hc, hb c hc']
          push_cast; rfl
        · rw [if_neg (fun hh => hcc hh.1), if_neg (by rw [hc]; omega), hb c' hc']
          simp)
  rw [Nat.zero_add] at this
  exact this

theorem list_eq_of_cell (a b : List Int) (hl : a.length = b.length)
    (h : ∀ x, x < a.length → cell a x = cell b x) : a = b := by
  apply List.ext_getElem hl
  intro x hx1 hx2
  rw [← cell_eq_getElem a x hx1, ← cell_eq_getElem b x hx2]
  exact h x hx1

/-- On sorted data with zero index `n`, `inverse_bwt` returns the data in reverse order. -/
theorem inverse_bwt_sorted {d : List Int} {n : Nat} (hv7 : ValidInput d n 128) (hn1 : 1 ≤ n)
    (hn : n < 2147483648) (hs : ∀ i j, i ≤ j → j < n → sym d i ≤ sym d j) :
    ∃ res, inverse_bwt d n n = some res ∧ res.length = n ∧
      ∀ x, x < n → cell res x = sym d (n - 1 - x) := by
  have hv := hv7.bytes
  obtain rfl : d.length = n := hv.1
  obtain ⟨pos, hpos, hplen, hpcnt⟩ := posCount_loop hv7 hn
  -- the bucket heads
  have hpnn : ∀ x ∈ pos, 0 ≤ x := by
    intro x hx
    rw [mem_iff_cell] at hx
    obtain ⟨c, hc, hxc⟩ := hx
    rw [← hxc, hpcnt c (by omega)]
    omega
  have hsum : pos.sum = bHead d 256 := by
    have := sum_take_counts hv pos hplen hpcnt 256 (Nat.le_refl _)
    have htk : pos.take 256 = pos := by rw [← hplen, List.take_length]
    rw [htk] at this
    exact this
  have hbh256 : bHead d 256 ≤ d.length := countPos_le _ _
  have hheads : ∀ c : Nat, c < 256 → cell (offsetLoop 0 pos) c = bHead d c := by
    intro c hc
    rw [offsetLoop_cell pos 0 c (by omega) hpnn (Int.le_refl _) (by rw [hsum]; omega),
      sum_take_counts hv pos hplen hpcnt c (by omega)]
    simp
  have hz : ((d.length : Int) % 2 ^ 32).toNat = d.length := by
    rw [two_pow_32]; omega
  have hzi : (d.length : Int) % 2 ^ 32 = d.length := by
    rw [two_pow_32]; omega
  -- the mapping table is the identity
  obtain ⟨st1, hst1, hl1, hp1, hlut, hbp⟩ := loopUp_inv (lutStep d 0)
    (fun i st => st.1.length = d.length ∧ st.2.length = 256 ∧ (∀ x, x < i → cell st.1 x = x) ∧
      ∀ c : Nat, c < 256 → cell st.2 c = bHead d c + countPos i fun j => sym d j = c)
    d.length 0 (List.replicate d.length 0, offsetLoop 0 pos)
    ⟨List.length_replicate _ _, by rw [offsetLoop_length, hplen], fun x hx => by omega,
      fun c hc => by simp only; rw [hheads c hc, countPos_zero]; simp⟩
    (by
      intro i st _ hi ⟨hl, hp, hlut, hbp⟩
      obtain ⟨lut, ps⟩ := st
      simp only at hl hp hlut hbp
      obtain ⟨h0, hk⟩ := sym_range hv7 i (by omega)
      obtain ⟨c, hc⟩ : ∃ c : Nat, sym d i = c := ⟨(sym d i).toNat, by omega⟩
      have hc256 : c < 256 := by omega
      have hcv : char_value (c : Int) = c := char_value_low _ (by omega)
      have hrank := sorted_rank (fun i j h1 h2 => hs i j h1 h2) i (by omega)
      rw [hc] at hrank
      have hpc : cell ps c = i := by rw [hbp c hc256]; omega
      have hmod1 : ((i : Int) + 0) % 2 ^ 32 = i := by rw [two_pow_32]; omega
      have hmod2 : ((i : Int) + 1) % 2 ^ 32 = i + 1 := by rw [two_pow_32]; omega
      refine ⟨(lut.set i i, ps.set c ((i : Int) + 1)), ?_, by simpa using hl, by simpa using hp,
        ?_, ?_⟩
      · unfold lutStep
        simp only
        rw [rd_cell d i (by omega), Option.some_bind, show cell d i = sym d i from rfl, hc,
          hcv, rd_cell ps c (by omega), Option.some_bind, hpc, hmod1, hmod2,
          wr_nat lut i _ (by omega), Option.some_bind, wr_nat ps c _ (by omega),
          Option.some_bind]
      · intro x hx
        simp only
        rw [cell_set]
        by_cases hix : i = x
        · rw [if_pos ⟨hix, by omega⟩, hix]
        · rw [if_neg (fun hh => hix hh.1)]
          exact hlut x (by omega)
      · intro c' hc'
        simp only
        rw [cell_set, countPos_succ]
        by_cases hcc : c = c'
        · subst hcc
          rw [if_pos ⟨rfl, by omega⟩, if_pos hc]
          push_cast; omega
        · rw [if_neg (fun hh => hcc hh.1), if_neg (by rw [hc]; omega), hbp c' hc']
          simp)
  rw [Nat.zero_add] at hlut hbp
  have hends : ∀ c : Nat, c < 256 → cell st1.2 c = bEnd d c := by
    intro c hc
    rw [hbp c hc]
    unfold bHead bEnd
    have := countPos_split d.length (fun j => sym d j ≤ (c : Int)) (fun j => sym d j < (c : Int))
      (fun j => sym d j = (c : Int)) (fun j _ => by constructor <;> omega)
    omega
  have hmono : ∀ a b : Nat, a ≤ b → b < 256 → cell st1.2 a ≤ cell st1.2 b := by
    intro a b hab hb
    rw [hends a (by omega), hends b hb]
    have := countPos_mono d.length (fun j => sym d j ≤ (a : Int)) (fun j => sym d j ≤ (b : Int))
      (fun j _ hj => by
        show sym d j ≤ (b : Int)
        have : sym d j ≤ (a : Int) := hj
        omega)
    unfold bEnd
    omega
  -- the reconstruction
  obtain ⟨st2, hst2, hl2, _, hres⟩ := loopUp_inv (decodeStep st1.2 st1.1)
    (fun i st => st.1.length = d.length ∧ st.2 = (d.length : Int) - i ∧
      ∀ x, x < i → cell st.1 x = sym d (d.length - 1 - x))
    d.length 0 (List.replicate d.length 0, (d.length : Int))
    ⟨List.length_replicate _ _, by simp, fun x hx => by omega⟩
    (by
      intro i st _ hi ⟨hl, ht, hres⟩
      obtain ⟨out, t⟩ := st
      simp only at hl ht hres
      obtain ⟨u, hu⟩ : ∃ u : Nat, u = d.length - 1 - i := ⟨_, rfl⟩
      have hut : t = (u : Int) + 1 := by omega
      obtain ⟨h0, hk⟩ := sym_range hv u (by omega)
      obtain ⟨c, hc⟩ : ∃ c : Nat, sym d u = c := ⟨(sym d u).toNat, by omega⟩
      have hc256 : c < 256 := by omega
      obtain ⟨r, hr, hr1, hr2, hlow, hhigh⟩ := bsearch_spec st1.2 t hp1 hmono 257 0 255
        (Int.le_refl _) (Int.le_refl _) (by omega) (by omega) (fun k hk => by omega)
        (fun k hk1 hk2 => by omega)
      have hge := sorted_bEnd_ge (fun i j h1 h2 => hs i j h1 h2) u (by omega)
      rw [hc] at hge
      have hrc : r + 1 = c := by
        have h1 : r < c := by
          by_contra hcon
          have := hlow c (by omega)
          rw [hends c hc256] at this
          omega
        have h2 : (c : Int) - 1 ≤ r := by
          by_contra hcon
          obtain ⟨c', hc'⟩ : ∃ c' : Nat, (c : Int) - 1 = c' := ⟨c - 1, by omega⟩
          have h3 := hhigh c' (by omega) (by omega)
          rw [hends c' (by omega)] at h3
          have h4 := sorted_bEnd_lt (fun i j h1 h2 => hs i j h1 h2) u (by omega) (c' : Int)
            (by rw [hc]; omega)
          omega
        omega
      have hmodc : (r + 1) % 256 = c := by rw [hrc]; omega
      have hmodt : (t - 1) % 2 ^ 32 = u := by rw [two_pow_32]; omega
      refine ⟨(out.set i c, (u : Int)), ?_, by simpa using hl, by simp only; omega, ?_⟩
      · unfold decodeStep
        simp only
        rw [hr, Option.some_bind, hmodc, wr_nat out i _ (by omega), Option.some_bind, hmodt,
          rd_cell st1.1 u (by omega), Option.some_bind, hlut u (by omega)]
      · intro x hx
        simp only
        rw [cell_set]
        by_cases hix : i = x
        · rw [if_pos ⟨hix, by omega⟩, ← hix, ← hu, hc]
        · rw [if_neg (fun hh => hix hh.1)]
          exact hres x (by omega))
  rw [Nat.zero_add] at hres
  refine ⟨st2.1, ?_, hl2, hres⟩
  unfold inverse_bwt
  rw [hpos, Option.some_bind, hz, hst1, Option.some_bind, Nat.sub_self]
  simp only [loopUp, Option.some_bind]
  rw [hzi, hst2, Option.some_bind]

/-- The round trip on a non-increasing sequence of bytes below 128. -/
theorem round_trip_nonIncreasing {data : List Int} {n : Nat} (hv : ValidInput data n 128)
    (hn1 : 1 ≤ n) (hn : n < 2147483648) (hm : NonIncreasing data) :
    ∃ out z, bwt data n = some (out, z) ∧ inverse_bwt out n z = some data := by
  have hd := hv.1
  obtain ⟨out, hout, hlen, hcell⟩ := bwt_nonIncreasing hd (fun x hx => hv.bytes.2 x hx) hn1 hm
  have hvo : ValidInput out n 128 := by
    refine ⟨hlen, fun x hx => ?_⟩
    rw [mem_iff_cell] at hx
    obtain ⟨m, hm', hxm⟩ := hx
    rw [hlen] at hm'
    rw [← hxm, hcell m hm']
    exact sym_range hv _ (by omega)
  have hsorted : ∀ i j, i ≤ j → j < n → sym out i ≤ sym out j := by
    intro i j hij hj
    rw [show sym out i = cell out i from rfl, show sym out j = cell out j from rfl,
      hcell i (by omega), hcell j hj]
    have := hm.le (j - i) (n - 1 - j) (by omega)
    rwa [show n - 1 - j + (j - i) = n - 1 - i by omega] at this
  obtain ⟨res, hres, hrl, hrc⟩ := inverse_bwt_sorted hvo hn1 hn hsorted
  refine ⟨out, n, hout, ?_⟩
  rw [hres]
  congr 1
  apply list_eq_of_cell res data (by omega)
  intro x hx
  rw [hrc x (by omega), show sym out (n - 1 - x) = cell out (n - 1 - x) from rfl,
    hcell _ (by omega), show n - 1 - (n - 1 - x) = x by omega]
  rfl

/-! ## The recursion -/

/-- The reduced problem is a valid input of the builder, and less than half as long. -/
theorem reduced_problem_valid {s : List Int} {n k : Nat} (hv : ValidInput s n k) (hn : 1 ≤ n)
    {s1 : List Int} {n1 k1 : Nat} (h : reduced_problem s n k = some (s1, n1, k1)) :
    ValidInput s1 n1 k1 ∧ 1 ≤ n1 ∧ 2 * n1 < n := by
  obtain ⟨t, ht, hc⟩ := classify_spec hv hn
  obtain ⟨SA1, hSA1, hI1⟩ := sort_lms_spec hv hn hc
  obtain rfl : s.length = n := hv.1
  obtain ⟨SA2, m, hSA2, hF⟩ := extract_lms_spec hI1 hc
  obtain ⟨SA3, name, nm, hSA3, hN⟩ := name_lms_spec hF hc hn
  have hm := hF.n1_eq hc
  have hhalf := lmsRank_half hc hn
  unfold reduced_problem at h
  rw [ht, Option.some_bind, hSA1, Option.some_bind, hSA2, Option.some_bind] at h
  simp only at h
  rw [hSA3, Option.some_bind] at h
  simp only at h
  by_cases hname : name < m
  · rw [if_pos hname] at h
    simp only [Option.some.injEq, Prod.mk.injEq] at h
    obtain ⟨rfl, rfl, rfl⟩ := h
    exact ⟨hN.valid hm (by omega), by have := hN.nameLe.1; omega, by omega⟩
  · rw [if_neg hname] at h; cases h

theorem recursion_level_valid {s : List Int} {n k : Nat} (hv : ValidInput s n k) (hn : 1 ≤ n) :
    ∀ (d : Nat) (s' : List Int) (n' k' : Nat), recursion_level s n k d = some (s', n', k') →
      ValidInput s' n' k' ∧ 1 ≤ n'
  | 0, s', n', k', h => by
    simp only [recursion_level, Option.some.injEq, Prod.mk.injEq] at h
    obtain ⟨rfl, rfl, rfl⟩ := h
    exact ⟨hv, hn⟩
  | d + 1, s', n', k', h => by
    simp only [recursion_level] at h
    obtain ⟨a, ha, hr⟩ := Option.bind_eq_some.mp h
    obtain ⟨a1, a2, a3⟩ := a
    obtain ⟨hv', hn'⟩ := recursion_level_valid hv hn d a1 a2 a3 ha
    obtain ⟨h1, h2, _⟩ := reduced_problem_valid hv' hn' hr
    exact ⟨h1, h2⟩

/-! ## The claims -/

/-- C3. For every symbol sequence `s` of length `n ≥ 1` with symbols in `[0, k)`,
`construct_suffix_array` returns an array that is a permutation of `0 .. n-1`: it
has `n` slots, every position occurs exactly once, and no slot is left at `-1`. -/
theorem construct_suffix_array_is_permutation (s : List Int) (n k : Nat)
    (hv : ValidInput s n k) (hn : 1 ≤ n) :
    ∃ SA, construct_suffix_array s n k = some SA ∧ IsPermutation SA n ∧ (-1 : Int) ∉ SA := by
  obtain ⟨t, SA, _, hSA, hI⟩ := construct_suffix_array_spec hv hn
  have := hI.isPermutation
  rw [hv.1] at this
  exact ⟨SA, hSA, this⟩

theorem construct_suffix_array_is_permutation_witness :
    ValidInput [2, 1, 2, 0] 4 3 ∧ 1 ≤ 4 ∧
      ∃ SA, construct_suffix_array [2, 1, 2, 0] 4 3 = some SA ∧ IsPermutation SA 4 ∧
        (-1 : Int) ∉ SA :=
  ⟨by decide, by decide,
    construct_suffix_array_is_permutation [2, 1, 2, 0] 4 3 (by decide) (by decide)⟩

/-- C10. At every level of the recursion of `construct_suffix_array` on a valid
input, if the length `n'` of the sequence at that level is at least 2, the
number `n1` of LMS positions found there (the length of the reduced problem)
satisfies `2 * n1 < n'`; and the call at that level returns. -/
theorem reduced_length_lt_half (s : List Int) (n k : Nat) (hv : ValidInput s n k) (hn : 1 ≤ n)
    (d : Nat) (s' : List Int) (n' k' : Nat) (hl : recursion_level s n k d = some (s', n', k'))
    (hn' : 2 ≤ n') :
    (∃ n1, reduced_length s' n' k' = some n1 ∧ 2 * n1 < n') ∧
    ∃ SA, construct_suffix_array s' n' k' = some SA := by
  obtain ⟨hv', _⟩ := recursion_level_valid hv hn d s' n' k' hl
  obtain ⟨t, hc, hr⟩ := reduced_length_spec hv' (by omega)
  obtain ⟨_, SA, _, hSA, _⟩ := construct_suffix_array_spec hv' (by omega)
  refine ⟨⟨_, hr, ?_⟩, SA, hSA⟩
  have := lmsRank_half hc (by rw [hv'.1]; omega)
  rwa [hv'.1] at this

theorem reduced_length_lt_half_witness :
    ValidInput [1, 0, 1, 0, 1, 1, 0, 1] 8 2 ∧ 1 ≤ 8 ∧
      recursion_level [1, 0, 1, 0, 1, 1, 0, 1] 8 2 1 = some ([0, 0, 0], 3, 1) ∧ 2 ≤ 3 ∧
      (∃ n1, reduced_length [0, 0, 0] 3 1 = some n1 ∧ 2 * n1 < 3) ∧
      ∃ SA, construct_suffix_array [0, 0, 0] 3 1 = some SA :=
  ⟨by decide, by decide, by decide!, by decide,
    reduced_length_lt_half [1, 0, 1, 0, 1, 1, 0, 1] 8 2 (by decide) (by decide) 1 [0, 0, 0] 3 1
      (by decide!) (by decide)⟩

theorem bwt_spec {data : List Int} {n : Nat} (hd : data.length = n) (hb : IsBytes data)
    (hn : 1 ≤ n) :
    ∃ SA i0, construct_suffix_array data n 256 = some SA ∧ IsPermutation SA n ∧ i0 < n ∧
      cell SA i0 = 0 ∧ (∀ i, i < n → cell SA i = 0 → i = i0) ∧
      bwt data n = some (sym data (n - 1) ::
        (SA.filter (fun v => decide (v ≠ 0))).map (fun v => sym data (v - 1).toNat),
        (i0 : Int) + 1) ∧
      (SA.filter (fun v => decide (v ≠ 0))).length + 1 = n := by
  have hv : ValidInput data n 256 := ⟨hd, fun x hx => hb x hx⟩
  obtain ⟨t, SA, _, hSA, hI⟩ := construct_suffix_array_spec hv hn
  obtain rfl := hd
  obtain ⟨i0, hi0, hz⟩ := hI.mem 0 (by omega)
  have hval : ∀ x, x < data.length → ∃ j : Nat, j < data.length ∧ cell SA x = j := by
    intro x hx
    obtain ⟨j, hj, hxj, _⟩ := hI.val x hx
    exact ⟨j, hj, hxj⟩
  have huniq : ∀ x, x < data.length → cell SA x = 0 → x = i0 := fun x hx hx0 =>
    hI.inj x i0 hx hi0 (by rw [hx0, hz]; rfl)
  obtain ⟨h1, h2⟩ := bwt_permute_spec rfl hI.lenSA hval hi0 (by rw [hz]; rfl) huniq
  refine ⟨SA, i0, hSA, hI.isPermutation.1, hi0, by rw [hz]; rfl, huniq, ?_, h2⟩
  unfold bwt
  rw [hSA, Option.some_bind, h1]

/-- C4. For every non-empty byte sequence `data` of length `n`, with `SA` the array
that `construct_suffix_array` builds for it, `bwt` writes exactly `n` bytes: the
first is `data[n-1]`, the others are `data[SA[i]-1]` over the slots `i` in
increasing order with `SA[i] ≠ 0`; and it returns `i0 + 1` for the single slot
`i0` with `SA[i0] = 0`. -/
theorem bwt_output (data : List Int) (n : Nat) (hd : data.length = n) (hb : IsBytes data)
    (hn : 1 ≤ n) :
    ∃ SA out z i0, construct_suffix_array data n 256 = some SA ∧ bwt data n = some (out, z) ∧
      out.length = n ∧
      out = sym data (n - 1) ::
        (SA.filter (fun v => decide (v ≠ 0))).map (fun v => sym data (v - 1).toNat) ∧
      i0 < n ∧ cell SA i0 = 0 ∧ (∀ i, i < n → cell SA i = 0 → i = i0) ∧ z = (i0 : Int) + 1 := by
  obtain ⟨SA, i0, hSA, _, hi0, hz, huniq, hbwt, hlen⟩ := bwt_spec hd hb hn
  exact ⟨SA, _, _, i0, hSA, hbwt, by rw [List.length_cons, List.length_map]; exact hlen, rfl,
    hi0, hz, huniq, rfl⟩

theorem bwt_output_witness :
    [98, 97, 110, 97, 110, 97].length = 6 ∧ IsBytes [98, 97, 110, 97, 110, 97] ∧ 1 ≤ 6 ∧
    ∃ SA out z i0, construct_suffix_array [98, 97, 110, 97, 110, 97] 6 256 = some SA ∧
      bwt [98, 97, 110, 97, 110, 97] 6 = some (out, z) ∧ out.length = 6 ∧
      out = sym [98, 97, 110, 97, 110, 97] (6 - 1) ::
        (SA.filter (fun v => decide (v ≠ 0))).map
          (fun v => sym [98, 97, 110, 97, 110, 97] (v - 1).toNat) ∧
      i0 < 6 ∧ cell SA i0 = 0 ∧ (∀ i, i < 6 → cell SA i = 0 → i = i0) ∧ z = (i0 : Int) + 1 :=
  ⟨by decide, by decide, by decide,
    bwt_output [98, 97, 110, 97, 110, 97] 6 (by decide) (by decide) (by decide)⟩

/-- C5, as stated, fails: for the one-byte sequence `[0]` (`n = 1`) the zero index
returned by `bwt` is `1`, which is not below `n`. -/
theorem bwt_zero_index_counterexample :
    ∃ out z, bwt [0] 1 = some (out, z) ∧ ¬ (0 ≤ z ∧ z < (1 : Int)) :=
  ⟨[0], 1, by decide!, by decide⟩

/-- C5, amended. For every byte sequence of length `n ≥ 1`, `bwt` returns a zero
index `z` with `1 ≤ z ≤ n`. -/
theorem bwt_zero_index_range (data : List Int) (n : Nat) (hd : data.length = n)
    (hb : IsBytes data) (hn : 1 ≤ n) :
    ∃ out z, bwt data n = some (out, z) ∧ 1 ≤ z ∧ z ≤ n := by
  obtain ⟨SA, i0, _, _, hi0, _, _, hbwt, _⟩ := bwt_spec hd hb hn
  exact ⟨_, _, hbwt, by omega, by omega⟩

theorem bwt_zero_index_range_witness :
    [7, 7].length = 2 ∧ IsBytes [7, 7] ∧ 1 ≤ 2 ∧
      ∃ out z, bwt [7, 7] 2 = some (out, z) ∧ 1 ≤ z ∧ z ≤ ((2 : Nat) : Int) :=
  ⟨by decide, by decide, by decide, bwt_zero_index_range [7, 7] 2 (by decide) (by decide)
    (by decide)⟩

/-- C6. For every byte sequence of length `n ≥ 1`, `bwt` succeeds: it returns a
zero index in `[0, n]`, never the failure value `-1`. -/
theorem bwt_succeeds (data : List Int) (n : Nat) (hd : data.length = n) (hb : IsBytes data)
    (hn : 1 ≤ n) :
    ∃ out z, bwt data n = some (out, z) ∧ 0 ≤ z ∧ z ≤ n ∧ z ≠ -1 := by
  obtain ⟨SA, i0, _, _, hi0, _, _, hbwt, _⟩ := bwt_spec hd hb hn
  exact ⟨_, _, hbwt, by omega, by omega, by omega⟩

theorem bwt_succeeds_witness :
    [255, 0, 255].length = 3 ∧ IsBytes [255, 0, 255] ∧ 1 ≤ 3 ∧
      ∃ out z, bwt [255, 0, 255] 3 = some (out, z) ∧ 0 ≤ z ∧ z ≤ ((3 : Nat) : Int) ∧ z ≠ -1 :=
  ⟨by decide, by decide, by decide, bwt_succeeds [255, 0, 255] 3 (by decide) (by decide)
    (by decide)⟩

/-- C7. On the six bytes of "banana", with alphabet size 256,
`construct_suffix_array` produces the suffix array `[5, 3, 1, 0, 4, 2]`. -/
theorem construct_suffix_array_banana :
    construct_suffix_array [98, 97, 110, 97, 110, 97] 6 256 = some [5, 3, 1, 0, 4, 2] := by
  decide!

/-- C2 fails on the code. On the eight bytes `1 0 1 0 1 1 0 1` the builder returns
`[6, 1, 3, 7, 5, 2, 0, 4]`: slot 5 holds position 2 and slot 6 holds position 0,
but the suffix at 2 (`1 0 1 1 0 1`) is larger than the suffix at 0. -/
theorem construct_suffix_array_unsorted :
    construct_suffix_array [1, 0, 1, 0, 1, 1, 0, 1] 8 256 = some [6, 1, 3, 7, 5, 2, 0, 4] ∧
    ¬ (([1, 0, 1, 0, 1, 1, 0, 1] : List Int).drop 2 ≤ ([1, 0, 1, 0, 1, 1, 0, 1] : List Int).drop 0) :=
  ⟨by decide!, by decide⟩

/-- C1 fails on the code. For the eleven bytes `1 0 1 0 1 1 0 1 1 0 1`, `bwt` returns
the bytes `1 1 1 1 1 0 1 1 0 0 0` and the zero index 9, and `inverse_bwt` on these
returns `1 0 1 1 0 1 0 1 1 0 1`, which is not the input. -/
theorem bwt_round_trip_fails :
    bwt [1, 0, 1, 0, 1, 1, 0, 1, 1, 0, 1] 11 = some ([1, 1, 1, 1, 1, 0, 1, 1, 0, 0, 0], 9) ∧
    inverse_bwt [1, 1, 1, 1, 1, 0, 1, 1, 0, 0, 0] 11 9 = some [1, 0, 1, 1, 0, 1, 0, 1, 1, 0, 1] ∧
    ([1, 0, 1, 1, 0, 1, 0, 1, 1, 0, 1] : List Int) ≠ [1, 0, 1, 0, 1, 1, 0, 1, 1, 0, 1] :=
  ⟨by decide!, by decide!, by decide⟩

/-! ## Bytes from 128 on in the decoder -/

theorem rd_negative (a : List Int) (i : Int) (h : i < 0) : rd a i = none := by
  unfold rd
  rw [if_neg (by omega)]

/-- The counting loop of `inverse_bwt` leaves `pos` at the first byte from 128 on:
the plain `char` index is negative. -/
theorem posCount_fault (d : List Int) : ∀ (cnt lo : Nat) (pos : List Int), pos.length = 256 →
    lo + cnt ≤ d.length → (∀ j, lo ≤ j → j < lo + cnt → 0 ≤ sym d j ∧ sym d j < 256) →
    (∃ j, lo ≤ j ∧ j < lo + cnt ∧ 128 ≤ sym d j) →
    loopUp (posCountStep d) cnt lo pos = none
  | 0, lo, _, _, _, _, hex => by
    obtain ⟨j, h1, h2, _⟩ := hex
    omega
  | cnt + 1, lo, pos, hlen, hle, hrng, hex => by
    obtain ⟨h0, h256⟩ := hrng lo (Nat.le_refl _) (by omega)
    show (posCountStep d lo pos).bind (loopUp (posCountStep d) cnt (lo + 1)) = none
    unfold posCountStep
    rw [rd_cell d lo (by omega), Option.some_bind, show cell d lo = sym d lo from rfl]
    by_cases hhigh : 128 ≤ sym d lo
    · rw [rd_negative pos _ (char_value_high _ hhigh h256)]
      rfl
    · obtain ⟨c, hc⟩ : ∃ c : Nat, sym d lo = c := ⟨(sym d lo).toNat, by omega⟩
      rw [hc, char_value_low _ (by omega), rd_cell pos c (by omega), Option.some_bind,
        wr_nat pos c _ (by omega), Option.some_bind]
      apply posCount_fault d cnt (lo + 1) _ (by simpa using hlen) (by omega)
        (fun j hj1 hj2 => hrng j (by omega) (by omega))
      obtain ⟨j, hj1, hj2, hj3⟩ := hex
      refine ⟨j, ?_, by omega, hj3⟩
      by_contra hcon
      have : j = lo := by omega
      rw [this] at hj3
      exact hhigh hj3

/-- On data with a byte from 128 on, `inverse_bwt` leaves `pos` in its first loop,
whatever the zero index. -/
theorem inverse_bwt_fault {d : List Int} {n : Nat} (hv : ValidInput d n 256) (z : Int)
    (hex : ∃ j, j < n ∧ 128 ≤ sym d j) : inverse_bwt d n z = none := by
  obtain ⟨j, hj, hj2⟩ := hex
  unfold inverse_bwt
  rw [posCount_fault d n 0 _ (List.length_replicate _ _) (by rw [hv.1]; omega)
    (fun j _ hj => sym_range hv j (by omega)) ⟨j, Nat.zero_le _, by omega, hj2⟩]
  rfl

/-- C8 fails on the code.  Three copies of the byte 200: `bwt` returns the same
three bytes with the zero index 3, and `inverse_bwt` on these does not return:
its counting loop `++pos[data[i]]` indexes `pos` with the plain `char` value
`200 - 256 = -56`. -/
theorem bwt_round_trip_constant_fails :
    bwt (List.replicate 3 200) 3 = some (List.replicate 3 200, 3) ∧
    char_value 200 = -56 ∧
    posCountStep (List.replicate 3 200) 0 (List.replicate 256 0) = none ∧
    inverse_bwt (List.replicate 3 200) 3 3 = none :=
  ⟨by decide!, by decide, by decide!, by decide!⟩

theorem reversed_bytes_nonIncreasing :
    NonIncreasing ((List.range 256).map fun i : Nat => (255 : Int) - i) := by
  intro i hi
  rw [List.length_map, List.length_range] at hi
  have h1 : sym ((List.range 256).map fun i : Nat => (255 : Int) - i) (i + 1)
      = (255 : Int) - ((i + 1 : Nat) : Int) := by
    unfold sym
    rw [List.getD_eq_getElem _ _ (by rw [List.length_map, List.length_range]; omega),
      List.getElem_map, List.getElem_range]
  have h2 : sym ((List.range 256).map fun i : Nat => (255 : Int) - i) i
      = (255 : Int) - (i : Int) := by
    unfold sym
    rw [List.getD_eq_getElem _ _ (by rw [List.length_map, List.length_range]; omega),
      List.getElem_map, List.getElem_range]
  rw [h1, h2]
  omega

/-- C9 fails on the code.  For the 256 bytes `255, 254, …, 1, 0`, `bwt` returns the
bytes `0, 1, …, 255` with the zero index 256, and `inverse_bwt` on these does not
return: at the byte 128 its counting loop `++pos[data[i]]` indexes `pos` with
the plain `char` value `-128`. -/
theorem bwt_round_trip_reversed_bytes_fails :
    bwt ((List.range 256).map fun i : Nat => (255 : Int) - i) 256
      = some ((List.range 256).map fun i : Nat => (i : Int), 256) ∧
    char_value 128 = -128 ∧
    inverse_bwt ((List.range 256).map fun i : Nat => (i : Int)) 256 256 = none := by
  have hlenS : ((List.range 256).map fun i : Nat => (255 : Int) - i).length = 256 := by
    rw [List.length_map, List.length_range]
  have hbS : IsBytes ((List.range 256).map fun i : Nat => (255 : Int) - i) := by
    intro x hx
    rw [List.mem_map] at hx
    obtain ⟨a, ha, rfl⟩ := hx
    rw [List.mem_range] at ha
    omega
  have hlenO : ((List.range 256).map fun i : Nat => (i : Int)).length = 256 := by
    rw [List.length_map, List.length_range]
  have hcellO : ∀ m, m < 256 → cell ((List.range 256).map fun i : Nat => (i : Int)) m = m := by
    intro m hm
    rw [cell_eq_getElem _ _ (by rw [hlenO]; exact hm), List.getElem_map, List.getElem_range]
  obtain ⟨out, hout, hlen, hcell⟩ := bwt_nonIncreasing hlenS hbS (by decide)
    reversed_bytes_nonIncreasing
  have hout_eq : out = (List.range 256).map fun i : Nat => (i : Int) := by
    apply list_eq_of_cell out _ (by rw [hlen, hlenO])
    intro m hm
    rw [hlen] at hm
    rw [hcell m hm, hcellO m hm, show sym _ (256 - 1 - m) = cell _ (256 - 1 - m) from rfl,
      cell_eq_getElem _ _ (by rw [hlenS]; omega), List.getElem_map, List.getElem_range]
    omega
  rw [hout_eq] at hout
  refine ⟨hout, by decide, ?_⟩
  apply inverse_bwt_fault (n := 256) ⟨hlenO, ?_⟩ 256 ⟨128, by decide, ?_⟩
  · intro x hx
    rw [List.mem_map] at hx
    obtain ⟨a, ha, rfl⟩ := hx
    rw [List.mem_range] at ha
    omega
  · rw [show sym _ 128 = cell _ 128 from rfl, hcellO 128 (by decide)]
    decide

/-! ## Suffix order -/

theorem cons_lt_cons (a b : Int) (as bs : List Int) :
    a :: as < b :: bs ↔ a < b ∨ (a = b ∧ as < bs) := by
  constructor
  · intro h
    cases h with
    | cons h => exact Or.inr ⟨rfl, h⟩
    | rel h => exact Or.inl h
  · rintro (h | ⟨rfl, h⟩)
    · exact List.Lex.rel h
    · exact List.Lex.cons h

theorem drop_eq_sym_cons (s : List Int) (p : Nat) (hp : p < s.length) :
    s.drop p = sym s p :: s.drop (p + 1) := by
  rw [List.drop_eq_getElem_cons hp, show sym s p = cell s p from rfl, cell_eq_getElem s p hp]

/-- Comparison of two suffixes by their first symbols. -/
theorem drop_lt_drop (s : List Int) (p q : Nat) (hp : p < s.length) (hq : q < s.length) :
    s.drop p < s.drop q ↔
      sym s p < sym s q ∨ (sym s p = sym s q ∧ s.drop (p + 1) < s.drop (q + 1)) := by
  rw [drop_eq_sym_cons s p hp, drop_eq_sym_cons s q hq, cons_lt_cons]

theorem not_lt_nil (l : List Int) : ¬ l < [] := by
  intro h
  cases h

theorem nil_lt_drop (s : List Int) (q : Nat) (hq : q < s.length) : [] < s.drop q := by
  rw [drop_eq_sym_cons s q hq]
  exact List.Lex.nil

/-- The type of a position decides the order of its suffix and the next one. -/
theorem typ_iff_drop_lt {s : List Int} {t : List Bool} (hc : Classified s t) :
    ∀ (d i : Nat), i + d + 1 = s.length → (typ t i = true ↔ s.drop i < s.drop (i + 1))
  | 0, i, h => by
    have h1 : typ t i = false := by
      have := hc.2.1
      rwa [show s.length - 1 = i by omega] at this
    rw [h1, List.drop_of_length_le (show s.length ≤ i + 1 by omega)]
    constructor
    · intro hh; cases hh
    · intro hh; exact absurd hh (not_lt_nil _)
  | d + 1, i, h => by
    have ih := typ_iff_drop_lt hc d (i + 1) (by omega)
    rw [drop_lt_drop s i (i + 1) (by omega) (by omega), hc.2.2 i (by omega), ← ih]
    simp only [Bool.or_eq_true, decide_eq_true_eq, Bool.and_eq_true]

/-! ## The array as a rearrangement of the positions -/

theorem IsPermutation.perm_range {SA : List Int} {n : Nat} (h : IsPermutation SA n) :
    ((List.range n).map Int.ofNat).Perm SA := by
  apply List.Subperm.perm_of_length_le
  · apply List.subperm_of_subset
    · exact (List.nodup_range n).map fun a b hab => by
        have : (a : Int) = b := hab
        omega
    · intro v hv
      rw [List.mem_map] at hv
      obtain ⟨j, hj, rfl⟩ := hv
      rw [List.mem_range] at hj
      have := h.2 j hj
      exact List.count_pos_iff.mp (by
        show 0 < List.count (j : Int) SA
        omega)
  · rw [List.length_map, List.length_range, h.1]

theorem map_sym_range (data : List Int) : ∀ m, m ≤ data.length →
    (List.range m).map (fun i => sym data i) = data.take m
  | 0, _ => rfl
  | m + 1, h => by
    rw [List.range_succ, List.map_append, map_sym_range data m (by omega), List.map_singleton,
      show sym data m = cell data m from rfl, take_succ_cell data m (by omega)]

theorem filter_map_range (data : List Int) (m : Nat) :
    (((List.range (m + 1)).map Int.ofNat).filter fun v => decide (v ≠ 0)).map
      (fun v => sym data (v - 1).toNat) = (List.range m).map fun i => sym data i := by
  rw [List.range_succ_eq_map, List.map_cons, List.filter_cons_of_neg (by simp), List.map_map,
    List.filter_eq_self.mpr, List.map_map]
  · apply List.map_congr_left
    intro i _
    show sym data (((i + 1 : Nat) : Int) - 1).toNat = sym data i
    rw [show (((i + 1 : Nat) : Int) - 1).toNat = i by omega]
  · intro v hv
    rw [List.mem_map] at hv
    obtain ⟨i, _, rfl⟩ := hv
    have : ((i + 1 : Nat) : Int) ≠ 0 := by omega
    simpa using this

/-- The bytes written by the permutation loop are a rearrangement of the data. -/
theorem bwt_bytes_perm {data SA : List Int} {n : Nat} (hd : data.length = n) (hn : 1 ≤ n)
    (hP : IsPermutation SA n) :
    (sym data (n - 1) ::
      (SA.filter (fun v => decide (v ≠ 0))).map (fun v => sym data (v - 1).toNat)).Perm data := by
  obtain ⟨m, rfl⟩ : ∃ m, n = m + 1 := ⟨n - 1, by omega⟩
  have h1 := ((hP.perm_range.filter fun v => decide (v ≠ 0)).map fun v => sym data (v - 1).toNat).symm
  rw [filter_map_range, map_sym_range data m (by omega)] at h1
  have h2 : data = data.take m ++ [sym data m] := by
    have := take_succ_cell data m (by omega)
    rw [← hd, List.take_length] at this
    exact this
  rw [Nat.add_sub_cancel]
  refine (List.Perm.cons _ h1).trans ?_
  rw [← List.singleton_append]
  refine List.perm_append_comm.trans ?_
  rw [← h2]

/-! ## Claims on the classification, the buckets, the binary search and the output -/

/-- C14. For every symbol sequence of length `n ≥ 1`, the bitmap computed at the
start of `construct_suffix_array` marks position `n-1` as L-type, and marks each
position `i < n-1` as S-type exactly when the suffix starting at `i` is smaller
than the suffix starting at `i+1` in lexicographic order, a proper prefix being
smaller. -/
theorem classify_suffix_order (s : List Int) (n k : Nat) (hv : ValidInput s n k) (hn : 1 ≤ n) :
    ∃ t, classify s n = some t ∧ t.length = n ∧ typ t (n - 1) = false ∧
      ∀ i, i + 1 < n → (typ t i = true ↔ s.drop i < s.drop (i + 1)) := by
  obtain ⟨t, ht, hc⟩ := classify_spec hv hn
  obtain rfl : s.length = n := hv.1
  exact ⟨t, ht, hc.1, hc.2.1, fun i hi =>
    typ_iff_drop_lt hc (s.length - i - 1) i (by omega)⟩

theorem classify_suffix_order_witness :
    ValidInput [98, 97, 110, 97, 110, 97] 6 256 ∧ 1 ≤ 6 ∧
      ∃ t, classify [98, 97, 110, 97, 110, 97] 6 = some t ∧ t.length = 6 ∧
        typ t (6 - 1) = false ∧ ∀ i, i + 1 < 6 →
          (typ t i = true ↔
            ([98, 97, 110, 97, 110, 97] : List Int).drop i <
              ([98, 97, 110, 97, 110, 97] : List Int).drop (i + 1)) :=
  ⟨by decide, by decide,
    classify_suffix_order [98, 97, 110, 97, 110, 97] 6 256 (by decide) (by decide)⟩

/-- C16. For every table `pos` of 256 entries that is non-decreasing and every `t`
with `t ≤ pos[255]`, the search loop of `inverse_bwt` ends, and `imax + 1` is then
the smallest `k` in `[0, 255]` with `pos[k] ≥ t`. -/
theorem bsearch_smallest (pos : List Int) (t : Int) (hlen : pos.length = 256)
    (hmono : ∀ a b : Nat, a ≤ b → b < 256 → cell pos a ≤ cell pos b) (ht : t ≤ cell pos 255) :
    ∃ imax, bsearch pos t 257 0 255 = some imax ∧ 0 ≤ imax + 1 ∧ imax + 1 ≤ 255 ∧
      t ≤ cell pos (imax + 1).toNat ∧ ∀ k : Nat, k < 256 → t ≤ cell pos k → imax + 1 ≤ k := by
  obtain ⟨r, hr, h1, h2, hlow, hhigh⟩ := bsearch_spec pos t hlen hmono 257 0 255
    (Int.le_refl _) (Int.le_refl _) (by omega) (by omega) (fun k hk => by omega)
    (fun k hk1 hk2 => by omega)
  have h3 : r < 255 := by
    by_contra hcon
    have := hlow 255 (by omega)
    omega
  refine ⟨r, hr, by omega, by omega, hhigh (r + 1).toNat (by omega) (by omega), ?_⟩
  intro k hk hkt
  by_contra hcon
  have := hlow k (by omega)
  omega

theorem cell_map_range (f : Nat → Int) (m a : Nat) (ha : a < m) :
    cell ((List.range m).map f) a = f a := by
  rw [cell_eq_getElem _ _ (by rw [List.length_map, List.length_range]; exact ha),
    List.getElem_map, List.getElem_range]

theorem bsearch_smallest_witness :
    ((List.range 256).map fun i : Nat => (2 : Int) * i).length = 256 ∧
      (7 : Int) ≤ cell ((List.range 256).map fun i : Nat => (2 : Int) * i) 255 ∧
      ∃ imax, bsearch ((List.range 256).map fun i : Nat => (2 : Int) * i) 7 257 0 255
          = some imax ∧ 0 ≤ imax + 1 ∧ imax + 1 ≤ 255 ∧
        7 ≤ cell ((List.range 256).map fun i : Nat => (2 : Int) * i) (imax + 1).toNat ∧
        ∀ k : Nat, k < 256 →
          7 ≤ cell ((List.range 256).map fun i : Nat => (2 : Int) * i) k → imax + 1 ≤ k :=
  ⟨by rw [List.length_map, List.length_range],
    by rw [cell_map_range _ _ _ (by decide)]; decide,
    bsearch_smallest ((List.range 256).map fun i : Nat => (2 : Int) * i) 7
      (by rw [List.length_map, List.length_range])
      (fun a b hab hb => by
        rw [cell_map_range _ _ _ (by omega), cell_map_range _ _ _ hb]
        omega)
      (by rw [cell_map_range _ _ _ (by decide)]; decide)⟩

/-- C17. For every sequence of length `n` with symbols in `[0, k)` and every symbol
`c < k`, `get_buckets` with `tail` false sets `bucket[c]` to the number of symbols
of the sequence that are smaller than `c`, and with `tail` true to the number of
symbols that are at most `c`, minus one. -/
theorem get_buckets_boundaries (s : List Int) (n k : Nat) (hv : ValidInput s n k) (c : Nat)
    (hc : c < k) :
    (∃ bucket, get_buckets s n k false = some bucket ∧ bucket.length = k ∧
      cell bucket c = (countPos n fun j => sym s j < (c : Int))) ∧
    (∃ bucket, get_buckets s n k true = some bucket ∧ bucket.length = k ∧
      cell bucket c = ((countPos n fun j => sym s j ≤ (c : Int)) : Int) - 1) := by
  obtain ⟨b1, hb1, hl1, hc1⟩ := get_buckets_spec hv false
  obtain ⟨b2, hb2, hl2, hc2⟩ := get_buckets_spec hv true
  have h1 := hc1 c (by omega) (by omega)
  have h2 := hc2 c (by omega) (by omega)
  rw [Int.toNat_ofNat] at h1 h2
  obtain rfl : s.length = n := hv.1
  exact ⟨⟨b1, hb1, hl1, h1⟩, ⟨b2, hb2, hl2, h2⟩⟩

theorem get_buckets_boundaries_witness :
    ValidInput [2, 0, 2, 1] 4 3 ∧ 2 < 3 ∧
    (∃ bucket, get_buckets [2, 0, 2, 1] 4 3 false = some bucket ∧ bucket.length = 3 ∧
      cell bucket 2 = (countPos 4 fun j => sym [2, 0, 2, 1] j < ((2 : Nat) : Int))) ∧
    (∃ bucket, get_buckets [2, 0, 2, 1] 4 3 true = some bucket ∧ bucket.length = 3 ∧
      cell bucket 2 = ((countPos 4 fun j => sym [2, 0, 2, 1] j ≤ ((2 : Nat) : Int)) : Int) - 1) :=
  ⟨by decide, by decide, get_buckets_boundaries [2, 0, 2, 1] 4 3 (by decide) 2 (by decide)⟩

/-- C18. For every non-empty byte sequence of length `n`, the `n` bytes that `bwt`
writes to `out` are a rearrangement of the input: the same values, each as often. -/
theorem bwt_output_is_rearrangement (data : List Int) (n : Nat) (hd : data.length = n)
    (hb : IsBytes data) (hn : 1 ≤ n) :
    ∃ out z, bwt data n = some (out, z) ∧ out.length = n ∧ out.Perm data := by
  obtain ⟨SA, i0, _, hP, _, _, _, hbwt, _⟩ := bwt_spec hd hb hn
  have hperm := bwt_bytes_perm hd hn hP
  exact ⟨_, _, hbwt, by rw [hperm.length_eq, hd], hperm⟩

theorem bwt_output_is_rearrangement_witness :
    ([98, 97, 110, 97, 110, 97] : List Int).length = 6 ∧ IsBytes [98, 97, 110, 97, 110, 97] ∧
      1 ≤ 6 ∧ ∃ out z, bwt [98, 97, 110, 97, 110, 97] 6 = some (out, z) ∧ out.length = 6 ∧
        out.Perm [98, 97, 110, 97, 110, 97] :=
  ⟨by decide, by decide, by decide,
    bwt_output_is_rearrangement [98, 97, 110, 97, 110, 97] 6 (by decide) (by decide)
      (by decide)⟩

/-! ## The reduced problem -/

/-- The compaction loop after a given run of the naming loop. -/
theorem name_lms_of_sparse {s : List Int} {t : List Bool} {SA0 : List Int} {n1 : Nat}
    (hF : LmsFront s t SA0 n1) (hc : Classified s t) (hn : 0 < s.length)
    {st : List Int × Int × Int} {nm : Nat → Int}
    (hst : loopUp (nameStep t s s.length n1) n1 0 (SA0, 0, -1) = some st)
    (hN : NamedSparse s t st.1 n1 st.2.1 nm) :
    ∃ SA, name_lms t s SA0 s.length n1 = some (SA, st.2.1) ∧ Named s t SA n1 st.2.1 nm := by
  have hn1 := hF.n1_eq hc
  have hhalf := lmsRank_half hc hn
  obtain ⟨st2, hst2, hinv⟩ := loopDown_inv compactStep
    (fun i st2 => CompInv s t st.1 n1 nm i st2.1 st2.2) n1 (s.length - n1)
    (st.1, (s.length : Int) - 1)
    (by
      rw [show n1 + (s.length - n1) = s.length by omega]
      refine ⟨hN.lenSA, ?_, fun _ _ => rfl, ?_⟩
      · have := lmsRank_ge hc (2 * (s.length - n1) - s.length)
        rw [show s.length + (2 * (s.length - n1) - s.length) = 2 * (s.length - n1) by omega]
          at this
        simp only
        rw [this]; omega
      · intro p hM hp
        have := LMS_lt hc hM
        omega)
    (fun i st2 hi1 hi2 h => compactStep_spec hN hn1 hc hi1 (by omega) st2 h)
  refine ⟨st2.1, by simp [name_lms, hst, hst2], ?_⟩
  exact ⟨hinv.lenSA, hN.nameLe, fun p hM => hinv.done p hM (by omega), hN.rng, hN.monoSym,
    hN.surj⟩

/-- The arguments of the recursive call, traced back to the naming loop. -/
theorem reduced_problem_spec {s : List Int} {n k : Nat} (hv : ValidInput s n k) (hn : 1 ≤ n)
    {s1 : List Int} {n1 name : Nat} (h : reduced_problem s n k = some (s1, n1, name)) :
    ∃ t SA e st, classify s n = some t ∧ sort_lms t s n k = some SA ∧
      extract_lms t SA n = some (e, n1) ∧
      loopUp (nameStep t s n n1) n1 0 (e, 0, -1) = some st ∧ st.2.1 = (name : Int) ∧
      name < n1 ∧ n1 = lmsRank t n ∧ s1.length = n1 ∧
      (∀ p, LMS t p → cell s1 (lmsRank t p) = cell st.1 (n1 + p / 2)) ∧
      ∀ x ∈ s1, 0 ≤ x ∧ x < (name : Int) := by
  obtain ⟨t, ht, hc⟩ := classify_spec hv hn
  obtain ⟨SA1, hSA1, hI1⟩ := sort_lms_spec hv hn hc
  obtain rfl : s.length = n := hv.1
  obtain ⟨SA2, m, hSA2, hF⟩ := extract_lms_spec hI1 hc
  obtain ⟨st, nm, hst, hNS⟩ := name_loop_spec hF hc
  obtain ⟨SA3, hSA3, hN⟩ := name_lms_of_sparse hF hc hn hst hNS
  have hm := hF.n1_eq hc
  have hhalf := lmsRank_half hc hn
  unfold reduced_problem at h
  rw [ht, Option.some_bind, hSA1, Option.some_bind, hSA2, Option.some_bind] at h
  simp only at h
  rw [hSA3, Option.some_bind] at h
  simp only at h
  by_cases hname : st.2.1 < m
  · rw [if_pos hname] at h
    simp only [Option.some.injEq, Prod.mk.injEq] at h
    obtain ⟨rfl, rfl, rfl⟩ := h
    have hnn := hN.nameLe.1
    have hval := hN.valid hm (by omega)
    refine ⟨t, SA1, SA2, st, ht, hSA1, hSA2, hst, by omega, by omega, hm, hval.1, ?_, ?_⟩
    · intro p hM
      have hlt := lmsRank_lt hc hM
      rw [cell_drop, hN.slot p hM, ← hNS.slot p hM]
    · intro x hx
      have := hval.2 x hx
      omega
  · rw [if_neg hname] at h; cases h

/-- C19. Whenever `construct_suffix_array` recurses (`name < n1`), at any level of
the recursion on a valid input, the reduced sequence `s1` it passes has exactly
`n1 ≥ 1` entries, `n1` being the number of LMS positions; the entry at index `m`
is the name that the naming loop stored for the `m`-th LMS position from the
left; and every entry lies in `[0, name)`.  So the recursive call is made on a
valid input of length at least 1. -/
theorem reduced_problem_precondition (s : List Int) (n k : Nat) (hv : ValidInput s n k)
    (hn : 1 ≤ n) (d : Nat) (s' : List Int) (n' k' : Nat)
    (hl : recursion_level s n k d = some (s', n', k')) (s1 : List Int) (n1 name : Nat)
    (h : reduced_problem s' n' k' = some (s1, n1, name)) :
    (∃ t SA e st, classify s' n' = some t ∧ sort_lms t s' n' k' = some SA ∧
      extract_lms t SA n' = some (e, n1) ∧
      loopUp (nameStep t s' n' n1) n1 0 (e, 0, -1) = some st ∧ st.2.1 = (name : Int) ∧
      name < n1 ∧ n1 = lmsRank t n' ∧ s1.length = n1 ∧
      (∀ p, LMS t p → cell s1 (lmsRank t p) = cell st.1 (n1 + p / 2)) ∧
      ∀ x ∈ s1, 0 ≤ x ∧ x < (name : Int)) ∧
    1 ≤ n1 ∧ ValidInput s1 n1 name := by
  obtain ⟨hv', hn'⟩ := recursion_level_valid hv hn d s' n' k' hl
  obtain ⟨h1, h2, _⟩ := reduced_problem_valid hv' hn' h
  exact ⟨reduced_problem_spec hv' hn' h, h2, h1⟩

theorem reduced_problem_precondition_witness :
    ValidInput [2, 1, 3, 1, 3, 1, 2, 1, 3, 1] 10 4 ∧ 1 ≤ 10 ∧
    recursion_level [2, 1, 3, 1, 3, 1, 2, 1, 3, 1] 10 4 0
      = some ([2, 1, 3, 1, 3, 1, 2, 1, 3, 1], 10, 4) ∧
    reduced_problem [2, 1, 3, 1, 3, 1, 2, 1, 3, 1] 10 4 = some ([2, 2, 0, 1], 4, 3) ∧
    (∃ t SA e st, classify [2, 1, 3, 1, 3, 1, 2, 1, 3, 1] 10 = some t ∧
      sort_lms t [2, 1, 3, 1, 3, 1, 2, 1, 3, 1] 10 4 = some SA ∧
      extract_lms t SA 10 = some (e, 4) ∧
      loopUp (nameStep t [2, 1, 3, 1, 3, 1, 2, 1, 3, 1] 10 4) 4 0 (e, 0, -1) = some st ∧
      st.2.1 = ((3 : Nat) : Int) ∧
      3 < 4 ∧ 4 = lmsRank t 10 ∧ ([2, 2, 0, 1] : List Int).length = 4 ∧
      (∀ p, LMS t p → cell [2, 2, 0, 1] (lmsRank t p) = cell st.1 (4 + p / 2)) ∧
      ∀ x ∈ ([2, 2, 0, 1] : List Int), 0 ≤ x ∧ x < ((3 : Nat) : Int)) ∧
    1 ≤ 4 ∧ ValidInput [2, 2, 0, 1] 4 3 :=
  ⟨by decide, by decide, by decide, by decide!,
    reduced_problem_precondition [2, 1, 3, 1, 3, 1, 2, 1, 3, 1] 10 4 (by decide) (by decide) 0
      [2, 1, 3, 1, 3, 1, 2, 1, 3, 1] 10 4 (by decide) [2, 2, 0, 1] 4 3 (by decide!)⟩

/-- C15 fails on the code. On the eight symbols `1 0 1 0 1 1 0 1` the LMS positions
are 1, 3 and 6 and their LMS substrings are `0 1 0`, `0 1 1 0` and `0 1`, of three
different lengths; the naming loop stores the name of position `p` in slot
`n1 + p/2`, and it leaves the same name `0` in the slots 3, 4 and 6. -/
theorem name_lms_merges_distinct_substrings :
    classify [1, 0, 1, 0, 1, 1, 0, 1] 8
      = some [false, true, false, true, false, false, true, false] ∧
    ((sort_lms [false, true, false, true, false, false, true, false]
        [1, 0, 1, 0, 1, 1, 0, 1] 8 256).bind fun SA =>
      extract_lms [false, true, false, true, false, false, true, false] SA 8)
      = some ([6, 1, 3, -1, -1, -1, -1, -1], 3) ∧
    loopUp (nameStep [false, true, false, true, false, false, true, false]
        [1, 0, 1, 0, 1, 1, 0, 1] 8 3) 3 0 ([6, 1, 3, -1, -1, -1, -1, -1], 0, -1)
      = some ([6, 1, 3, 0, 0, -1, 0, -1], 1, 6) ∧
    lmsSubstring [1, 0, 1, 0, 1, 1, 0, 1] [false, true, false, true, false, false, true, false] 1
      = [(0, true), (1, false), (0, true)] ∧
    lmsSubstring [1, 0, 1, 0, 1, 1, 0, 1] [false, true, false, true, false, false, true, false] 3
      = [(0, true), (1, false), (1, false), (0, true)] ∧
    lmsSubstring [1, 0, 1, 0, 1, 1, 0, 1] [false, true, false, true, false, false, true, false] 6
      = [(0, true), (1, false)] :=
  ⟨by decide!, by decide!, by decide!, by decide!, by decide!, by decide!⟩

/-! ## CRC-32: the table against the bit-by-bit definition -/

/-- The branch-free round of the table loop is the conditional XOR of the polynomial. -/
theorem crc32_lut_round_eq (v : Nat) : crc32_lut_round v = crc32_reference_bit v := by
  unfold crc32_lut_round crc32_reference_bit
  rw [Nat.shiftRight_eq_div_pow, Nat.pow_one, Nat.and_one_is_mod]
  by_cases h : v % 2 = 1
  · rw [if_pos h, h]
    rfl
  · rw [if_neg h, show v % 2 = 0 by omega]
    show v / 2 ^^^ 0 = v / 2
    rw [Nat.xor_zero]

theorem xor_div_two (x y : Nat) : (x ^^^ y) / 2 = x / 2 ^^^ y / 2 := by
  apply Nat.eq_of_testBit_eq
  intro i
  rw [Nat.testBit_div_two, Nat.testBit_xor, Nat.testBit_xor, Nat.testBit_div_two,
    Nat.testBit_div_two]

theorem xor_mod_two (x y : Nat) : (x ^^^ y) % 2 = (x % 2 + y % 2) % 2 := by
  have h := Nat.testBit_xor x y 0
  rw [Nat.testBit_zero, Nat.testBit_zero, Nat.testBit_zero] at h
  have hx := Nat.mod_two_eq_zero_or_one x
  have hy := Nat.mod_two_eq_zero_or_one y
  have hxy := Nat.mod_two_eq_zero_or_one (x ^^^ y)
  rcases hx with hx | hx <;> rcases hy with hy | hy <;> rcases hxy with hxy | hxy <;>
    simp [hx, hy, hxy] at h ⊢

/-- One bit of the reference is linear for XOR. -/
theorem crc32_reference_bit_xor (x y : Nat) :
    crc32_reference_bit (x ^^^ y) = crc32_reference_bit x ^^^ crc32_reference_bit y := by
  unfold crc32_reference_bit
  have hm := xor_mod_two x y
  have hx := Nat.mod_two_eq_zero_or_one x
  have hy := Nat.mod_two_eq_zero_or_one y
  rw [xor_div_two]
  rcases hx with hx | hx <;> rcases hy with hy | hy
  · rw [if_neg (by omega), if_neg (by omega), if_neg (by omega)]
  · rw [if_pos (by omega), if_neg (by omega), if_pos (by omega), Nat.xor_assoc]
  · rw [if_pos (by omega), if_pos (by omega), if_neg (by omega), Nat.xor_assoc,
      Nat.xor_comm (y / 2), Nat.xor_assoc]
  · rw [if_neg (by omega), if_pos (by omega), if_pos (by omega), Nat.xor_assoc,
      ← Nat.xor_assoc 3988292384, Nat.xor_comm 3988292384 (y / 2), Nat.xor_assoc (y / 2),
      Nat.xor_self, Nat.xor_zero]

theorem crc32_reference_bits_xor (k x y : Nat) :
    crc32_reference_bit^[k] (x ^^^ y)
      = crc32_reference_bit^[k] x ^^^ crc32_reference_bit^[k] y := by
  induction k with
  | zero => rfl
  | succ k ih =>
    rw [Function.iterate_succ_apply', Function.iterate_succ_apply',
      Function.iterate_succ_apply', ih, crc32_reference_bit_xor]

theorem crc32_reference_bit_even (m : Nat) : crc32_reference_bit (2 * m) = m := by
  unfold crc32_reference_bit
  rw [if_neg (by omega)]
  omega

/-- Eight bits of the reference on a register whose low byte is zero: a shift. -/
theorem crc32_reference_bits_high (h : Nat) : crc32_reference_bit^[8] (256 * h) = h := by
  rw [show 256 * h = 2 * (2 * (2 * (2 * (2 * (2 * (2 * (2 * h))))))) by omega]
  simp only [Function.iterate_succ, Function.iterate_zero, Function.comp_apply, id_eq,
    crc32_reference_bit_even]

theorem low_xor_high (c : Nat) : c % 256 ^^^ 256 * (c / 256) = c := by
  apply Nat.eq_of_testBit_eq
  intro i
  rw [Nat.testBit_xor, show (256 : Nat) = 2 ^ 8 from rfl, Nat.testBit_mod_two_pow,
    Nat.mul_comm, ← Nat.shiftLeft_eq, Nat.testBit_shiftLeft, ← Nat.shiftRight_eq_div_pow,
    Nat.testBit_shiftRight]
  by_cases hi : i < 8
  · simp [hi, show ¬ 8 ≤ i by omega]
  · rw [show 8 + (i - 8) = i by omega]
    simp [hi, show i ≥ 8 by omega]

theorem crc32_table_entry (i : Nat) (hi : i < 256) :
    initialize_crc32_lookup_table[i]? = some (crc32_reference_bit^[8] i) := by
  unfold initialize_crc32_lookup_table
  rw [List.getElem?_map, List.getElem?_range hi, Option.map_some',
    show crc32_lut_round = crc32_reference_bit from funext crc32_lut_round_eq]

/-- One step of the table-driven loop is one byte of the reference. -/
theorem crc32_update_eq (c b : Nat) (hb : b < 256) :
    crc32_update initialize_crc32_lookup_table c b = some (crc32_reference_byte c b) := by
  have hidx : c % 256 ^^^ b < 256 :=
    Nat.xor_lt_two_pow (n := 8) (Nat.mod_lt _ (by decide)) hb
  unfold crc32_update crc32_reference_byte
  rw [crc32_table_entry _ hidx, Option.map_some']
  congr 1
  have hc : c ^^^ b = (c % 256 ^^^ b) ^^^ 256 * (c / 256) := by
    rw [Nat.xor_assoc, Nat.xor_comm b, ← Nat.xor_assoc, low_xor_high]
  have h8 : crc32_reference_bit^[8] (c ^^^ b)
      = crc32_reference_bit^[8] (c % 256 ^^^ b) ^^^ c / 256 := by
    rw [hc, crc32_reference_bits_xor 8 (c % 256 ^^^ b) (256 * (c / 256)),
      crc32_reference_bits_high]
  rw [h8, Nat.shiftRight_eq_div_pow]

theorem crc32_loop_eq : ∀ (data : List Nat) (c : Nat), (∀ b ∈ data, b < 256) →
    data.foldlM (crc32_update initialize_crc32_lookup_table) c
      = some (data.foldl crc32_reference_byte c)
  | [], _, _ => rfl
  | b :: data, c, h => by
    rw [List.foldlM_cons, crc32_update_eq c b (h b (List.mem_cons_self _ _))]
    exact crc32_loop_eq data _ fun x hx => h x (List.mem_cons_of_mem _ hx)

/-- C20. After `initialize_crc32_lookup_table`, for every byte sequence,
`calculate_crc32_for_data` returns the bit-by-bit reflected CRC-32 (polynomial
`0xEDB88320`, initial value `0xFFFFFFFF`, final XOR `0xFFFFFFFF`, least-significant
bit first); and the checksum of the empty sequence differs from the checksum of
a single zero byte. -/
theorem calculate_crc32_for_data_eq_reference (data : List Nat) (hb : ∀ b ∈ data, b < 256) :
    calculate_crc32_for_data initialize_crc32_lookup_table data = some (crc32_reference data) ∧
    calculate_crc32_for_data initialize_crc32_lookup_table []
      ≠ calculate_crc32_for_data initialize_crc32_lookup_table [0] := by
  constructor
  · unfold calculate_crc32_for_data crc32_reference
    rw [crc32_loop_eq data _ hb, Option.map_some']
  · decide!

theorem calculate_crc32_for_data_eq_reference_witness :
    (∀ b ∈ [49, 50, 51, 52, 53, 54, 55, 56, 57], b < 256) ∧
    calculate_crc32_for_data initialize_crc32_lookup_table [49, 50, 51, 52, 53, 54, 55, 56, 57]
      = some (crc32_reference [49, 50, 51, 52, 53, 54, 55, 56, 57]) ∧
    calculate_crc32_for_data initialize_crc32_lookup_table []
      ≠ calculate_crc32_for_data initialize_crc32_lookup_table [0] :=
  ⟨by decide,
    calculate_crc32_for_data_eq_reference [49, 50, 51, 52, 53, 54, 55, 56, 57] (by decide)⟩

/-! ## Counting -/

theorem countPos_len_mono (a b : Nat) (p : Nat → Prop) [DecidablePred p] (h : a ≤ b) :
    countPos a p ≤ countPos b p := by
  unfold countPos
  apply Finset.card_le_card
  intro j hj
  simp only [Finset.mem_filter, Finset.mem_range] at hj ⊢
  exact ⟨by omega, hj.2⟩

theorem countPos_congr (n : Nat) (p q : Nat → Prop) [DecidablePred p] [DecidablePred q]
    (h : ∀ j, j < n → (p j ↔ q j)) : countPos n p = countPos n q :=
  Nat.le_antisymm (countPos_mono n p q fun j hj => (h j hj).1)
    (countPos_mono n q p fun j hj => (h j hj).2)

/-- Two sets of indices in bijection have the same number of elements. -/
theorem countPos_bij (a b : Nat) (p q : Nat → Prop) [DecidablePred p] [DecidablePred q]
    (f : Nat → Nat) (h1 : ∀ x, x < a → p x → f x < b ∧ q (f x))
    (h2 : ∀ x y, x < a → y < a → p x → p y → f x = f y → x = y)
    (h3 : ∀ y, y < b → q y → ∃ x, x < a ∧ p x ∧ f x = y) : countPos a p = countPos b q := by
  unfold countPos
  apply Finset.card_bij (fun x _ => f x)
  · intro x hx
    simp only [Finset.mem_filter, Finset.mem_range] at hx ⊢
    exact h1 x hx.1 hx.2
  · intro x hx y hy hxy
    simp only [Finset.mem_filter, Finset.mem_range] at hx hy
    exact h2 x y hx.1 hy.1 hx.2 hy.2 hxy
  · intro y hy
    simp only [Finset.mem_filter, Finset.mem_range] at hy
    obtain ⟨x, hx, hpx, hfx⟩ := h3 y hy.1 hy.2
    exact ⟨x, by simp only [Finset.mem_filter, Finset.mem_range]; exact ⟨hx, hpx⟩, hfx⟩

theorem bEnd_eq (d : List Int) (c : Int) :
    bEnd d c = bHead d c + countPos d.length fun j => sym d j = c := by
  unfold bEnd bHead
  exact countPos_split d.length (fun j => sym d j ≤ c) (fun j => sym d j < c)
    (fun j => sym d j = c) (fun j _ => by constructor <;> omega)

theorem bHead_zero {d : List Int} {n k : Nat} (hv : ValidInput d n k) : bHead d 0 = 0 := by
  unfold bHead
  rw [countPos_cut d.length 0 _ (Nat.zero_le _) fun j _ hj => by
    have := (sym_range hv j (by rw [← hv.1]; exact hj)).1
    omega]
  exact countPos_zero _

theorem bEnd_top {d : List Int} {n k : Nat} (hv : ValidInput d n k) (c : Int)
    (hc : (k : Int) - 1 ≤ c) : bEnd d c = n := by
  unfold bEnd
  rw [hv.1]
  exact countPos_all n _ fun j hj => by
    have := (sym_range hv j hj).2
    omega

/-! ## The stable rank -/

theorem stableRank_ge (d : List Int) (m : Nat) : bHead d (sym d m) ≤ stableRank d m :=
  Nat.le_add_right _ _

theorem stableRank_lt (d : List Int) (m : Nat) (hm : m < d.length) :
    stableRank d m < bEnd d (sym d m) := by
  unfold stableRank
  rw [bEnd_eq]
  have h1 := countPos_succ m fun j => sym d j = sym d m
  rw [if_pos rfl] at h1
  have h2 := countPos_len_mono (m + 1) d.length (fun j => sym d j = sym d m) (by omega)
  omega

theorem stableRank_lt_of_lt (d : List Int) (m m' : Nat) (h : m < m')
    (hs : sym d m = sym d m') : stableRank d m < stableRank d m' := by
  unfold stableRank
  rw [hs]
  have h1 := countPos_succ m fun j => sym d j = sym d m'
  rw [if_pos hs] at h1
  have h2 := countPos_len_mono (m + 1) m' (fun j => sym d j = sym d m') (by omega)
  omega

theorem stableRank_inj (d : List Int) (m m' : Nat) (hm : m < d.length) (hm' : m' < d.length)
    (h : stableRank d m = stableRank d m') : m = m' := by
  have a1 := stableRank_ge d m
  have a2 := stableRank_ge d m'
  have b1 := stableRank_lt d m hm
  have b2 := stableRank_lt d m' hm'
  by_cases hs : sym d m = sym d m'
  · by_contra hne
    rcases Nat.lt_or_gt_of_ne hne with hlt | hlt
    · have := stableRank_lt_of_lt d m m' hlt hs
      omega
    · have := stableRank_lt_of_lt d m' m hlt hs.symm
      omega
  · rcases Int.lt_or_gt_of_ne hs with hlt | hlt
    · have := bEnd_le_bHead d _ _ hlt
      omega
    · have := bEnd_le_bHead d _ _ hlt
      omega

/-! ## The tables of `inverse_bwt` -/

theorem offsetLoop_heads {d : List Int} {n : Nat} (hv : ValidInput d n 256)
    (hn : n < 2147483648) {pos : List Int} (hplen : pos.length = 256)
    (hpcnt : ∀ c : Nat, c < 256 → cell pos c = countPos n fun j => sym d j = c) :
    ∀ c : Nat, c < 256 → cell (offsetLoop 0 pos) c = bHead d c := by
  have hpnn : ∀ x ∈ pos, 0 ≤ x := by
    intro x hx
    rw [mem_iff_cell] at hx
    obtain ⟨c, hc, hxc⟩ := hx
    rw [← hxc, hpcnt c (by omega)]
    omega
  have hsum : pos.sum = bHead d 256 := by
    have := sum_take_counts hv pos hplen hpcnt 256 (Nat.le_refl _)
    have htk : pos.take 256 = pos := by rw [← hplen, List.take_length]
    rw [htk] at this
    exact this
  have hbh256 : bHead d 256 ≤ d.length := countPos_le _ _
  have hdl := hv.1
  intro c hc
  rw [offsetLoop_cell pos 0 c (by omega) hpnn (Int.le_refl _) (by rw [hsum]; omega),
    sum_take_counts hv pos hplen hpcnt c (by omega)]
  simp

/-- One iteration of a loop that fills `lut`. -/
theorem lutStep_spec {d : List Int} {n : Nat} (hv : ValidInput d n 128) (hn : n < 2147483648)
    (z : Nat) (d0 : Int) (i : Nat) (hi : i < n) (hd0 : d0 = if i < z then 0 else 1)
    (st : List Int × List Int) (h : LutInv d z i st.1 st.2) :
    ∃ st', lutStep d d0 i st = some st' ∧ LutInv d z (i + 1) st'.1 st'.2 := by
  obtain ⟨lut, ps⟩ := st
  simp only at h
  obtain rfl : d.length = n := hv.1
  obtain ⟨h0, hk⟩ := sym_range hv i hi
  obtain ⟨c, hc⟩ : ∃ c : Nat, sym d i = c := ⟨(sym d i).toNat, by omega⟩
  have hc256 : c < 256 := by omega
  have hcv : char_value (c : Int) = c := char_value_low _ (by omega)
  have hrk : (stableRank d i : Int) = cell ps c := by
    unfold stableRank
    rw [h.ptr c hc256, hc]
    push_cast; rfl
  have hrlt := stableRank_lt d i hi
  have hend := bEnd_le d (sym d i)
  have hmod1 : ((i : Int) + d0) % 2 ^ 32 = if i < z then (i : Int) else i + 1 := by
    rw [two_pow_32, hd0]
    by_cases hz : i < z
    · rw [if_pos hz, if_pos hz]; omega
    · rw [if_neg hz, if_neg hz]; omega
  have hmod2 : (cell ps c + 1) % 2 ^ 32 = cell ps c + 1 := by
    rw [two_pow_32, ← hrk]; omega
  refine ⟨(lut.set (stableRank d i) (if i < z then (i : Int) else i + 1),
    ps.set c (cell ps c + 1)), ?_, ?_⟩
  · unfold lutStep
    simp only
    rw [rd_cell d i hi, Option.some_bind, show cell d i = sym d i from rfl, hc, hcv,
      rd_cell ps c (by rw [h.lenPos]; exact hc256), Option.some_bind, hmod1, hmod2, ← hrk,
      wr_nat lut _ _ (by rw [h.lenLut]; omega), Option.some_bind, hrk,
      wr_nat ps c _ (by rw [h.lenPos]; exact hc256), Option.some_bind]
  · refine ⟨by simpa using h.lenLut, by simpa using h.lenPos, ?_, ?_⟩
    · intro c' hc'
      simp only
      rw [cell_set, countPos_succ]
      by_cases hcc : c = c'
      · subst hcc
        rw [if_pos ⟨rfl, by rw [h.lenPos]; exact hc256⟩, if_pos hc, h.ptr c hc256]
        push_cast; omega
      · rw [if_neg (fun hh => hcc hh.1), if_neg (by rw [hc]; omega), h.ptr c' hc']
        simp
    · intro m hm
      simp only
      rw [cell_set]
      by_cases hmi : m = i
      · subst hmi
        rw [if_pos ⟨rfl, by rw [h.lenLut]; omega⟩]
      · rw [if_neg (fun hh => hmi (stableRank_inj d m i (by omega) hi hh.1.symm))]
        exact h.done m (by omega)

/-- Lines 49-77 of `inverse_bwt` run to completion on bytes below 128, for every
zero index in `[0, n]`: `pos` then holds the bucket ends, and `lut` maps the stable
rank of each index `m` of the data to `m`, or to `m + 1` from the zero index on. -/
theorem inverse_bwt_tables_spec {d : List Int} {n : Nat} (hv : ValidInput d n 128)
    (hn : n < 2147483648) (z : Nat) (hz : z ≤ n) :
    ∃ lut pos, inverse_bwt_tables d n z = some (lut, pos) ∧ LutInv d z n lut pos ∧
      ∀ c : Nat, c < 256 → cell pos c = bEnd d c := by
  obtain ⟨pos, hpos, hplen, hpcnt⟩ := posCount_loop hv hn
  have hheads := offsetLoop_heads hv.bytes hn hplen hpcnt
  have hzi : (((z : Int) % 2 ^ 32).toNat) = z := by
    rw [two_pow_32]; omega
  obtain ⟨st1, hst1, hinv1⟩ := loopUp_inv (lutStep d 0)
    (fun i st => LutInv d z i st.1 st.2) z 0 (List.replicate n 0, offsetLoop 0 pos)
    ⟨by rw [List.length_replicate, hv.1], by rw [offsetLoop_length, hplen],
      fun c hc => by simp only; rw [hheads c hc, countPos_zero]; simp,
      fun m hm => by omega⟩
    (fun i st _ hi h => lutStep_spec hv hn z 0 i (by omega) (by rw [if_pos (by omega)]) st h)
  rw [Nat.zero_add] at hinv1
  obtain ⟨st2, hst2, hinv2⟩ := loopUp_inv (lutStep d 1)
    (fun i st => LutInv d z i st.1 st.2) (n - z) z st1 hinv1
    (fun i st hi1 hi h => lutStep_spec hv hn z 1 i (by omega) (by rw [if_neg (by omega)]) st h)
  rw [show z + (n - z) = n by omega] at hinv2
  refine ⟨st2.1, st2.2, ?_, hinv2, ?_⟩
  · unfold inverse_bwt_tables
    rw [hpos, Option.some_bind, hzi, hst1, Option.some_bind, hst2]
  · intro c hc
    rw [hinv2.ptr c hc, bEnd_eq, hv.1]
    push_cast; rfl

theorem inverse_bwt_eq (data : List Int) (n : Nat) (zeroIdx : Int) :
    inverse_bwt data n zeroIdx = (inverse_bwt_tables data n zeroIdx).bind fun st =>
      (loopUp (decodeStep st.2 st.1) n 0 (List.replicate n 0, zeroIdx % 2 ^ 32)).bind
        fun st => some st.1 := by
  unfold inverse_bwt inverse_bwt_tables
  cases loopUp (posCountStep data) n 0 (List.replicate 256 0) with
  | none => rfl
  | some pos =>
    rw [Option.some_bind, Option.some_bind]
    cases loopUp (lutStep data 0) (zeroIdx % 2 ^ 32).toNat 0
        (List.replicate n 0, offsetLoop 0 pos) with
    | none => rfl
    | some st => rfl

theorem decodeStep_eq (pos lut : List Int) (i : Nat) (st : List Int × Int) :
    decodeStep pos lut i st = (decodeEmit pos i st).bind fun out =>
      (rd lut ((st.2 - 1) % 2 ^ 32)).bind fun t => some (out, t) := by
  unfold decodeStep decodeEmit
  cases bsearch pos st.2 257 0 255 with
  | none => rfl
  | some imax => rfl

/-! ## Steps of the reconstruction loop -/

theorem rd_none (a : List Int) (i : Int) (h : (a.length : Int) ≤ i) : rd a i = none := by
  unfold rd
  rw [if_pos (by omega)]
  exact List.getElem?_eq_none (by omega)

theorem loopUp_add {σ : Type} (body : Nat → σ → Option σ) :
    ∀ (a b lo : Nat) (st : σ),
      loopUp body (a + b) lo st = (loopUp body a lo st).bind (loopUp body b (lo + a))
  | 0, b, lo, st => by
    rw [Nat.zero_add]
    rfl
  | a + 1, b, lo, st => by
    rw [show a + 1 + b = (a + b) + 1 by omega]
    show (body lo st).bind (loopUp body (a + b) (lo + 1))
      = ((body lo st).bind (loopUp body a (lo + 1))).bind (loopUp body b (lo + (a + 1)))
    cases body lo st with
    | none => rfl
    | some st1 =>
      rw [Option.some_bind, Option.some_bind, loopUp_add body a b (lo + 1) st1,
        show lo + 1 + a = lo + (a + 1) by omega]

theorem table_mono {d : List Int} {pos : List Int}
    (hends : ∀ c : Nat, c < 256 → cell pos c = bEnd d c) :
    ∀ a b : Nat, a ≤ b → b < 256 → cell pos a ≤ cell pos b := by
  intro a b hab hb
  rw [hends a (by omega), hends b hb]
  have := countPos_mono d.length (fun j => sym d j ≤ (a : Int)) (fun j => sym d j ≤ (b : Int))
    (fun j _ hj => by
      show sym d j ≤ (b : Int)
      have : sym d j ≤ (a : Int) := hj
      omega)
  unfold bEnd
  omega

/-- An iteration of the reconstruction loop that starts with `t` in `[1, n]`
completes: it writes the symbol `c` whose bucket `(bHead c, bEnd c]` holds `t`,
and goes on with `lut[t-1]`. -/
theorem decodeStep_spec {d : List Int} {n : Nat} (hv : ValidInput d n 256)
    (hn : n < 2147483648) {lut pos : List Int} (hll : lut.length = n) (hpl : pos.length = 256)
    (hends : ∀ c : Nat, c < 256 → cell pos c = bEnd d c) (i : Nat) (out : List Int) (t : Nat)
    (hol : out.length = n) (hi : i < n) (ht1 : 1 ≤ t) (ht2 : t ≤ n) :
    ∃ c : Nat, c < 256 ∧ bHead d c < t ∧ t ≤ bEnd d c ∧
      bsearch pos t 257 0 255 = some ((c : Int) - 1) ∧
      decodeStep pos lut i (out, (t : Int)) = some (out.set i c, cell lut (t - 1)) := by
  obtain ⟨r, hr, hr1, hr2, hlow, hhigh⟩ := bsearch_spec pos t hpl (table_mono hends) 257 0 255
    (Int.le_refl _) (Int.le_refl _) (by omega) (by omega) (fun k hk => by omega)
    (fun k hk1 hk2 => by omega)
  have htop := bEnd_top hv ((255 : Nat) : Int) (by omega)
  have hr3 : r < 255 := by
    by_contra hcon
    have := hlow 255 (by omega)
    rw [hends 255 (by omega), htop] at this
    omega
  obtain ⟨c, hc⟩ : ∃ c : Nat, r + 1 = c := ⟨(r + 1).toNat, by omega⟩
  have hge := hhigh c (by omega) (by omega)
  rw [hends c (by omega)] at hge
  refine ⟨c, by omega, ?_, by omega, by rw [hr, ← hc]; congr 1; omega, ?_⟩
  · by_cases hc0 : c = 0
    · subst hc0
      have := bHead_zero hv
      show bHead d ((0 : Nat) : Int) < t
      rw [show ((0 : Nat) : Int) = 0 from rfl, this]
      omega
    · obtain ⟨c', hc'⟩ : ∃ c' : Nat, c = c' + 1 := ⟨c - 1, by omega⟩
      have := hlow c' (by omega)
      rw [hends c' (by omega)] at this
      rw [hc', show ((c' + 1 : Nat) : Int) = (c' : Int) + 1 by omega, bHead_succ]
      omega
  · have hmodc : (r + 1) % 256 = c := by rw [hc]; omega
    have hmodt : ((t : Int) - 1) % 2 ^ 32 = ((t - 1 : Nat) : Int) := by rw [two_pow_32]; omega
    unfold decodeStep
    simp only
    rw [hr, Option.some_bind, hmodc, wr_nat out i _ (by omega), Option.some_bind, hmodt,
      rd_cell lut (t - 1) (by omega), Option.some_bind]

/-- An iteration of the reconstruction loop that starts with `t = 0` writes the
byte `0` to `out[i]` and then reads `lut` at index `2^32 - 1`, outside the table. -/
theorem decodeStep_zero {d : List Int} {n : Nat} (hn : n < 2147483648) {lut pos : List Int} (hll : lut.length = n) (hpl : pos.length = 256)
    (hends : ∀ c : Nat, c < 256 → cell pos c = bEnd d c) (i : Nat) (out : List Int)
    (hol : out.length = n) (hi : i < n) :
    decodeEmit pos i (out, 0) = some (out.set i 0) ∧
    rd lut (((0 : Int) - 1) % 2 ^ 32) = none ∧
    decodeStep pos lut i (out, 0) = none := by
  obtain ⟨r, hr, hr1, hr2, hlow, hhigh⟩ := bsearch_spec pos 0 hpl (table_mono hends) 257 0 255
    (Int.le_refl _) (Int.le_refl _) (by omega) (by omega) (fun k hk => by omega)
    (fun k hk1 hk2 => by omega)
  have hr3 : r = -1 := by
    by_contra hcon
    have := hlow 0 (by omega)
    rw [hends 0 (by omega)] at this
    omega
  subst hr3
  have hemit : decodeEmit pos i (out, 0) = some (out.set i 0) := by
    unfold decodeEmit
    simp only
    rw [hr, Option.some_bind, show ((-1 : Int) + 1) % 256 = ((0 : Nat) : Int) by decide,
      wr_nat out i _ (by omega)]
    rfl
  have hrd : rd lut (((0 : Int) - 1) % 2 ^ 32) = none :=
    rd_none lut _ (by rw [two_pow_32, hll]; omega)
  refine ⟨hemit, hrd, ?_⟩
  rw [decodeStep_eq, hemit, Option.some_bind]
  simp only
  rw [hrd]
  rfl

/-! ## Cells of composed lists -/

theorem cell_cons_zero (a : Int) (l : List Int) : cell (a :: l) 0 = a := rfl

theorem cell_cons_succ (a : Int) (l : List Int) (m : Nat) : cell (a :: l) (m + 1) = cell l m :=
  rfl

theorem cell_append_right (a b : List Int) (x : Nat) (h : a.length ≤ x) :
    cell (a ++ b) x = cell b (x - a.length) := by
  unfold cell
  rw [List.getD_eq_getElem?_getD, List.getD_eq_getElem?_getD, List.getElem?_append_right h]

theorem cell_take (a : List Int) (m x : Nat) (h : x < m) : cell (a.take m) x = cell a x := by
  unfold cell
  rw [List.getD_eq_getElem?_getD, List.getD_eq_getElem?_getD, List.getElem?_take, if_pos h]

theorem cell_map (f : Int → Int) (a : List Int) (x : Nat) (h : x < a.length) :
    cell (a.map f) x = f (cell a x) := by
  rw [cell_eq_getElem _ _ (by rw [List.length_map]; exact h), List.getElem_map,
    cell_eq_getElem a x h]

/-! ## Counting in a list and in a rearrangement of it -/

theorem countPos_take (l : List Int) (p : Int → Bool) : ∀ m, m ≤ l.length →
    countPos m (fun j => p (sym l j) = true) = (l.take m).countP p
  | 0, _ => by rw [countPos_zero]; rfl
  | m + 1, h => by
    rw [countPos_succ, countPos_take l p m (by omega), take_succ_cell l m (by omega),
      List.countP_append, List.countP_singleton]
    rfl

theorem bHead_eq_countP (l : List Int) (c : Int) :
    bHead l c = l.countP fun v => decide (v < c) := by
  have := countPos_take l (fun v => decide (v < c)) l.length (Nat.le_refl _)
  rw [List.take_length] at this
  rw [← this]
  exact countPos_congr _ _ _ fun j _ => by simp

theorem bEnd_eq_countP (l : List Int) (c : Int) :
    bEnd l c = l.countP fun v => decide (v ≤ c) := by
  have := countPos_take l (fun v => decide (v ≤ c)) l.length (Nat.le_refl _)
  rw [List.take_length] at this
  rw [← this]
  exact countPos_congr _ _ _ fun j _ => by simp

theorem bHead_perm {l1 l2 : List Int} (h : l1.Perm l2) (c : Int) : bHead l1 c = bHead l2 c := by
  rw [bHead_eq_countP, bHead_eq_countP, h.countP_eq]

theorem bEnd_perm {l1 l2 : List Int} (h : l1.Perm l2) (c : Int) : bEnd l1 c = bEnd l2 c := by
  rw [bEnd_eq_countP, bEnd_eq_countP, h.countP_eq]

/-! ## A suffix array -/

section SuffixArray

variable {S SA : List Int}

theorem IsSuffixArray.cell_lt (h : IsSuffixArray S SA) (x : Nat) (hx : x < S.length) :
    ∃ p : Nat, p < S.length ∧ cell SA x = p := by
  have hmem : cell SA x ∈ SA := (mem_iff_cell SA _).mpr ⟨x, by rw [h.1.1]; exact hx, rfl⟩
  rw [← h.1.perm_range.mem_iff, List.mem_map] at hmem
  obtain ⟨p, hp, hpx⟩ := hmem
  exact ⟨p, List.mem_range.mp hp, hpx.symm⟩

theorem IsSuffixArray.mem_SA (h : IsSuffixArray S SA) (p : Nat) (hp : p < S.length) :
    (p : Int) ∈ SA :=
  List.count_pos_iff.mp (by have := h.1.2 p hp; omega)

theorem IsSuffixArray.nodup_SA (h : IsSuffixArray S SA) : SA.Nodup :=
  h.1.perm_range.nodup_iff.mp ((List.nodup_range _).map fun a b hab => by
    have : (a : Int) = b := hab
    omega)

theorem IsSuffixArray.slot_lt (h : IsSuffixArray S SA) (p : Nat) (hp : p < S.length) :
    slotOf SA p < S.length := by
  rw [← h.1.1]
  exact List.indexOf_lt_length.mpr (h.mem_SA p hp)

theorem IsSuffixArray.cell_slot (h : IsSuffixArray S SA) (p : Nat) (hp : p < S.length) :
    cell SA (slotOf SA p) = p := by
  have hlt : slotOf SA p < SA.length := List.indexOf_lt_length.mpr (h.mem_SA p hp)
  rw [cell_eq_getElem SA _ hlt]
  exact List.getElem_indexOf hlt

theorem IsSuffixArray.slot_cell (h : IsSuffixArray S SA) (x p : Nat) (hx : x < S.length)
    (hxp : cell SA x = p) : slotOf SA p = x := by
  have hx' : x < SA.length := by rw [h.1.1]; exact hx
  have := List.indexOf_getElem h.nodup_SA x hx'
  rw [← cell_eq_getElem SA x hx', hxp] at this
  exact this

theorem IsSuffixArray.slot_inj (h : IsSuffixArray S SA) (p q : Nat) (hp : p < S.length)
    (hq : q < S.length) (hpq : slotOf SA p = slotOf SA q) : p = q := by
  have h1 := h.cell_slot p hp
  have h2 := h.cell_slot q hq
  rw [hpq, h2] at h1
  omega

/-- The order of the slots is the order of the suffixes. -/
theorem IsSuffixArray.slot_lt_iff (h : IsSuffixArray S SA) (p q : Nat) (hp : p < S.length)
    (hq : q < S.length) : slotOf SA p < slotOf SA q ↔ S.drop p < S.drop q := by
  have key : ∀ a b : Nat, a < S.length → b < S.length → slotOf SA a < slotOf SA b →
      S.drop a < S.drop b := by
    intro a b ha hb hab
    have := h.2 (slotOf SA b) (h.slot_lt b hb) (slotOf SA a) hab
    rwa [h.cell_slot a ha, h.cell_slot b hb, Int.toNat_ofNat, Int.toNat_ofNat] at this
  constructor
  · exact key p q hp hq
  · intro hlt
    by_contra hcon
    rcases Nat.lt_or_ge (slotOf SA q) (slotOf SA p) with h1 | h1
    · exact lt_asymm hlt (key q p hq hp h1)
    · have := h.slot_inj p q hp hq (by omega)
      rw [this] at hlt
      exact lt_irrefl _ hlt

/-- The first symbols of the suffixes are in order along the suffix array. -/
theorem IsSuffixArray.sym_mono (h : IsSuffixArray S SA) (p q : Nat) (hp : p < S.length)
    (hq : q < S.length) (hpq : slotOf SA p ≤ slotOf SA q) : sym S p ≤ sym S q := by
  rcases Nat.lt_or_ge (slotOf SA p) (slotOf SA q) with h1 | h1
  · have := (h.slot_lt_iff p q hp hq).mp h1
    rw [drop_lt_drop S p q hp hq] at this
    omega
  · rw [h.slot_inj p q hp hq (by omega)]

/-- The sorted symbols: the first symbols of the suffixes in the order of `SA`. -/
theorem IsSuffixArray.firsts (h : IsSuffixArray S SA) :
    (SA.map fun v => sym S v.toNat).Perm S ∧
    (∀ x, x < S.length → sym (SA.map fun v => sym S v.toNat) x = sym S (cell SA x).toNat) ∧
    ∀ x y, x ≤ y → y < (SA.map fun v => sym S v.toNat).length →
      sym (SA.map fun v => sym S v.toNat) x ≤ sym (SA.map fun v => sym S v.toNat) y := by
  have hcell : ∀ x, x < S.length →
      sym (SA.map fun v => sym S v.toNat) x = sym S (cell SA x).toNat := fun x hx =>
    cell_map _ SA x (by rw [h.1.1]; exact hx)
  refine ⟨?_, hcell, ?_⟩
  · have h1 := (h.1.perm_range.map fun v => sym S v.toNat).symm
    rw [List.map_map] at h1
    have h2 : (List.range S.length).map ((fun v => sym S v.toNat) ∘ Int.ofNat) = S := by
      have := map_sym_range S S.length (Nat.le_refl _)
      rw [List.take_length] at this
      exact this
    rwa [h2] at h1
  · intro x y hxy hy
    rw [List.length_map, h.1.1] at hy
    obtain ⟨p, hp, hxp⟩ := h.cell_lt x (by omega)
    obtain ⟨q, hq, hyq⟩ := h.cell_lt y hy
    rw [hcell x (by omega), hcell y hy, hxp, hyq, Int.toNat_ofNat, Int.toNat_ofNat]
    exact h.sym_mono p q hp hq (by
      rw [h.slot_cell x p (by omega) hxp, h.slot_cell y q hy hyq]
      exact hxy)

/-- The slot of a position is the head of the bucket of its symbol plus the
number of smaller suffixes that start with the same symbol. -/
theorem IsSuffixArray.slot_eq (h : IsSuffixArray S SA) (i : Nat) (hi : i < S.length) :
    slotOf SA i = bHead S (sym S i) +
      countPos (slotOf SA i) (fun x => sym S (cell SA x).toNat = sym S i) ∧
    slotOf SA i + 1 ≤ bEnd S (sym S i) := by
  obtain ⟨hperm, hcell, hsorted⟩ := h.firsts
  have hlen : (SA.map fun v => sym S v.toNat).length = S.length := by
    rw [List.length_map, h.1.1]
  have hsl := h.slot_lt i hi
  have hF : sym (SA.map fun v => sym S v.toNat) (slotOf SA i) = sym S i := by
    rw [hcell _ hsl, h.cell_slot i hi, Int.toNat_ofNat]
  have h1 := sorted_rank hsorted (slotOf SA i) (by rw [hlen]; exact hsl)
  have h2 := sorted_bEnd_ge hsorted (slotOf SA i) (by rw [hlen]; exact hsl)
  rw [hF, bHead_perm hperm] at h1
  rw [hF, bEnd_perm hperm] at h2
  refine ⟨?_, h2⟩
  rw [countPos_congr (slotOf SA i) (fun x => sym S (cell SA x).toNat = sym S i)
    (fun j => sym (SA.map fun v => sym S v.toNat) j = sym S i)
    (fun j hj => by
      show sym S (cell SA j).toNat = sym S i ↔ sym (SA.map fun v => sym S v.toNat) j = sym S i
      rw [hcell j (by omega)])]
  exact h1.symm

end SuffixArray

/-! ## The transform of a sequence with its suffix array -/

theorem filter_unique_zero (SA : List Int) (i0 : Nat) (hi0 : i0 < SA.length)
    (hz : cell SA i0 = 0) (huniq : ∀ x, x < SA.length → cell SA x = 0 → x = i0) :
    SA.filter (fun v => decide (v ≠ 0)) = SA.take i0 ++ SA.drop (i0 + 1) := by
  have hsplit : SA = SA.take i0 ++ (cell SA i0 :: SA.drop (i0 + 1)) := by
    rw [cell_eq_getElem SA i0 hi0, ← List.drop_eq_getElem_cons hi0, List.take_append_drop]
  have h1 : (SA.take i0).filter (fun v => decide (v ≠ 0)) = SA.take i0 := by
    rw [List.filter_eq_self]
    intro a ha
    rw [mem_iff_cell] at ha
    obtain ⟨x, hx, hxa⟩ := ha
    rw [List.length_take] at hx
    rw [cell_take SA i0 x (by omega)] at hxa
    have : a ≠ 0 := fun h0 => by
      have := huniq x (by omega) (by rw [hxa, h0])
      omega
    simpa using this
  have h2 : (SA.drop (i0 + 1)).filter (fun v => decide (v ≠ 0)) = SA.drop (i0 + 1) := by
    rw [List.filter_eq_self]
    intro a ha
    rw [mem_iff_cell] at ha
    obtain ⟨x, hx, hxa⟩ := ha
    rw [List.length_drop] at hx
    rw [cell_drop] at hxa
    have : a ≠ 0 := fun h0 => by
      have := huniq (i0 + 1 + x) (by omega) (by rw [hxa, h0])
      omega
    simpa using this
  have h3 := congrArg (List.filter fun v => decide (v ≠ 0)) hsplit
  rw [List.filter_append, List.filter_cons_of_neg (by rw [hz]; simp), h1, h2] at h3
  exact h3

section Transform

variable {S SA : List Int}

theorem outIndex_lt (h : IsSuffixArray S SA) (q : Nat) (hq1 : 1 ≤ q) (hq2 : q ≤ S.length) :
    outIndex SA S.length q < S.length := by
  unfold outIndex
  by_cases hqn : q = S.length
  · rw [if_pos hqn]; omega
  · have h1 := h.slot_lt q (by omega)
    have h2 := h.slot_lt 0 (by omega)
    rw [if_neg hqn]
    by_cases hlt : slotOf SA q < slotOf SA 0
    · rw [if_pos hlt]; omega
    · rw [if_neg hlt]; exact h1

/-- The order of the bytes of the output is the order of the suffixes they precede. -/
theorem outIndex_lt_iff (h : IsSuffixArray S SA) (q q' : Nat) (hq1 : 1 ≤ q)
    (hq2 : q ≤ S.length) (hq1' : 1 ≤ q') (hq2' : q' ≤ S.length) :
    outIndex SA S.length q < outIndex SA S.length q' ↔ S.drop q < S.drop q' := by
  unfold outIndex
  by_cases hqn : q = S.length
  · by_cases hqn' : q' = S.length
    · rw [if_pos hqn, if_pos hqn', hqn, hqn']
      constructor
      · intro hh; omega
      · intro hh; exact absurd hh (lt_irrefl _)
    · have hne : slotOf SA q' ≠ slotOf SA 0 := fun hh => by
        have := h.slot_inj q' 0 (by omega) (by omega) hh
        omega
      rw [if_pos hqn, if_neg hqn', hqn, List.drop_length]
      constructor
      · intro _; exact nil_lt_drop S q' (by omega)
      · intro _
        by_cases hlt : slotOf SA q' < slotOf SA 0
        · rw [if_pos hlt]; omega
        · rw [if_neg hlt]; omega
  · by_cases hqn' : q' = S.length
    · rw [if_neg hqn, if_pos hqn', hqn', List.drop_length]
      constructor
      · intro hh; omega
      · intro hh; exact absurd hh (not_lt_nil _)
    · have hne : slotOf SA q ≠ slotOf SA 0 := fun hh => by
        have := h.slot_inj q 0 (by omega) (by omega) hh
        omega
      have hne' : slotOf SA q' ≠ slotOf SA 0 := fun hh => by
        have := h.slot_inj q' 0 (by omega) (by omega) hh
        omega
      rw [if_neg hqn, if_neg hqn', ← h.slot_lt_iff q q' (by omega) (by omega)]
      by_cases hlt : slotOf SA q < slotOf SA 0 <;> by_cases hlt' : slotOf SA q' < slotOf SA 0
      · rw [if_pos hlt, if_pos hlt']; omega
      · rw [if_pos hlt, if_neg hlt']; omega
      · rw [if_neg hlt, if_pos hlt']; omega
      · rw [if_neg hlt, if_neg hlt']

theorem outIndex_surj (h : IsSuffixArray S SA) (hn : 1 ≤ S.length) (j : Nat)
    (hj : j < S.length) : ∃ q, 1 ≤ q ∧ q ≤ S.length ∧ outIndex SA S.length q = j := by
  by_cases hj0 : j = 0
  · exact ⟨S.length, hn, Nat.le_refl _, by unfold outIndex; rw [if_pos rfl, hj0]⟩
  · have hz := h.cell_slot 0 (by omega)
    by_cases hlt : j ≤ slotOf SA 0
    · obtain ⟨q, hq, hjq⟩ := h.cell_lt (j - 1) (by omega)
      have hs := h.slot_cell (j - 1) q (by omega) hjq
      have hq0 : q ≠ 0 := fun hh => by
        rw [hh] at hs
        omega
      refine ⟨q, by omega, by omega, ?_⟩
      unfold outIndex
      rw [if_neg (by omega), hs, if_pos (by omega)]
      omega
    · obtain ⟨q, hq, hjq⟩ := h.cell_lt j hj
      have hs := h.slot_cell j q hj hjq
      have hq0 : q ≠ 0 := fun hh => by
        rw [hh] at hs
        omega
      refine ⟨q, by omega, by omega, ?_⟩
      unfold outIndex
      rw [if_neg (by omega), hs, if_neg (by omega)]

/-- Lines 28-43 of `bwt` on a suffix array: the zero index is the row of the whole
sequence, and the byte that precedes the suffix at `q` is at `outIndex q`. -/
theorem bwt_permute_of_suffix_array (h : IsSuffixArray S SA) (hn : 1 ≤ S.length) :
    ∃ out, bwt_permute S SA S.length = some (out, (slotOf SA 0 : Int) + 1) ∧
      out.length = S.length ∧ out.Perm S ∧
      ∀ q, 1 ≤ q → q ≤ S.length → cell out (outIndex SA S.length q) = sym S (q - 1) := by
  have hi0 := h.slot_lt 0 (by omega)
  have hz : cell SA (slotOf SA 0) = 0 := h.cell_slot 0 (by omega)
  have huniq : ∀ x, x < S.length → cell SA x = 0 → x = slotOf SA 0 := fun x hx hx0 =>
    (h.slot_cell x 0 hx hx0).symm
  have hval : ∀ x, x < S.length → ∃ j : Nat, j < S.length ∧ cell SA x = j := h.cell_lt
  obtain ⟨h1, h2⟩ := bwt_permute_spec rfl h.1.1 hval hi0 hz huniq
  have hperm := @bwt_bytes_perm S SA S.length rfl hn h.1
  have hfil := filter_unique_zero SA (slotOf SA 0) (by rw [h.1.1]; exact hi0) hz
    (fun x hx => huniq x (by rw [← h.1.1]; exact hx))
  have hlen1 : (SA.take (slotOf SA 0)).length = slotOf SA 0 := by
    rw [List.length_take, h.1.1]; omega
  have hlen2 : (SA.take (slotOf SA 0) ++ SA.drop (slotOf SA 0 + 1)).length + 1
      = S.length := by
    rw [← hfil]; exact h2
  refine ⟨_, h1, by rw [hperm.length_eq], hperm, ?_⟩
  intro q hq1 hq2
  rw [hfil]
  unfold outIndex
  by_cases hqn : q = S.length
  · rw [if_pos hqn, cell_cons_zero, hqn]
  · have hcq := h.cell_slot q (by omega)
    have hsl := h.slot_lt q (by omega)
    have hne : slotOf SA q ≠ slotOf SA 0 := fun hh => by
      have := h.slot_inj q 0 (by omega) (by omega) hh
      omega
    rw [if_neg hqn]
    by_cases hlt : slotOf SA q < slotOf SA 0
    · rw [if_pos hlt, cell_cons_succ, cell_map _ _ _ (by omega),
        cell_append_left _ _ _ (by omega), cell_take _ _ _ hlt, hcq]
      show sym S ((q : Int) - 1).toNat = sym S (q - 1)
      rw [show ((q : Int) - 1).toNat = q - 1 by omega]
    · obtain ⟨x', hx'⟩ : ∃ x', slotOf SA q = x' + 1 := ⟨slotOf SA q - 1, by omega⟩
      rw [if_neg hlt, hx', cell_cons_succ, cell_map _ _ _ (by omega),
        cell_append_right _ _ _ (by omega), hlen1, cell_drop,
        show slotOf SA 0 + 1 + (x' - slotOf SA 0) = slotOf SA q by omega, hcq]
      show sym S ((q : Int) - 1).toNat = sym S (q - 1)
      rw [show ((q : Int) - 1).toNat = q - 1 by omega]

/-- Among positions with the same symbol, the order of the slots is the order of
the bytes in the output. -/
theorem outIndex_succ_lt_iff (h : IsSuffixArray S SA) (p q : Nat) (hp : p < S.length)
    (hq : q < S.length) (hs : sym S p = sym S q) :
    outIndex SA S.length (p + 1) < outIndex SA S.length (q + 1) ↔
      slotOf SA p < slotOf SA q := by
  rw [outIndex_lt_iff h (p + 1) (q + 1) (by omega) (by omega) (by omega) (by omega),
    h.slot_lt_iff p q hp hq, drop_lt_drop S p q hp hq]
  constructor
  · intro hh; exact Or.inr ⟨hs, hh⟩
  · rintro (hh | hh)
    · omega
    · exact hh.2

/-- The stable rank of the byte that precedes the suffix at `i + 1` is the slot of
the suffix at `i`: bytes with the same value are in the output in the order of
the suffixes that they start. -/
theorem stableRank_outIndex (h : IsSuffixArray S SA) (hn : 1 ≤ S.length) {out : List Int}
    (hperm : out.Perm S)
    (hcells : ∀ q, 1 ≤ q → q ≤ S.length → cell out (outIndex SA S.length q) = sym S (q - 1))
    (i : Nat) (hi : i < S.length) :
    stableRank out (outIndex SA S.length (i + 1)) = slotOf SA i := by
  have hc : sym out (outIndex SA S.length (i + 1)) = sym S i := hcells (i + 1) (by omega) hi
  have hsi := h.slot_lt i hi
  have hcnt : countPos (slotOf SA i) (fun x => sym S (cell SA x).toNat = sym S i)
      = countPos (outIndex SA S.length (i + 1)) (fun j => sym out j = sym S i) := by
    apply countPos_bij _ _ _ _ (fun x => outIndex SA S.length ((cell SA x).toNat + 1))
    · intro x hx hpx
      obtain ⟨p, hp, hxp⟩ := h.cell_lt x (by omega)
      have hsp := h.slot_cell x p (by omega) hxp
      simp only [hxp, Int.toNat_ofNat] at hpx ⊢
      have hcp := hcells (p + 1) (by omega) (by omega)
      rw [Nat.add_sub_cancel] at hcp
      exact ⟨(outIndex_succ_lt_iff h p i hp hi hpx).mpr (by omega), hcp.trans hpx⟩
    · intro x y hx hy hpx hpy hxy
      obtain ⟨p, hp, hxp⟩ := h.cell_lt x (by omega)
      obtain ⟨q, hq, hyq⟩ := h.cell_lt y (by omega)
      have hsp := h.slot_cell x p (by omega) hxp
      have hsq := h.slot_cell y q (by omega) hyq
      simp only [hxp, hyq, Int.toNat_ofNat] at hpx hpy hxy
      have h1 := outIndex_succ_lt_iff h p q hp hq (by rw [hpx, hpy])
      have h2 := outIndex_succ_lt_iff h q p hq hp (by rw [hpx, hpy])
      omega
    · intro j hj hqj
      have hoi := outIndex_lt h (i + 1) (by omega) (by omega)
      obtain ⟨q, hq1, hq2, hqj'⟩ := outIndex_surj h hn j (by omega)
      obtain ⟨p, rfl⟩ : ∃ p, q = p + 1 := ⟨q - 1, by omega⟩
      have hcp := hcells (p + 1) (by omega) hq2
      rw [Nat.add_sub_cancel, hqj'] at hcp
      have hsym : sym S p = sym S i := hcp.symm.trans hqj
      have hlt := (outIndex_succ_lt_iff h p i (by omega) hi hsym).mp (by omega)
      refine ⟨slotOf SA p, hlt, ?_, ?_⟩
      · simp only [h.cell_slot p (by omega), Int.toNat_ofNat]
        exact hsym
      · simp only [h.cell_slot p (by omega), Int.toNat_ofNat]
        exact hqj'
  unfold stableRank
  rw [hc, bHead_perm hperm, ← hcnt]
  exact (h.slot_eq i hi).1.symm

/-- One iteration of the reconstruction loop on the transform of `S`. -/
theorem decodeStep_of_suffix_array (h : IsSuffixArray S SA) (hb : IsBytes S)
    (hn1 : 1 ≤ S.length) (hn : S.length < 2147483648) {out lut pos : List Int}
    (hperm : out.Perm S)
    (hcells : ∀ q, 1 ≤ q → q ≤ S.length → cell out (outIndex SA S.length q) = sym S (q - 1))
    (hL : LutInv out (slotOf SA 0 + 1) S.length lut pos)
    (hends : ∀ c : Nat, c < 256 → cell pos c = bEnd out c) (i : Nat) (hi : i < S.length)
    (st : List Int × Int) (hinv : DecodeInv S SA i st.1 st.2) :
    ∃ st', decodeStep pos lut i st = some st' ∧ DecodeInv S SA (i + 1) st'.1 st'.2 := by
  obtain ⟨o, t⟩ := st
  simp only at hinv
  have hol := hperm.length_eq
  have hv : ValidInput out S.length 256 := ⟨hol, fun x hx => hb x (hperm.mem_iff.mp hx)⟩
  have hvS : ValidInput S S.length 256 := ⟨rfl, fun x hx => hb x hx⟩
  have hsi := h.slot_lt i hi
  have ht : t = ((slotOf SA i + 1 : Nat) : Int) := by
    rw [hinv.tval]
    unfold rowOf
    rw [if_neg (by omega)]
  obtain ⟨c, hc256, hc1, hc2, _, hstep⟩ := decodeStep_spec hv hn (by rw [hL.lenLut, hol]) hL.lenPos
    hends i o (slotOf SA i + 1) hinv.lenOut hi (by omega) (by omega)
  rw [bHead_perm hperm] at hc1
  rw [bEnd_perm hperm] at hc2
  obtain ⟨hs1, hs2⟩ := h.slot_eq i hi
  have hci : (c : Int) = sym S i := by
    by_contra hne
    rcases Int.lt_or_gt_of_ne hne with hlt | hlt
    · have := bEnd_le_bHead S _ _ hlt
      omega
    · have := bEnd_le_bHead S _ _ hlt
      omega
  have hz0 := h.slot_lt 0 (by omega)
  have hnext : cell lut (slotOf SA i + 1 - 1) = rowOf SA S.length (i + 1) := by
    rw [Nat.add_sub_cancel, ← stableRank_outIndex h hn1 hperm hcells i hi,
      hL.done _ (outIndex_lt h (i + 1) (by omega) (by omega))]
    unfold outIndex rowOf
    by_cases hin : i + 1 = S.length
    · rw [if_pos hin, if_pos hin, if_pos (by omega)]
    · have hne : slotOf SA (i + 1) ≠ slotOf SA 0 := fun hh => by
        have := h.slot_inj (i + 1) 0 (by omega) (by omega) hh
        omega
      rw [if_neg hin, if_neg hin]
      by_cases hlt : slotOf SA (i + 1) < slotOf SA 0
      · rw [if_pos hlt, if_pos (by omega)]
      · rw [if_neg hlt, if_neg (by omega)]
        push_cast; rfl
  refine ⟨(o.set i c, cell lut (slotOf SA i + 1 - 1)), by rw [ht]; exact hstep, ?_⟩
  refine ⟨by simpa using hinv.lenOut, hnext, ?_⟩
  intro x hx
  simp only
  rw [cell_set]
  by_cases hix : i = x
  · rw [if_pos ⟨hix, by rw [hinv.lenOut]; exact hi⟩, hci, hix]
  · rw [if_neg (fun hh => hix hh.1)]
    exact hinv.done x (by omega)

/-- The decoder on the transform of a sequence of bytes below 128 with its suffix
array: the tables are built, every iteration `i` of the reconstruction loop
starts with `t` the row of the suffix at `i`, and the loop ends with the
sequence. -/
theorem inverse_bwt_of_transform (h : IsSuffixArray S SA) (hv7 : ValidInput S S.length 128)
    (hn1 : 1 ≤ S.length) (hn : S.length < 2147483648) :
    ∃ out lut pos, bwt_permute S SA S.length = some (out, (slotOf SA 0 : Int) + 1) ∧
      ValidInput out S.length 128 ∧ slotOf SA 0 < S.length ∧
      inverse_bwt_tables out S.length ((slotOf SA 0 : Int) + 1) = some (lut, pos) ∧
      lut.length = S.length ∧ pos.length = 256 ∧
      (∀ c : Nat, c < 256 → cell pos c = bEnd out c) ∧
      (∀ i, i ≤ S.length → ∃ st, loopUp (decodeStep pos lut) i 0
          (List.replicate S.length 0, ((slotOf SA 0 : Int) + 1) % 2 ^ 32) = some st ∧
        DecodeInv S SA i st.1 st.2) ∧
      inverse_bwt out S.length ((slotOf SA 0 : Int) + 1) = some S := by
  obtain ⟨out, hout, hol, hperm, hcells⟩ := bwt_permute_of_suffix_array h hn1
  have hb : IsBytes S := fun x hx => hv7.bytes.2 x hx
  have hv : ValidInput out S.length 128 := ⟨hol, fun x hx => hv7.2 x (hperm.mem_iff.mp hx)⟩
  have hz0 := h.slot_lt 0 (by omega)
  obtain ⟨lut, pos, htab, hL, hends⟩ := inverse_bwt_tables_spec hv hn (slotOf SA 0 + 1)
    (by omega)
  rw [show ((slotOf SA 0 + 1 : Nat) : Int) = (slotOf SA 0 : Int) + 1 by omega] at htab
  have hmod : ((slotOf SA 0 : Int) + 1) % 2 ^ 32 = (slotOf SA 0 : Int) + 1 := by
    rw [two_pow_32]; omega
  have hloop : ∀ i, i ≤ S.length → ∃ st, loopUp (decodeStep pos lut) i 0
      (List.replicate S.length 0, ((slotOf SA 0 : Int) + 1) % 2 ^ 32) = some st ∧
      DecodeInv S SA i st.1 st.2 := by
    intro i hi
    have := loopUp_inv (decodeStep pos lut) (fun j st => DecodeInv S SA j st.1 st.2) i 0
      (List.replicate S.length 0, ((slotOf SA 0 : Int) + 1) % 2 ^ 32)
      ⟨List.length_replicate _ _, by
        simp only
        rw [hmod]
        unfold rowOf
        rw [if_neg (by omega)]
        push_cast; rfl, fun x hx => by omega⟩
      (fun j st _ hj hinv =>
        decodeStep_of_suffix_array h hb hn1 hn hperm hcells hL hends j (by omega) st hinv)
    rw [Nat.zero_add] at this
    exact this
  refine ⟨out, lut, pos, hout, hv, hz0, htab, by rw [hL.lenLut, hol], hL.lenPos, hends, hloop,
    ?_⟩
  obtain ⟨st, hst, hinv⟩ := hloop S.length (Nat.le_refl _)
  rw [inverse_bwt_eq, htab, Option.some_bind]
  simp only
  rw [hst, Option.some_bind]
  congr 1
  exact list_eq_of_cell st.1 S hinv.lenOut fun x hx => by
    rw [hinv.done x (by rw [← hinv.lenOut]; exact hx)]
    rfl

end Transform

/-! ## Claims on the decoder -/

/-- C11, as stated, fails.  With the two bytes `0 1` and the zero index `1`, which
is in `[0, n]`, the tables are built and the first iteration of the
reconstruction loop leaves `t = 0`: the second iteration reads `lut[t-1]` with
`t = 0`, outside the table.  With the one byte `0` and the zero index `0` the
first iteration already starts with `t = 0`. -/
theorem inverse_bwt_fails_in_range :
    (∃ lut pos, inverse_bwt_tables [0, 1] 2 1 = some (lut, pos) ∧
      loopUp (decodeStep pos lut) 1 0 (List.replicate 2 0, 1 % 2 ^ 32) = some ([0, 0], 0)) ∧
    inverse_bwt [0, 1] 2 1 = none ∧ inverse_bwt [0] 1 0 = none :=
  ⟨⟨[0, 2], 1 :: List.replicate 255 2, by decide!, by decide!⟩, by decide!, by decide!⟩

/-- C11, amended.  For every `n ≥ 1` (within the range of the C `int` length) and
every sequence `S` of `n` bytes below 128 with its suffix array `SA`, on the bytes
`out` and the zero index `z` that the permutation loop of `bwt` produces from `S`
and `SA` (the result of `bwt` itself when `construct_suffix_array` returns `SA`),
`inverse_bwt` runs to completion: `z` is in `[1, n]`, the tables are built, every
iteration of the reconstruction loop starts with `1 ≤ t ≤ n`, so that the read
`lut[t-1]` is inside the `n` slots of `lut`, its binary search ends with a byte
index `imax + 1` in `[0, 255]`, and `n` bytes are returned. -/
theorem inverse_bwt_total_on_transform (S SA : List Int) (n : Nat) (hv : ValidInput S n 128)
    (hn1 : 1 ≤ n) (hn : n < 2147483648) (hSA : IsSuffixArray S SA) :
    ∃ out z lut pos, bwt_permute S SA n = some (out, z) ∧
      (construct_suffix_array S n 256 = some SA → bwt S n = some (out, z)) ∧
      1 ≤ z ∧ z ≤ n ∧
      inverse_bwt_tables out n z = some (lut, pos) ∧ lut.length = n ∧
      (∀ i, i < n → ∃ (o : List Int) (t imax : Int),
        loopUp (decodeStep pos lut) i 0 (List.replicate n 0, z % 2 ^ 32) = some (o, t) ∧
        1 ≤ t ∧ t ≤ n ∧
        bsearch pos t 257 0 255 = some imax ∧ 0 ≤ imax + 1 ∧ imax + 1 ≤ 255) ∧
      ∃ res, inverse_bwt out n z = some res ∧ res.length = n := by
  obtain rfl := hv.1
  obtain ⟨out, lut, pos, hout, hvo, hz0, htab, hll, hpl, hends, hloop, hres⟩ :=
    inverse_bwt_of_transform hSA hv hn1 hn
  refine ⟨out, _, lut, pos, hout, ?_, by omega, by omega, htab, hll, ?_, S, hres, rfl⟩
  · intro hcs
    unfold bwt
    rw [hcs, Option.some_bind, hout]
  · intro i hi
    obtain ⟨st, hst, hinv⟩ := hloop i (by omega)
    obtain ⟨o, t⟩ := st
    simp only at hinv
    have hsi := hSA.slot_lt i hi
    have ht : t = ((slotOf SA i + 1 : Nat) : Int) := by
      rw [hinv.tval]
      unfold rowOf
      rw [if_neg (by omega)]
    obtain ⟨c, hc256, _, _, hsearch, _⟩ := decodeStep_spec hvo.bytes hn hll hpl hends i o
      (slotOf SA i + 1) hinv.lenOut hi (by omega) (by omega)
    rw [← ht] at hsearch
    exact ⟨o, t, (c : Int) - 1, hst, by omega, by omega, hsearch, by omega, by omega⟩

theorem inverse_bwt_total_on_transform_witness :
    ValidInput [98, 97, 110, 97, 110, 97] 6 128 ∧
    1 ≤ 6 ∧ 6 < 2147483648 ∧ IsSuffixArray [98, 97, 110, 97, 110, 97] [5, 3, 1, 0, 4, 2] ∧
    ∃ out z lut pos, bwt_permute [98, 97, 110, 97, 110, 97] [5, 3, 1, 0, 4, 2] 6
        = some (out, z) ∧
      (construct_suffix_array [98, 97, 110, 97, 110, 97] 6 256 = some [5, 3, 1, 0, 4, 2] →
        bwt [98, 97, 110, 97, 110, 97] 6 = some (out, z)) ∧
      1 ≤ z ∧ z ≤ ((6 : Nat) : Int) ∧
      inverse_bwt_tables out 6 z = some (lut, pos) ∧ lut.length = 6 ∧
      (∀ i, i < 6 → ∃ (o : List Int) (t imax : Int),
        loopUp (decodeStep pos lut) i 0 (List.replicate 6 0, z % 2 ^ 32) = some (o, t) ∧
        1 ≤ t ∧ t ≤ ((6 : Nat) : Int) ∧
        bsearch pos t 257 0 255 = some imax ∧ 0 ≤ imax + 1 ∧ imax + 1 ≤ 255) ∧
      ∃ res, inverse_bwt out 6 z = some res ∧ res.length = 6 :=
  ⟨by decide, by decide, by decide, by decide!,
    inverse_bwt_total_on_transform [98, 97, 110, 97, 110, 97] [5, 3, 1, 0, 4, 2] 6 (by decide)
      (by decide) (by decide) (by decide!)⟩

/-- C12, as stated, fails.  The bytes `1 2` are the transform of `2 1`, with zero
index 2; the zero index 1 belongs to the transform `2 1` of `1 2`.  Given the
bytes `1 2` with the zero index 1, `inverse_bwt` rejects nothing: it builds its
tables, and the first iteration of the reconstruction loop writes the byte `1`
over the `9` that `out[0]` held. -/
theorem inverse_bwt_writes_on_wrong_index :
    bwt [2, 1] 2 = some ([1, 2], 2) ∧ bwt [1, 2] 2 = some ([2, 1], 1) ∧
    ∃ lut pos, inverse_bwt_tables [1, 2] 2 1 = some (lut, pos) ∧
      loopUp (decodeStep pos lut) 1 0 ([9, 9], 1 % 2 ^ 32) = some ([1, 9], 0) :=
  ⟨by decide!, by decide!,
    ⟨[0, 2], 0 :: 1 :: List.replicate 254 2, by decide!, by decide!⟩⟩

/-- C12, amended.  `inverse_bwt` checks nothing and signals nothing.  For every
`n ≥ 1` (within the range of the C `int` length), every sequence of `n` bytes
below 128 and every zero index `z` in `[1, n]`, whether it belongs to the data
or not, the tables are built and the first iteration of the reconstruction loop
runs: whatever `out` held, it writes to `out[0]` the byte `c` for which `z` lies
above the number of bytes smaller than `c` and not above the number of bytes
up to `c`, and it reads `lut[z-1]`, inside the table. -/
theorem inverse_bwt_no_rejection (data : List Int) (n : Nat) (hv : ValidInput data n 128)
    (hn : n < 2147483648) (z : Int) (hz1 : 1 ≤ z) (hz2 : z ≤ n) (out0 : List Int)
    (hout : out0.length = n) :
    ∃ (lut pos : List Int) (c : Nat), inverse_bwt_tables data n z = some (lut, pos) ∧
      lut.length = n ∧ (bHead data c : Int) < z ∧ z ≤ bEnd data c ∧
      decodeStep pos lut 0 (out0, z % 2 ^ 32)
        = some (out0.set 0 c, cell lut (z - 1).toNat) ∧
      cell (out0.set 0 c) 0 = c := by
  obtain ⟨zn, rfl⟩ : ∃ zn : Nat, z = zn := ⟨z.toNat, by omega⟩
  obtain ⟨lut, pos, htab, hL, hends⟩ := inverse_bwt_tables_spec hv hn zn (by omega)
  have hll : lut.length = n := by rw [hL.lenLut, hv.1]
  obtain ⟨c, _, hc1, hc2, _, hstep⟩ := decodeStep_spec hv.bytes hn hll hL.lenPos hends 0 out0 zn
    hout (by omega) (by omega) (by omega)
  have hmod : (zn : Int) % 2 ^ 32 = zn := by rw [two_pow_32]; omega
  refine ⟨lut, pos, c, htab, hll, by omega, by omega, ?_, ?_⟩
  · rw [hmod, show ((zn : Int) - 1).toNat = zn - 1 by omega]
    exact hstep
  · rw [cell_set, if_pos ⟨rfl, by omega⟩]

theorem inverse_bwt_no_rejection_witness :
    ValidInput [1, 2] 2 128 ∧ 2 < 2147483648 ∧ (1 : Int) ≤ 1 ∧ (1 : Int) ≤ ((2 : Nat) : Int) ∧
    ([9, 9] : List Int).length = 2 ∧
    ∃ (lut pos : List Int) (c : Nat), inverse_bwt_tables [1, 2] 2 1 = some (lut, pos) ∧
      lut.length = 2 ∧ (bHead [1, 2] c : Int) < 1 ∧ (1 : Int) ≤ bEnd [1, 2] c ∧
      decodeStep pos lut 0 ([9, 9], 1 % 2 ^ 32)
        = some (([9, 9] : List Int).set 0 c, cell lut ((1 : Int) - 1).toNat) ∧
      cell (([9, 9] : List Int).set 0 c) 0 = c :=
  ⟨by decide, by decide, by decide, by decide, by decide,
    inverse_bwt_no_rejection [1, 2] 2 (by decide) (by decide) 1 (by decide) (by decide) [9, 9]
      (by decide)⟩

/-- C13 fails on the code.  For the three bytes `1 200 1` the suffix array is
`[2, 0, 1]`, which is also what `construct_suffix_array` returns, and the
permutation loop of `bwt` produces the bytes `1 200 1` with the zero index 2;
`inverse_bwt` on these does not return the sequence: its counting loop
`++pos[data[i]]` indexes `pos` with the plain `char` value `200 - 256 = -56`. -/
theorem inverse_bwt_of_suffix_array_fails :
    IsSuffixArray [1, 200, 1] [2, 0, 1] ∧
    construct_suffix_array [1, 200, 1] 3 256 = some [2, 0, 1] ∧
    bwt_permute [1, 200, 1] [2, 0, 1] 3 = some ([1, 200, 1], 2) ∧
    char_value 200 = -56 ∧
    posCountStep [1, 200, 1] 1 (0 :: 1 :: List.replicate 254 0) = none ∧
    inverse_bwt [1, 200, 1] 3 2 = none :=
  ⟨by decide!, by decide!, by decide!, by decide, by decide!, by decide!⟩

end Smorgasbord
